import Mathlib

/-!
# RecommenderOptimization: the balanced tree engine and the graph containers

A shallow embedding of `AVLTree.hpp` and `KeyValueAVLTree.hpp`, of the adapters
`Set.hpp` and `Map.hpp`, and of the graph classes of `Graph.hpp` and
`WeightedUndirectedGraph.hpp`.

* A node pointer is a value of an inductive type: `nullptr` or a node with the
  fields of the C++ struct, in the order of the struct.
* The template parameters `T` and `Key` are types with a linear order, which
  gives the operators `==`, `<` and `>` the source uses.
* `int` heights are `Int`.  A stored height that is correct is the length of a
  path of the tree, so it stays far below `2 ^ 31`.
* A function that dereferences a pointer fails with `Fault.null_dereference`
  when the pointer is null, and `find_min` / `find_max` fail with
  `Fault.out_of_range` on the empty tree, as the source throws.
-/

/-- The ways an operation of the engine can fail to return. -/
inductive Fault where
  | out_of_range (what : String)
  | null_dereference
  deriving DecidableEq

/-- Pointer to a `KeyValueAVLNode<Key, Value>`; fields in the order of the struct. -/
inductive KeyValueAVLNode (Key Value : Type) where
  | nullptr : KeyValueAVLNode Key Value
  | node (key : Key) (value : Value) (height : Int)
      (left right : KeyValueAVLNode Key Value) : KeyValueAVLNode Key Value
  deriving DecidableEq

/-- Pointer to an `AVLNode<T>`; fields in the order of the struct. -/
inductive AVLNode (T : Type) where
  | nullptr : AVLNode T
  | node (data : T) (height : Int) (left right : AVLNode T) : AVLNode T
  deriving DecidableEq

namespace KeyValueAVLTree

variable {Key Value : Type}

/-- The test `node == nullptr`. -/
def isNull : KeyValueAVLNode Key Value → Bool
  | .nullptr => true
  | .node _ _ _ _ _ => false

/-- Source `size(node)`: full recursive count. -/
def size : KeyValueAVLNode Key Value → Nat
  | .nullptr => 0
  | .node _ _ _ left right => 1 + size left + size right

/-- Source `height(node)`: the stored height, 0 for a null pointer. -/
def height : KeyValueAVLNode Key Value → Int
  | .nullptr => 0
  | .node _ _ h _ _ => h

/-- Source `update_height(node)`: stores `1 + max(height(left), height(right))`. -/
def update_height : KeyValueAVLNode Key Value → Except Fault (KeyValueAVLNode Key Value)
  | .nullptr => .error .null_dereference
  | .node key value _ left right =>
      .ok (.node key value (1 + max (height left) (height right)) left right)

/-- Source `calculate_balance_factor(node)`: `height(right) - height(left)`, 0 for null. -/
def calculate_balance_factor : KeyValueAVLNode Key Value → Int
  | .nullptr => 0
  | .node _ _ _ left right => height right - height left

/-- Source `find_min(node)`: throws on the empty tree, else walks left while it can. -/
def find_min : KeyValueAVLNode Key Value → Except Fault (KeyValueAVLNode Key Value)
  | .nullptr => .error (.out_of_range "The tree is empty.")
  | .node key value h .nullptr right => .ok (.node key value h .nullptr right)
  | .node _ _ _ (.node lk lv lh ll lr) _ => find_min (.node lk lv lh ll lr)

/-- Source `find_max(node)`: throws on the empty tree, else walks right while it can. -/
def find_max : KeyValueAVLNode Key Value → Except Fault (KeyValueAVLNode Key Value)
  | .nullptr => .error (.out_of_range "The tree is empty.")
  | .node key value h left .nullptr => .ok (.node key value h left .nullptr)
  | .node _ _ _ _ (.node rk rv rh rl rr) => find_max (.node rk rv rh rl rr)

/-- Source `rotate_left(node)`: the right child becomes the root of the subtree. -/
def rotate_left : KeyValueAVLNode Key Value → Except Fault (KeyValueAVLNode Key Value)
  | .node key value h left (.node rk rv rh rl rr) => do
      -- newRoot = node->right; node->right = newRoot->left; newRoot->left = node
      let node ← update_height (.node key value h left rl)
      update_height (.node rk rv rh node rr)
  | _ => .error .null_dereference

/-- Source `rotate_right(node)`: the left child becomes the root of the subtree. -/
def rotate_right : KeyValueAVLNode Key Value → Except Fault (KeyValueAVLNode Key Value)
  | .node key value h (.node lk lv lh ll lr) right => do
      -- newRoot = node->left; node->left = newRoot->right; newRoot->right = node
      let node ← update_height (.node key value h lr right)
      update_height (.node lk lv lh ll node)
  | _ => .error .null_dereference

/-- Source `rotate_left_right(node)`: rotate the left child left, then the node right. -/
def rotate_left_right : KeyValueAVLNode Key Value → Except Fault (KeyValueAVLNode Key Value)
  | .nullptr => .error .null_dereference
  | .node key value h left right => do
      let left ← rotate_left left
      rotate_right (.node key value h left right)

/-- Source `rotate_right_left(node)`: rotate the right child right, then the node left. -/
def rotate_right_left : KeyValueAVLNode Key Value → Except Fault (KeyValueAVLNode Key Value)
  | .nullptr => .error .null_dereference
  | .node key value h left right => do
      let right ← rotate_right right
      rotate_left (.node key value h left right)

/-- Source `balance(node)`: rotates only when the balance factor is exactly 2 or -2. -/
def balance : KeyValueAVLNode Key Value → Except Fault (KeyValueAVLNode Key Value)
  | .nullptr => .ok .nullptr
  | .node key value h left right =>
      let bf := calculate_balance_factor (.node key value h left right)
      if bf = 2 then
        if calculate_balance_factor right ≥ 0 then
          rotate_left (.node key value h left right)
        else
          rotate_right_left (.node key value h left right)
      else if bf = -2 then
        if calculate_balance_factor left ≤ 0 then
          rotate_right (.node key value h left right)
        else
          rotate_left_right (.node key value h left right)
      else
        .ok (.node key value h left right)

variable [LinearOrder Key]

/-- Source `find(node, key)`: the node holding `key`, or `nullptr`. -/
def find : KeyValueAVLNode Key Value → Key → KeyValueAVLNode Key Value
  | .nullptr, _ => .nullptr
  | .node k v h left right, key =>
      if key = k then .node k v h left right
      else if key < k then find left key
      else find right key

/-- Source `insert(node, key, value)`: an existing key returns the node at once. -/
def insert : KeyValueAVLNode Key Value → Key → Value →
    Except Fault (KeyValueAVLNode Key Value)
  | .nullptr, key, value => do
      let node ← update_height (.node key value 1 .nullptr .nullptr)
      balance node
  | .node k v h left right, key, value =>
      if key < k then do
        let left ← insert left key value
        let node ← update_height (.node k v h left right)
        balance node
      else if key > k then do
        let right ← insert right key value
        let node ← update_height (.node k v h left right)
        balance node
      else
        .ok (.node k v h left right)

/-- Source `erase(node, key)`: a node with two children takes the key and value of the
maximum of its left subtree, which is then erased from the left subtree. -/
def erase : KeyValueAVLNode Key Value → Key → Except Fault (KeyValueAVLNode Key Value)
  | .nullptr, _ => .ok .nullptr
  | .node k v h left right, key =>
      if key < k then do
        let left ← erase left key
        let node ← update_height (.node k v h left right)
        balance node
      else if key > k then do
        let right ← erase right key
        let node ← update_height (.node k v h left right)
        balance node
      else if isNull left || isNull right then
        .ok (if !isNull left then left else right)
      else do
        let temp ← find_max left
        match temp with
        | .nullptr => .error .null_dereference
        | .node tk tv _ _ _ => do
            let left ← erase left tk
            let node ← update_height (.node tk tv h left right)
            balance node

/-- Source `preorder_traversal(node, traversal)`: appends to `traversal`. -/
def preorder_traversal : KeyValueAVLNode Key Value → List (Key × Value) → List (Key × Value)
  | .nullptr, traversal => traversal
  | .node k v _ left right, traversal =>
      preorder_traversal right (preorder_traversal left (traversal ++ [(k, v)]))

/-- Source `inorder_traversal(node, traversal)`: appends to `traversal`. -/
def inorder_traversal : KeyValueAVLNode Key Value → List (Key × Value) → List (Key × Value)
  | .nullptr, traversal => traversal
  | .node k v _ left right, traversal =>
      inorder_traversal right (inorder_traversal left traversal ++ [(k, v)])

/-- Source `postorder_traversal(node, traversal)`: appends to `traversal`. -/
def postorder_traversal : KeyValueAVLNode Key Value → List (Key × Value) → List (Key × Value)
  | .nullptr, traversal => traversal
  | .node k v _ left right, traversal =>
      postorder_traversal right (postorder_traversal left traversal) ++ [(k, v)]

end KeyValueAVLTree

namespace AVLTree

variable {T : Type}

/-- The test `node == nullptr`. -/
def isNull : AVLNode T → Bool
  | .nullptr => true
  | .node _ _ _ _ => false

/-- Source `size(node)`: full recursive count. -/
def size : AVLNode T → Nat
  | .nullptr => 0
  | .node _ _ left right => 1 + size left + size right

/-- Source `height(node)`: the stored height, 0 for a null pointer. -/
def height : AVLNode T → Int
  | .nullptr => 0
  | .node _ h _ _ => h

/-- Source `update_height(node)`: stores `1 + max(height(left), height(right))`. -/
def update_height : AVLNode T → Except Fault (AVLNode T)
  | .nullptr => .error .null_dereference
  | .node data _ left right =>
      .ok (.node data (1 + max (height left) (height right)) left right)

/-- Source `calculate_balance_factor(node)`: `height(right) - height(left)`, 0 for null. -/
def calculate_balance_factor : AVLNode T → Int
  | .nullptr => 0
  | .node _ _ left right => height right - height left

/-- Source `find_min(node)`: throws on the empty tree, else walks left while it can. -/
def find_min : AVLNode T → Except Fault (AVLNode T)
  | .nullptr => .error (.out_of_range "The tree is empty.")
  | .node data h .nullptr right => .ok (.node data h .nullptr right)
  | .node _ _ (.node ld lh ll lr) _ => find_min (.node ld lh ll lr)

/-- Source `find_max(node)`: throws on the empty tree, else walks right while it can. -/
def find_max : AVLNode T → Except Fault (AVLNode T)
  | .nullptr => .error (.out_of_range "The tree is empty.")
  | .node data h left .nullptr => .ok (.node data h left .nullptr)
  | .node _ _ _ (.node rd rh rl rr) => find_max (.node rd rh rl rr)

/-- Source `rotate_left(node)`: the right child becomes the root of the subtree. -/
def rotate_left : AVLNode T → Except Fault (AVLNode T)
  | .node data h left (.node rd rh rl rr) => do
      -- newRoot = node->right; node->right = newRoot->left; newRoot->left = node
      let node ← update_height (.node data h left rl)
      update_height (.node rd rh node rr)
  | _ => .error .null_dereference

/-- Source `rotate_right(node)`: the left child becomes the root of the subtree. -/
def rotate_right : AVLNode T → Except Fault (AVLNode T)
  | .node data h (.node ld lh ll lr) right => do
      -- newRoot = node->left; node->left = newRoot->right; newRoot->right = node
      let node ← update_height (.node data h lr right)
      update_height (.node ld lh ll node)
  | _ => .error .null_dereference

/-- Source `rotate_left_right(node)`: rotate the left child left, then the node right. -/
def rotate_left_right : AVLNode T → Except Fault (AVLNode T)
  | .nullptr => .error .null_dereference
  | .node data h left right => do
      let left ← rotate_left left
      rotate_right (.node data h left right)

/-- Source `rotate_right_left(node)`: rotate the right child right, then the node left. -/
def rotate_right_left : AVLNode T → Except Fault (AVLNode T)
  | .nullptr => .error .null_dereference
  | .node data h left right => do
      let right ← rotate_right right
      rotate_left (.node data h left right)

/-- Source `balance(node)`: rotates only when the balance factor is exactly 2 or -2. -/
def balance : AVLNode T → Except Fault (AVLNode T)
  | .nullptr => .ok .nullptr
  | .node data h left right =>
      let bf := calculate_balance_factor (.node data h left right)
      if bf = 2 then
        if calculate_balance_factor right ≥ 0 then
          rotate_left (.node data h left right)
        else
          rotate_right_left (.node data h left right)
      else if bf = -2 then
        if calculate_balance_factor left ≤ 0 then
          rotate_right (.node data h left right)
        else
          rotate_left_right (.node data h left right)
      else
        .ok (.node data h left right)

/-- Source `preorder_traversal(node, traversal)`: appends to `traversal`. -/
def preorder_traversal : AVLNode T → List T → List T
  | .nullptr, traversal => traversal
  | .node data _ left right, traversal =>
      preorder_traversal right (preorder_traversal left (traversal ++ [data]))

/-- Source `inorder_traversal(node, traversal)`: appends to `traversal`. -/
def inorder_traversal : AVLNode T → List T → List T
  | .nullptr, traversal => traversal
  | .node data _ left right, traversal =>
      inorder_traversal right (inorder_traversal left traversal ++ [data])

/-- Source `postorder_traversal(node, traversal)`: appends to `traversal`. -/
def postorder_traversal : AVLNode T → List T → List T
  | .nullptr, traversal => traversal
  | .node data _ left right, traversal =>
      postorder_traversal right (postorder_traversal left traversal) ++ [data]

/-- The public `inorder_traversal()`: the private walk started on an empty vector. -/
def inorder (t : AVLNode T) : List T :=
  inorder_traversal t []

/-- The height of the glossary: the number of nodes on the longest downward path. -/
def depth : AVLNode T → Int
  | .nullptr => 0
  | .node _ _ left right => 1 + max (depth left) (depth right)

/-- Invariant 3: every stored height is 1 + max of the heights of the children. -/
def HeightsOk : AVLNode T → Prop
  | .nullptr => True
  | .node _ h left right =>
      h = 1 + max (height left) (height right) ∧ HeightsOk left ∧ HeightsOk right

/-- Invariant 2 on the stored heights, the ones `balance` reads. -/
def Balanced : AVLNode T → Prop
  | .nullptr => True
  | .node _ _ left right =>
      |height left - height right| ≤ 1 ∧ Balanced left ∧ Balanced right

/-- Invariant 2 on the heights of the glossary. -/
def DepthBalanced : AVLNode T → Prop
  | .nullptr => True
  | .node _ _ left right =>
      |depth left - depth right| ≤ 1 ∧ DepthBalanced left ∧ DepthBalanced right

/-- Every value of the tree satisfies `p`. -/
def AllKeys (p : T → Prop) : AVLNode T → Prop
  | .nullptr => True
  | .node data _ left right => p data ∧ AllKeys p left ∧ AllKeys p right

/-- Invariant 1: at every node the values of the left subtree are strictly less
and the values of the right subtree strictly greater than the value of the node. -/
def BST [LT T] : AVLNode T → Prop
  | .nullptr => True
  | .node data _ left right =>
      AllKeys (fun x => x < data) left ∧ AllKeys (fun x => data < x) right ∧
        BST left ∧ BST right

instance decidableHeightsOk : (t : AVLNode T) → Decidable (HeightsOk t)
  | .nullptr => isTrue trivial
  | .node _ h left right =>
      have := decidableHeightsOk left
      have := decidableHeightsOk right
      inferInstanceAs (Decidable
        (h = 1 + max (height left) (height right) ∧ HeightsOk left ∧ HeightsOk right))

instance decidableBalanced : (t : AVLNode T) → Decidable (Balanced t)
  | .nullptr => isTrue trivial
  | .node _ _ left right =>
      have := decidableBalanced left
      have := decidableBalanced right
      inferInstanceAs (Decidable
        (|height left - height right| ≤ 1 ∧ Balanced left ∧ Balanced right))

instance decidableDepthBalanced : (t : AVLNode T) → Decidable (DepthBalanced t)
  | .nullptr => isTrue trivial
  | .node _ _ left right =>
      have := decidableDepthBalanced left
      have := decidableDepthBalanced right
      inferInstanceAs (Decidable
        (|depth left - depth right| ≤ 1 ∧ DepthBalanced left ∧ DepthBalanced right))

instance decidableAllKeys (p : T → Prop) [DecidablePred p] :
    (t : AVLNode T) → Decidable (AllKeys p t)
  | .nullptr => isTrue trivial
  | .node data _ left right =>
      have := decidableAllKeys p left
      have := decidableAllKeys p right
      inferInstanceAs (Decidable (p data ∧ AllKeys p left ∧ AllKeys p right))

instance decidableBST [LT T] [DecidableRel (fun a b : T => a < b)] :
    (t : AVLNode T) → Decidable (BST t)
  | .nullptr => isTrue trivial
  | .node data _ left right =>
      have := decidableBST left
      have := decidableBST right
      inferInstanceAs (Decidable
        (AllKeys (fun x => x < data) left ∧ AllKeys (fun x => data < x) right ∧
          BST left ∧ BST right))

variable [LinearOrder T]

/-- Source `find(node, value)`: the node holding `value`, or `nullptr`. -/
def find : AVLNode T → T → AVLNode T
  | .nullptr, _ => .nullptr
  | .node data h left right, value =>
      if value = data then .node data h left right
      else if value < data then find left value
      else find right value

/-- Source `insert(node, value)`: an existing value returns the node at once. -/
def insert : AVLNode T → T → Except Fault (AVLNode T)
  | .nullptr, value => do
      let node ← update_height (.node value 1 .nullptr .nullptr)
      balance node
  | .node data h left right, value =>
      if value < data then do
        let left ← insert left value
        let node ← update_height (.node data h left right)
        balance node
      else if value > data then do
        let right ← insert right value
        let node ← update_height (.node data h left right)
        balance node
      else
        .ok (.node data h left right)

/-- Source `erase(node, value)`: a node with two children takes the value of the maximum
of its left subtree, which is then erased from the left subtree. -/
def erase : AVLNode T → T → Except Fault (AVLNode T)
  | .nullptr, _ => .ok .nullptr
  | .node data h left right, value =>
      if value < data then do
        let left ← erase left value
        let node ← update_height (.node data h left right)
        balance node
      else if value > data then do
        let right ← erase right value
        let node ← update_height (.node data h left right)
        balance node
      else if isNull left || isNull right then
        .ok (if !isNull left then left else right)
      else do
        let temp ← find_max left
        match temp with
        | .nullptr => .error .null_dereference
        | .node td _ _ _ => do
            let left ← erase left td
            let node ← update_height (.node td h left right)
            balance node

end AVLTree

/-- Forgetting the payloads of a key-value tree: shape, keys and stored heights stay. -/
def KeyValueAVLNode.forget {Key Value : Type} : KeyValueAVLNode Key Value → AVLNode Key
  | .nullptr => .nullptr
  | .node k _ h left right => .node k h (forget left) (forget right)

/-- The key-value tree with the same shape, keys and heights and trivial payloads. -/
def AVLNode.lift {T : Type} : AVLNode T → KeyValueAVLNode T Unit
  | .nullptr => .nullptr
  | .node data h left right => .node data () h (lift left) (lift right)

/-- A map built by inserting the keys 1 and 2: the right spine 1 -> 2. -/
def sampleMap : KeyValueAVLNode Nat Nat :=
  .node 1 10 2 .nullptr (.node 2 20 1 .nullptr .nullptr)

/-- A set built by inserting the values 1 and 2: the right spine 1 -> 2. -/
def sampleSet : AVLNode Nat :=
  .node 1 2 .nullptr (.node 2 1 .nullptr .nullptr)

/-- A map with the keys 1 to 4 whose root has two children and whose right side is deeper. -/
def sampleMap4 : KeyValueAVLNode Nat Nat :=
  .node 2 20 3 (.node 1 10 1 .nullptr .nullptr)
    (.node 3 30 2 .nullptr (.node 4 40 1 .nullptr .nullptr))

/-- A set with the values 1 to 4 whose root has two children and whose right side is deeper. -/
def sampleSet4 : AVLNode Nat :=
  .node 2 3 (.node 1 1 .nullptr .nullptr) (.node 3 2 .nullptr (.node 4 1 .nullptr .nullptr))

namespace KeyValueAVLTree

variable {Key Value : Type}

/-- The height of the glossary: the number of nodes on the longest downward path. -/
def depth : KeyValueAVLNode Key Value → Int
  | .nullptr => 0
  | .node _ _ _ left right => 1 + max (depth left) (depth right)

/-- Invariant 3: every stored height is 1 + max of the heights of the children. -/
def HeightsOk : KeyValueAVLNode Key Value → Prop
  | .nullptr => True
  | .node _ _ h left right =>
      h = 1 + max (height left) (height right) ∧ HeightsOk left ∧ HeightsOk right

/-- Invariant 2 on the stored heights, the ones `balance` reads. -/
def Balanced : KeyValueAVLNode Key Value → Prop
  | .nullptr => True
  | .node _ _ _ left right =>
      |height left - height right| ≤ 1 ∧ Balanced left ∧ Balanced right

/-- Invariant 2 on the heights of the glossary. -/
def DepthBalanced : KeyValueAVLNode Key Value → Prop
  | .nullptr => True
  | .node _ _ _ left right =>
      |depth left - depth right| ≤ 1 ∧ DepthBalanced left ∧ DepthBalanced right

/-- The public `inorder_traversal()`: the private walk started on an empty vector. -/
def inorder (t : KeyValueAVLNode Key Value) : List (Key × Value) :=
  inorder_traversal t []

/-- The keys of the tree, in in-order. -/
def keys (t : KeyValueAVLNode Key Value) : List Key :=
  (inorder t).map Prod.fst

/-- Every key of the tree satisfies `p`. -/
def AllKeys (p : Key → Prop) : KeyValueAVLNode Key Value → Prop
  | .nullptr => True
  | .node k _ _ left right => p k ∧ AllKeys p left ∧ AllKeys p right

/-- Invariant 1: at every node the keys of the left subtree are strictly less
and the keys of the right subtree strictly greater than the key of the node. -/
def BST [LT Key] : KeyValueAVLNode Key Value → Prop
  | .nullptr => True
  | .node k _ _ left right =>
      AllKeys (fun x => x < k) left ∧ AllKeys (fun x => k < x) right ∧ BST left ∧ BST right

instance decidableHeightsOk : (t : KeyValueAVLNode Key Value) → Decidable (HeightsOk t)
  | .nullptr => isTrue trivial
  | .node _ _ h left right =>
      have := decidableHeightsOk left
      have := decidableHeightsOk right
      inferInstanceAs (Decidable
        (h = 1 + max (height left) (height right) ∧ HeightsOk left ∧ HeightsOk right))

instance decidableBalanced : (t : KeyValueAVLNode Key Value) → Decidable (Balanced t)
  | .nullptr => isTrue trivial
  | .node _ _ _ left right =>
      have := decidableBalanced left
      have := decidableBalanced right
      inferInstanceAs (Decidable
        (|height left - height right| ≤ 1 ∧ Balanced left ∧ Balanced right))

instance decidableDepthBalanced : (t : KeyValueAVLNode Key Value) → Decidable (DepthBalanced t)
  | .nullptr => isTrue trivial
  | .node _ _ _ left right =>
      have := decidableDepthBalanced left
      have := decidableDepthBalanced right
      inferInstanceAs (Decidable
        (|depth left - depth right| ≤ 1 ∧ DepthBalanced left ∧ DepthBalanced right))

instance decidableAllKeys (p : Key → Prop) [DecidablePred p] :
    (t : KeyValueAVLNode Key Value) → Decidable (AllKeys p t)
  | .nullptr => isTrue trivial
  | .node k _ _ left right =>
      have := decidableAllKeys p left
      have := decidableAllKeys p right
      inferInstanceAs (Decidable (p k ∧ AllKeys p left ∧ AllKeys p right))

instance decidableBST [LT Key] [DecidableRel (fun a b : Key => a < b)] :
    (t : KeyValueAVLNode Key Value) → Decidable (BST t)
  | .nullptr => isTrue trivial
  | .node k _ _ left right =>
      have := decidableBST left
      have := decidableBST right
      inferInstanceAs (Decidable
        (AllKeys (fun x => x < k) left ∧ AllKeys (fun x => k < x) right ∧ BST left ∧ BST right))

/-- The calls `insert(key, value)` for the entries of a list, first to last. -/
def insert_all [LinearOrder Key] (t : KeyValueAVLNode Key Value) (entries : List (Key × Value)) :
    Except Fault (KeyValueAVLNode Key Value) :=
  entries.foldlM (fun node e => insert node e.1 e.2) t

/-- The calls `erase(key)` for the keys of a list, first to last. -/
def erase_all [LinearOrder Key] (t : KeyValueAVLNode Key Value) (ks : List Key) :
    Except Fault (KeyValueAVLNode Key Value) :=
  ks.foldlM (fun node key => erase node key) t

/-- The trees a client can build: the empty tree, and what `insert` and `erase`
return on such a tree. -/
inductive Reachable [LinearOrder Key] : KeyValueAVLNode Key Value → Prop
  | empty : Reachable .nullptr
  | step_insert {t t' : KeyValueAVLNode Key Value} (key : Key) (value : Value) :
      Reachable t → insert t key value = .ok t' → Reachable t'
  | step_erase {t t' : KeyValueAVLNode Key Value} (key : Key) :
      Reachable t → erase t key = .ok t' → Reachable t'

end KeyValueAVLTree

namespace AVLTree

variable {T : Type}

/-- The calls `insert(value)` for the values of a list, first to last. -/
def insert_all [LinearOrder T] (t : AVLNode T) (values : List T) : Except Fault (AVLNode T) :=
  values.foldlM (fun node value => insert node value) t

/-- The calls `erase(value)` for the values of a list, first to last. -/
def erase_all [LinearOrder T] (t : AVLNode T) (values : List T) : Except Fault (AVLNode T) :=
  values.foldlM (fun node value => erase node value) t

/-- The trees a client can build: the empty tree, and what `insert` and `erase`
return on such a tree. -/
inductive Reachable [LinearOrder T] : AVLNode T → Prop
  | empty : Reachable .nullptr
  | step_insert {t t' : AVLNode T} (value : T) :
      Reachable t → insert t value = .ok t' → Reachable t'
  | step_erase {t t' : AVLNode T} (value : T) :
      Reachable t → erase t value = .ok t' → Reachable t'

/-- What a run does at a node, named by the value the node holds: a call of
`balance` with the balance factor it computes, and the two single rotations. -/
inductive Event (T : Type) where
  | balance (data : T) (bf : Int)
  | rotate_left (data : T)
  | rotate_right (data : T)
  deriving DecidableEq

namespace Traced

/-- Source `rotate_left(node)`, with the call recorded. -/
def rotate_left : AVLNode T → Except Fault (AVLNode T × List (Event T))
  | .node data h left (.node rd rh rl rr) => do
      let node ← update_height (.node data h left rl)
      let newRoot ← update_height (.node rd rh node rr)
      pure (newRoot, [.rotate_left data])
  | _ => .error .null_dereference

/-- Source `rotate_right(node)`, with the call recorded. -/
def rotate_right : AVLNode T → Except Fault (AVLNode T × List (Event T))
  | .node data h (.node ld lh ll lr) right => do
      let node ← update_height (.node data h lr right)
      let newRoot ← update_height (.node ld lh ll node)
      pure (newRoot, [.rotate_right data])
  | _ => .error .null_dereference

/-- Source `rotate_left_right(node)`: the events of its two single rotations. -/
def rotate_left_right : AVLNode T → Except Fault (AVLNode T × List (Event T))
  | .nullptr => .error .null_dereference
  | .node data h left right => do
      let first ← rotate_left left
      let second ← rotate_right (.node data h first.1 right)
      pure (second.1, first.2 ++ second.2)

/-- Source `rotate_right_left(node)`: the events of its two single rotations. -/
def rotate_right_left : AVLNode T → Except Fault (AVLNode T × List (Event T))
  | .nullptr => .error .null_dereference
  | .node data h left right => do
      let first ← rotate_right right
      let second ← rotate_left (.node data h left first.1)
      pure (second.1, first.2 ++ second.2)

/-- Source `balance(node)`: records the call with its balance factor, then the
rotations it makes. -/
def balance : AVLNode T → Except Fault (AVLNode T × List (Event T))
  | .nullptr => .ok (.nullptr, [])
  | .node data h left right => do
      let bf := calculate_balance_factor (.node data h left right)
      let done ←
        if bf = 2 then
          if calculate_balance_factor right ≥ 0 then
            rotate_left (.node data h left right)
          else
            rotate_right_left (.node data h left right)
        else if bf = -2 then
          if calculate_balance_factor left ≤ 0 then
            rotate_right (.node data h left right)
          else
            rotate_left_right (.node data h left right)
        else
          .ok (.node data h left right, [])
      pure (done.1, .balance data bf :: done.2)

/-- Source `insert(node, value)`: the events of the recursive call, then those of
`balance` on the way back. -/
def insert [LinearOrder T] : AVLNode T → T → Except Fault (AVLNode T × List (Event T))
  | .nullptr, value => do
      let node ← update_height (.node value 1 .nullptr .nullptr)
      balance node
  | .node data h left right, value =>
      if value < data then do
        let below ← insert left value
        let node ← update_height (.node data h below.1 right)
        let done ← balance node
        pure (done.1, below.2 ++ done.2)
      else if value > data then do
        let below ← insert right value
        let node ← update_height (.node data h left below.1)
        let done ← balance node
        pure (done.1, below.2 ++ done.2)
      else
        .ok (.node data h left right, [])

/-- Source `erase(node, value)`: the events of the recursive call, then those of
`balance` on the way back. -/
def erase [LinearOrder T] : AVLNode T → T → Except Fault (AVLNode T × List (Event T))
  | .nullptr, _ => .ok (.nullptr, [])
  | .node data h left right, value =>
      if value < data then do
        let below ← erase left value
        let node ← update_height (.node data h below.1 right)
        let done ← balance node
        pure (done.1, below.2 ++ done.2)
      else if value > data then do
        let below ← erase right value
        let node ← update_height (.node data h left below.1)
        let done ← balance node
        pure (done.1, below.2 ++ done.2)
      else if isNull left || isNull right then
        .ok (if !isNull left then left else right, [])
      else do
        let temp ← find_max left
        match temp with
        | .nullptr => .error .null_dereference
        | .node td _ _ _ => do
            let below ← erase left td
            let node ← update_height (.node td h below.1 right)
            let done ← balance node
            pure (done.1, below.2 ++ done.2)

end Traced

/-- Every call of `balance` among the events satisfies `p` on its balance factor. -/
def BalanceCalls (p : Int → Prop) (evs : List (Event T)) : Prop :=
  ∀ d bf, Event.balance d bf ∈ evs → p bf

end AVLTree

/-! ### Runs of calls on both engines -/

/-- One call of a client on a tree: `insert(key, value)` or `erase(key)`. On the set
engine the payload of an `insert` is not used. -/
inductive Operation (Key Value : Type) where
  | insert (key : Key) (value : Value)
  | erase (key : Key)

namespace KeyValueAVLTree

variable {Key Value : Type}

/-- One call on the key-value engine. -/
def apply_operation [LinearOrder Key] (t : KeyValueAVLNode Key Value) :
    Operation Key Value → Except Fault (KeyValueAVLNode Key Value)
  | .insert key value => insert t key value
  | .erase key => erase t key

/-- A sequence of calls on the key-value engine, first to last. -/
def run_operations [LinearOrder Key] (t : KeyValueAVLNode Key Value)
    (ops : List (Operation Key Value)) : Except Fault (KeyValueAVLNode Key Value) :=
  ops.foldlM apply_operation t

end KeyValueAVLTree

namespace AVLTree

variable {T : Type}

/-- One call on the set engine: the key of the operation is the value stored. -/
def apply_operation [LinearOrder T] {Value : Type} (t : AVLNode T) :
    Operation T Value → Except Fault (AVLNode T)
  | .insert key _ => insert t key
  | .erase key => erase t key

/-- A sequence of calls on the set engine, first to last. -/
def run_operations [LinearOrder T] {Value : Type} (t : AVLNode T)
    (ops : List (Operation T Value)) : Except Fault (AVLNode T) :=
  ops.foldlM apply_operation t

end AVLTree

/-! ### The adapters

An `AVLTree<T>` or `KeyValueAVLTree<Key, Value>` object is its `root_` pointer, so
the member `tree_` of an adapter is that pointer. A set returned by value is the set
the function built: the copy on return is elided, so no second owner of the nodes
appears. -/

namespace Collections

/-- Class `Set<T>`: its only member is the tree. -/
structure Set (T : Type) where
  tree_ : AVLNode T

/-- Class `Map<Key, Value>`: its only member is the tree. -/
structure Map (Key Value : Type) where
  tree_ : KeyValueAVLNode Key Value

namespace Set

variable {T : Type} [LinearOrder T]

/-- Source `Set::add(element)`: `tree_.insert(element)`. -/
def add (s : Set T) (element : T) : Except Fault (Set T) := do
  let root ← AVLTree.insert s.tree_ element
  pure ⟨root⟩

/-- Source `Set::remove(element)`: `tree_.erase(element)`. -/
def remove (s : Set T) (element : T) : Except Fault (Set T) := do
  let root ← AVLTree.erase s.tree_ element
  pure ⟨root⟩

/-- Source `Set::contains(element)`: `tree_.find(element) != nullptr`. -/
def contains (s : Set T) (element : T) : Bool :=
  !AVLTree.isNull (AVLTree.find s.tree_ element)

/-- The default constructor `Set<T>()`: the tree with the null root. -/
def empty_set : Set T := ⟨.nullptr⟩

/-- Source `Set::size()`: `tree_.size()`. -/
def size (s : Set T) : Nat := AVLTree.size s.tree_

/-- Source `Set::elements()`: `tree_.inorder_traversal()`. -/
def elements (s : Set T) : List T := AVLTree.inorder s.tree_

/-- Source `Set::is_subset(otherSet)`: the loop over `elements()` returns false at
the first element `otherSet` does not contain, and true after the last. -/
def is_subset (s otherSet : Set T) : Bool :=
  s.elements.all (fun elem => otherSet.contains elem)

/-- Source `Set::is_superset(otherSet)`: `otherSet.is_subset(*this)`. -/
def is_superset (s otherSet : Set T) : Bool :=
  otherSet.is_subset s

end Set

section SetAlgebra

variable {T : Type} [LinearOrder T]

/-- Source `operator ==` on sets: false when the sizes differ, else the loop of
`is_subset` over the elements of `lhs`. -/
def operator_eq (lhs rhs : Set T) : Bool :=
  if lhs.size ≠ rhs.size then false
  else lhs.elements.all (fun elem => rhs.contains elem)

/-- Source `union_set(lhs, rhs)`: adds the elements of `lhs`, then those of `rhs`,
to an empty set. -/
def union_set (lhs rhs : Set T) : Except Fault (Set T) := do
  let result ← lhs.elements.foldlM (fun (acc : Set T) elem => acc.add elem) Set.empty_set
  rhs.elements.foldlM (fun (acc : Set T) elem => acc.add elem) result

/-- Source `intersection(lhs, rhs)`: adds the elements of `lhs` that `rhs` contains. -/
def intersection (lhs rhs : Set T) : Except Fault (Set T) :=
  lhs.elements.foldlM
    (fun (acc : Set T) elem => if rhs.contains elem then acc.add elem else pure acc)
    Set.empty_set

/-- Source `difference(lhs, rhs)`: adds the elements of `lhs` that `rhs` does not contain. -/
def difference (lhs rhs : Set T) : Except Fault (Set T) :=
  lhs.elements.foldlM
    (fun (acc : Set T) elem => if !rhs.contains elem then acc.add elem else pure acc)
    Set.empty_set

/-- Source `symmetric_difference(lhs, rhs)`: the union, from which the elements of the
intersection are removed one by one. -/
def symmetric_difference (lhs rhs : Set T) : Except Fault (Set T) := do
  let result ← union_set lhs rhs
  let intersection_set ← intersection lhs rhs
  intersection_set.elements.foldlM (fun (acc : Set T) elem => acc.remove elem) result

end SetAlgebra

namespace Map

variable {Key Value : Type} [LinearOrder Key]

/-- Source `Map::insert(key, value)`: `tree_.insert(key, value)`. -/
def insert (m : Map Key Value) (key : Key) (value : Value) : Except Fault (Map Key Value) := do
  let root ← KeyValueAVLTree.insert m.tree_ key value
  pure ⟨root⟩

/-- Source `Map::erase(key)`: `tree_.erase(key)`. -/
def erase (m : Map Key Value) (key : Key) : Except Fault (Map Key Value) := do
  let root ← KeyValueAVLTree.erase m.tree_ key
  pure ⟨root⟩

/-- Source `Map::contains(key)`: `tree_.find(key) != nullptr`. -/
def contains (m : Map Key Value) (key : Key) : Bool :=
  !KeyValueAVLTree.isNull (KeyValueAVLTree.find m.tree_ key)

/-- Source `Map::size()`: `tree_.size()`. -/
def size (m : Map Key Value) : Nat := KeyValueAVLTree.size m.tree_

/-- Source `Map::elements()`: `tree_.inorder_traversal()`. -/
def elements (m : Map Key Value) : List (Key × Value) := KeyValueAVLTree.inorder m.tree_

/-- Source `Map::operator[](key)`: on a miss inserts `Value()` and looks the key up
again; returns the value of the node found, with the map as the call leaves it. -/
def operator_index [Inhabited Value] (m : Map Key Value) (key : Key) :
    Except Fault (Value × Map Key Value) := do
  let node := KeyValueAVLTree.find m.tree_ key
  if KeyValueAVLTree.isNull node then
    let m' ← m.insert key default
    match KeyValueAVLTree.find m'.tree_ key with
    | .nullptr => .error .null_dereference
    | .node _ value _ _ _ => pure (value, m')
  else
    match node with
    | .nullptr => .error .null_dereference
    | .node _ value _ _ _ => pure (value, m)

end Map

/-- Source `Map::at(key)`: throws when `find` gives the null pointer, else the value
of the node found. -/
def Map.at {Key Value : Type} [LinearOrder Key] (m : Map Key Value) (key : Key) :
    Except Fault Value :=
  match KeyValueAVLTree.find m.tree_ key with
  | .nullptr => .error (.out_of_range "Key not found in the map.")
  | .node _ value _ _ _ => .ok value

end Collections

/-- The set of the concrete scenario: 5, 3, 8, 1, 4, 7, 9, 2, 6 inserted in that order. -/
def scenarioSet : AVLNode Int :=
  .node 5 4
    (.node 3 3 (.node 1 2 .nullptr (.node 2 1 .nullptr .nullptr)) (.node 4 1 .nullptr .nullptr))
    (.node 8 3 (.node 7 2 (.node 6 1 .nullptr .nullptr) .nullptr) (.node 9 1 .nullptr .nullptr))

/-- The set of the concrete scenario after `erase(5)`. -/
def scenarioSetErased : AVLNode Int :=
  .node 4 4
    (.node 2 2 (.node 1 1 .nullptr .nullptr) (.node 3 1 .nullptr .nullptr))
    (.node 8 3 (.node 7 2 (.node 6 1 .nullptr .nullptr) .nullptr) (.node 9 1 .nullptr .nullptr))

/-! ### The graph containers

A `std::unordered_map` is modelled as an association list with at most one binding
per key: only lookups, assignments and erasures are made on the maps of the graph
classes, never an iteration, so the order of the bindings is not observable. A
`std::vector` is a list. Messages printed on `std::cout` are not modelled. -/

namespace UnorderedMap

variable {K V : Type} [DecidableEq K]

/-- Source `m.find(key)`: the value bound to `key`; `none` stands for `m.end()`. -/
def find (m : List (K × V)) (key : K) : Option V :=
  (m.find? (fun p => decide (p.1 = key))).map Prod.snd

/-- Source `m[key] = value`: binds `key` to `value`, replacing an older binding. -/
def assign (m : List (K × V)) (key : K) (value : V) : List (K × V) :=
  (key, value) :: m.filter (fun p => decide (p.1 ≠ key))

/-- Source `m.erase(key)`: removes the binding of `key`, if there is one. -/
def erase (m : List (K × V)) (key : K) : List (K × V) :=
  m.filter (fun p => decide (p.1 ≠ key))

end UnorderedMap

/-- What an access of the graph classes can run into: `at` of a map throws
`std::out_of_range` for a missing key, and indexing a vector at or past its size is
undefined behaviour. -/
inductive AccessFault where
  | out_of_range
  | out_of_bounds
  deriving DecidableEq

namespace UndirectedGraph

/-- Source `struct edge` of `Graph.hpp`. The weight is a `double` that the functions
below store and never read, so its type is a parameter. -/
structure edge (W : Type) where
  v1 : String
  v2 : String
  weight : W

/-- Source `class Graph` of `Graph.hpp`: its three private members. -/
structure Graph (W : Type) where
  vertices_ : List String
  edges_ : List (edge W)
  mapping_ : List (String × Nat)

variable {W : Type}

/-- Source `Graph() = default`: no vertices, no edges, an empty mapping. -/
def Graph.init : Graph W :=
  { vertices_ := [], edges_ := [], mapping_ := [] }

/-- Source `clear()`. -/
def clear (_ : Graph W) : Graph W :=
  { vertices_ := [], edges_ := [], mapping_ := [] }

/-- Source `contains_vertex(v)`: `mapping_.find(v) != mapping_.end()`. -/
def contains_vertex (g : Graph W) (v : String) : Bool :=
  (UnorderedMap.find g.mapping_ v).isSome

/-- Source `add_vertex(v)`: a vertex the graph holds is not added again; a new one is
pushed on `vertices_` and mapped to `vertices_.size() - 1`. -/
def add_vertex (g : Graph W) (v : String) : Graph W :=
  if contains_vertex g v then g
  else
    let vertices := g.vertices_ ++ [v]
    { g with vertices_ := vertices,
             mapping_ := UnorderedMap.assign g.mapping_ v (vertices.length - 1) }

/-- Source `remove_vertex(v)`: erases the binding of `v`, removes `v` from `vertices_`
and the edges that contain `v` from `edges_`. The bindings of the other vertices are
left as they are. -/
def remove_vertex (g : Graph W) (v : String) : Graph W :=
  if (UnorderedMap.find g.mapping_ v).isNone then g
  else
    { mapping_ := UnorderedMap.erase g.mapping_ v,
      vertices_ := g.vertices_.filter (fun x => decide (x ≠ v)),
      edges_ := g.edges_.filter (fun e => !(decide (e.v1 = v) || decide (e.v2 = v))) }

/-- Source `contains_edge(v1, v2)`: an edge joins the two vertices, in either order. -/
def contains_edge (g : Graph W) (v1 v2 : String) : Bool :=
  g.edges_.any (fun ei =>
    (decide (ei.v1 = v1) && decide (ei.v2 = v2)) || (decide (ei.v1 = v2) && decide (ei.v2 = v1)))

/-- Source `add_edge(v1, v2, weight)`: refuses missing vertices, loops and edges the
graph holds. The overload `add_edge(v1, v2)` is the same with the weight left to the
initialiser of `edge`. -/
def add_edge (g : Graph W) (v1 v2 : String) (weight : W) : Graph W :=
  if !contains_vertex g v1 || !contains_vertex g v2 then g
  else if v1 = v2 then g
  else if contains_edge g v1 v2 then g
  else { g with edges_ := g.edges_ ++ [{ v1 := v1, v2 := v2, weight := weight }] }

/-- Source `remove_edge(v1, v2)`. -/
def remove_edge (g : Graph W) (v1 v2 : String) : Graph W :=
  if !contains_edge g v1 v2 then g
  else
    { g with edges_ := g.edges_.filter (fun e =>
        !((decide (e.v1 = v1) && decide (e.v2 = v2)) ||
          (decide (e.v1 = v2) && decide (e.v2 = v1)))) }

/-- Source `mapping_.at(key)`: throws `std::out_of_range` for a missing key. -/
def mapping_at (g : Graph W) (key : String) : Except AccessFault Nat :=
  match UnorderedMap.find g.mapping_ key with
  | some i => .ok i
  | none => .error .out_of_range

/-- Source `vertices_[i]`: defined only for `i < vertices_.size()`. -/
def vertices_index (g : Graph W) (i : Nat) : Except AccessFault String :=
  match g.vertices_[i]? with
  | some v => .ok v
  | none => .error .out_of_bounds

/-- Source `neighbors(v)`: for every edge with `v` at one end, in the order of
`edges_`, the entry of `vertices_` at the index `mapping_` gives for the other end. -/
def neighbors (g : Graph W) (v : String) : Except AccessFault (List String) :=
  g.edges_.foldlM (fun result e =>
    if e.v1 = v then do
      let i ← mapping_at g e.v2
      let x ← vertices_index g i
      pure (result ++ [x])
    else if e.v2 = v then do
      let i ← mapping_at g e.v1
      let x ← vertices_index g i
      pure (result ++ [x])
    else
      pure result) []

end UndirectedGraph

/-- The graph after `add_vertex("a")`, `add_vertex("b")`, `remove_vertex("a")` on a
new graph. -/
def staleGraph : UndirectedGraph.Graph Unit :=
  UndirectedGraph.remove_vertex
    (UndirectedGraph.add_vertex (UndirectedGraph.add_vertex UndirectedGraph.Graph.init "a") "b")
    "a"

/-- The graph `staleGraph` after `add_vertex("c")` and `add_edge("c", "b", w)`. -/
def staleGraphWithEdge : UndirectedGraph.Graph Unit :=
  UndirectedGraph.add_edge (UndirectedGraph.add_vertex staleGraph "c") "c" "b" ()

namespace UndirectedGraph

variable {W : Type}

/-- What the comment on `mapping_` promises: every binding of `mapping_` is an index
into `vertices_` that holds the vertex bound, and every edge joins two vertices of
the graph. -/
def MappingConsistent (g : Graph W) : Prop :=
  (∀ v i, UnorderedMap.find g.mapping_ v = some i → g.vertices_[i]? = some v) ∧
    ∀ e ∈ g.edges_, contains_vertex g e.v1 = true ∧ contains_vertex g e.v2 = true

/-- The other end of an edge at `v`, if `v` is one of its ends. -/
def other_end (v : String) (e : edge W) : Option String :=
  if e.v1 = v then some e.v2 else if e.v2 = v then some e.v1 else none

end UndirectedGraph

namespace WeightedUndirectedGraph

/-- Source `class Graph` of `WeightedUndirectedGraph.hpp`: its three private members.
The weight of an edge is a `double` that the functions below store and never read,
so its type is a parameter. -/
structure Graph (W : Type) where
  adjacencyList : List (String × List (String × W))
  vertices_ : List String
  mapping_ : List (String × Nat)

variable {W : Type}

/-- The implicit default constructor: empty containers. -/
def Graph.init : Graph W :=
  { adjacencyList := [], vertices_ := [], mapping_ := [] }

/-- Source `contains_vertex(v)`: `mapping_.find(v) != mapping_.end()`. -/
def contains_vertex (g : Graph W) (v : String) : Bool :=
  (UnorderedMap.find g.mapping_ v).isSome

/-- Source `add_vertex(v)`. -/
def add_vertex (g : Graph W) (v : String) : Graph W :=
  if contains_vertex g v then g
  else
    let vertices := g.vertices_ ++ [v]
    { g with vertices_ := vertices,
             mapping_ := UnorderedMap.assign g.mapping_ v (vertices.length - 1) }

/-- Source `adjacencyList[movie].emplace_back(other, weight)`: `operator[]` makes an
empty vector for a key the map does not hold. -/
def emplace_back (adjacencyList : List (String × List (String × W))) (movie other : String)
    (weight : W) : List (String × List (String × W)) :=
  UnorderedMap.assign adjacencyList movie
    (((UnorderedMap.find adjacencyList movie).getD []) ++ [(other, weight)])

/-- Source `add_edge(movie1, movie2, weight)`: one entry in the list of each end, with
no check that the ends are vertices, differ, or are not joined yet. -/
def add_edge (g : Graph W) (movie1 movie2 : String) (weight : W) : Graph W :=
  { g with adjacencyList :=
      emplace_back (emplace_back g.adjacencyList movie1 movie2 weight) movie2 movie1 weight }

/-- Source `getNeighbors(movie)`: the list of `movie`, empty when it has none. -/
def getNeighbors (g : Graph W) (movie : String) : List (String × W) :=
  match UnorderedMap.find g.adjacencyList movie with
  | some neighbors => neighbors
  | none => []

/-- The three locals of `find_path_bfs`. The maps `visited` and `parent` are only
read and written through `operator[]`, which gives `false` and the empty string for
a key never written, so they are total functions with these defaults. -/
structure BfsState where
  visited : String → Bool
  parent : String → String
  q : List String

/-- Source `m[key] = value` on a map read through `operator[]` only. -/
def setAt {V : Type} (m : String → V) (key : String) (value : V) : String → V :=
  fun k => if k = key then value else m k

/-- The `for` loop of `find_path_bfs` over the neighbours of `current`: a neighbour
not visited yet is marked, gets `current` as parent and is pushed on the queue. -/
def visit_neighbors (current : String) : BfsState → List (String × W) → BfsState
  | st, [] => st
  | st, neighbor :: rest =>
      if !st.visited neighbor.1 then
        visit_neighbors current
          { visited := setAt st.visited neighbor.1 true,
            parent := setAt st.parent neighbor.1 current,
            q := st.q ++ [neighbor.1] } rest
      else
        visit_neighbors current st rest

/-- The inner `while (!step.empty())` loop of `find_path_bfs`: pushes `step` and goes
on with `parent[step]`. `none` means the fuel ran out. -/
def reconstruct (parent : String → String) : Nat → String → List String → Option (List String)
  | 0, _, _ => none
  | fuel + 1, step, path =>
      if step = "" then some path
      else reconstruct parent fuel (parent step) (path ++ [step])

/-- The outer `while (!q.empty())` loop of `find_path_bfs`: `steps` bounds its
iterations and `fuel` those of the inner loop; `none` means one of them ran out. The
result is the returned flag and the content of `path` afterwards. -/
def bfs_loop (g : Graph W) (end_ : String) (fuel : Nat) :
    Nat → BfsState → List String → Option (Bool × List String)
  | 0, _, _ => none
  | steps + 1, st, path =>
      match st.q with
      | [] => some (false, path)
      | current :: rest =>
          if current = end_ then
            (reconstruct st.parent fuel end_ path).map (fun p => (true, p.reverse))
          else
            bfs_loop g end_ fuel steps
              (visit_neighbors current { st with q := rest } (getNeighbors g current)) path

/-- Source `find_path_bfs(start, end, path)`: the returned flag and the content of
the reference parameter `path` afterwards; `fuel` bounds both loops. -/
def find_path_bfs (fuel : Nat) (g : Graph W) (start end_ : String) (path : List String) :
    Option (Bool × List String) :=
  if !contains_vertex g start || !contains_vertex g end_ then some (false, path)
  else
    bfs_loop g end_ fuel fuel
      { visited := setAt (fun _ => false) start true,
        parent := setAt (fun _ => "") start "",
        q := [start] } path

/-- An entry `v` in the adjacency list of `u`: the two are joined by an edge. -/
def Adjacent (g : Graph W) (u v : String) : Prop :=
  v ∈ (getNeighbors g u).map Prod.fst

/-- A walk of `n` edges from `u` to the last argument. -/
inductive Walk (g : Graph W) (u : String) : Nat → String → Prop
  | refl : Walk g u 0 u
  | step {n : Nat} {v w : String} : Walk g u n v → Adjacent g v w → Walk g u (n + 1) w

end WeightedUndirectedGraph

/-- The graph with the three vertices a, b, c and the edges a - b and b - c. -/
def sampleGraph : WeightedUndirectedGraph.Graph Unit :=
  WeightedUndirectedGraph.add_edge
    (WeightedUndirectedGraph.add_edge
      (WeightedUndirectedGraph.add_vertex
        (WeightedUndirectedGraph.add_vertex
          (WeightedUndirectedGraph.add_vertex WeightedUndirectedGraph.Graph.init "a") "b") "c")
      "a" "b" ()) "b" "c" ()

/-- The graph whose only vertex is the empty string. -/
def emptyNameGraph : WeightedUndirectedGraph.Graph Unit :=
  WeightedUndirectedGraph.add_vertex WeightedUndirectedGraph.Graph.init ""

namespace WeightedUndirectedGraph

variable {W : Type}

/-- Every name that occurs in an adjacency list of the graph. -/
def allNames (g : Graph W) : List String :=
  g.adjacencyList.flatMap (fun kv => kv.2.map Prod.fst)

/-- The measure of the outer loop of `find_path_bfs`: the length of the queue plus
the number of entries of the adjacency lists not visited yet. -/
def potential (g : Graph W) (st : BfsState) : Nat :=
  st.q.length + ((allNames g).filter (fun u => !st.visited u)).length

/-- The loop invariant of `find_path_bfs` at the head of the outer loop, with the
depth `d` of every visited vertex in the search tree as a ghost function. -/
structure BfsInv (g : Graph W) (start end_ : String) (B : Nat) (d : String → Nat)
    (st : BfsState) : Prop where
  vis_start : st.visited start = true
  d_start : d start = 0
  q_vis : ∀ v ∈ st.q, st.visited v = true
  sorted : st.q.Pairwise (fun a b => d a ≤ d b)
  upper : ∀ h ∈ st.q.head?, ∀ w, st.visited w = true → d w ≤ d h + 1
  closed : ∀ v, st.visited v = true → v ∉ st.q →
    ∀ w, Adjacent g v w → st.visited w = true ∧ d w ≤ d v + 1
  not_end : ∀ v, st.visited v = true → v ∉ st.q → v ≠ end_
  parent : ∀ v, st.visited v = true → v ≠ start →
    st.visited (st.parent v) = true ∧ Adjacent g (st.parent v) v ∧ d v = d (st.parent v) + 1
  parent_start : st.parent start = ""
  nonempty : ∀ v, st.visited v = true → v ≠ ""
  walk : ∀ v, st.visited v = true → Walk g start (d v) v
  bound : ∀ v, st.visited v = true → d v + potential g st ≤ B

end WeightedUndirectedGraph

namespace KeyValueAVLTree

variable {Key Value : Type}

@[simp] theorem height_nullptr : height (.nullptr : KeyValueAVLNode Key Value) = 0 := rfl

@[simp] theorem height_node (k : Key) (v : Value) (s : Int) (l r : KeyValueAVLNode Key Value) :
    height (.node k v s l r) = s := rfl

@[simp] theorem calculate_balance_factor_node (k : Key) (v : Value) (s : Int)
    (l r : KeyValueAVLNode Key Value) :
    calculate_balance_factor (.node k v s l r) = height r - height l := rfl

theorem height_eq_depth {t : KeyValueAVLNode Key Value} (h : HeightsOk t) :
    height t = depth t := by
  induction t with
  | nullptr => rfl
  | node k v s l r ihl ihr =>
    obtain ⟨h1, h2, h3⟩ := h
    show s = 1 + max (depth l) (depth r)
    rw [h1, ihl h2, ihr h3]

theorem balanced_iff_depthBalanced {t : KeyValueAVLNode Key Value} (h : HeightsOk t) :
    Balanced t ↔ DepthBalanced t := by
  induction t with
  | nullptr => simp [Balanced, DepthBalanced]
  | node k v s l r ihl ihr =>
    obtain ⟨_, h2, h3⟩ := h
    simp only [Balanced, DepthBalanced, ihl h2, ihr h3, height_eq_depth h2, height_eq_depth h3]

theorem height_nonneg {t : KeyValueAVLNode Key Value} (h : HeightsOk t) : 0 ≤ height t := by
  induction t with
  | nullptr => simp
  | node k v s l r ihl ihr =>
    obtain ⟨h1, h2, h3⟩ := h
    have := ihl h2
    have := ihr h3
    simp only [height_node]
    omega

theorem height_pos {k : Key} {v : Value} {s : Int} {l r : KeyValueAVLNode Key Value}
    (h : HeightsOk (.node k v s l r)) : 1 ≤ s := by
  obtain ⟨h1, h2, h3⟩ := h
  have := height_nonneg h2
  have := height_nonneg h3
  omega

theorem update_height_ok (k : Key) (v : Value) (s : Int) (l r : KeyValueAVLNode Key Value) :
    update_height (.node k v s l r) = .ok (.node k v (1 + max (height l) (height r)) l r) :=
  rfl

/-- On a non-empty tree `find_max` returns a node, and that node has no right child. -/
theorem find_max_node (k : Key) (v : Value) (s : Int) (l r : KeyValueAVLNode Key Value) :
    ∃ tk tv ts tl, find_max (.node k v s l r) = .ok (.node tk tv ts tl .nullptr) := by
  induction r generalizing k v s l with
  | nullptr => exact ⟨k, v, s, l, rfl⟩
  | node rk rv rs rl rr _ ihr =>
    obtain ⟨tk, tv, ts, tl, e⟩ := ihr rk rv rs rl
    exact ⟨tk, tv, ts, tl, by rw [find_max, e]⟩

theorem ok_bind {α β : Type} (a : α) (f : α → Except Fault β) :
    ((Except.ok a : Except Fault α) >>= f) = f a := rfl

/-- With correct stored heights `balance` never dereferences a null pointer and
returns a tree whose stored heights are correct. -/
theorem balance_heightsOk {t : KeyValueAVLNode Key Value} (h : HeightsOk t) :
    ∃ t', balance t = .ok t' ∧ HeightsOk t' := by
  cases t with
  | nullptr => exact ⟨.nullptr, rfl, trivial⟩
  | node k v s l r =>
    obtain ⟨h1, hl, hr⟩ := h
    have nl := height_nonneg hl
    have nr := height_nonneg hr
    simp only [balance, calculate_balance_factor_node]
    split_ifs with c1 c2 c3 c4
    · -- single left rotation
      cases r with
      | nullptr => simp only [height_nullptr] at c1 nl; omega
      | node rk rv rs rl rr =>
        obtain ⟨h2, hrl, hrr⟩ := hr
        refine ⟨_, rfl, ?_⟩
        simp only [HeightsOk, height_node, true_and, and_true]
        exact ⟨⟨hl, hrl⟩, hrr⟩
    · -- right-left double rotation
      cases r with
      | nullptr => simp only [height_nullptr] at c1 nl; omega
      | node rk rv rs rl rr =>
        obtain ⟨h2, hrl, hrr⟩ := hr
        cases rl with
        | nullptr =>
          have := height_nonneg hrr
          simp only [calculate_balance_factor_node, height_nullptr, height_node] at c1 c2; omega
        | node mk mv ms ml mr =>
          obtain ⟨h3, hml, hmr⟩ := hrl
          refine ⟨_, rfl, ?_⟩
          simp only [HeightsOk, height_node, true_and, and_true]
          exact ⟨⟨hl, hml⟩, hmr, hrr⟩
    · -- single right rotation
      cases l with
      | nullptr => simp only [height_nullptr] at c3 nr; omega
      | node lk lv ls ll lr =>
        obtain ⟨h2, hll, hlr⟩ := hl
        refine ⟨_, rfl, ?_⟩
        simp only [HeightsOk, height_node, true_and, and_true]
        exact ⟨hll, hlr, hr⟩
    · -- left-right double rotation
      cases l with
      | nullptr => simp only [height_nullptr] at c3 nr; omega
      | node lk lv ls ll lr =>
        obtain ⟨h2, hll, hlr⟩ := hl
        cases lr with
        | nullptr =>
          have := height_nonneg hll
          simp only [calculate_balance_factor_node, height_nullptr, height_node] at c3 c4; omega
        | node mk mv ms ml mr =>
          obtain ⟨h3, hml, hmr⟩ := hlr
          refine ⟨_, rfl, ?_⟩
          simp only [HeightsOk, height_node, true_and, and_true]
          exact ⟨⟨hll, hml⟩, hmr, hr⟩
    · exact ⟨_, rfl, h1, hl, hr⟩

/-- A node whose balance factor is -1, 0 or 1 is returned as it is. -/
theorem balance_id (k : Key) (v : Value) (s : Int) (l r : KeyValueAVLNode Key Value)
    (hd : |height l - height r| ≤ 1) :
    balance (.node k v s l r) = .ok (.node k v s l r) := by
  rw [abs_le] at hd
  simp only [balance, calculate_balance_factor_node]
  rw [if_neg (by omega), if_neg (by omega)]

/-- The rebalancing step on a node whose subtrees are AVL trees and whose balance
factor lies in [-2, 2]: the result is balanced and loses at most one level. -/
theorem balance_balanced (k : Key) (v : Value) (s : Int) (l r : KeyValueAVLNode Key Value)
    (hs : s = 1 + max (height l) (height r))
    (hl : HeightsOk l) (hr : HeightsOk r) (bl : Balanced l) (br : Balanced r)
    (hd : |height l - height r| ≤ 2) :
    ∃ t', balance (.node k v s l r) = .ok t' ∧ Balanced t' ∧
      (height t' = s ∨ (height t' = s - 1 ∧ 1 < |height l - height r|)) := by
  rw [abs_le] at hd
  have nl := height_nonneg hl
  have nr := height_nonneg hr
  simp only [balance, calculate_balance_factor_node]
  split_ifs with c1 c2 c3 c4
  · cases r with
    | nullptr => simp only [height_nullptr] at c1 nl; omega
    | node rk rv rs rl rr =>
      obtain ⟨h2, hrl, hrr⟩ := hr
      obtain ⟨b2, brl, brr⟩ := br
      rw [abs_le] at b2
      simp only [calculate_balance_factor_node, height_node] at c1 c2 hs
      refine ⟨_, rfl, ?_, ?_⟩
      · simp only [Balanced, height_node, abs_le]
        refine ⟨⟨?_, ?_⟩, ⟨⟨?_, ?_⟩, bl, brl⟩, brr⟩ <;> omega
      · simp only [height_node, lt_abs]; omega
  · cases r with
    | nullptr => simp only [height_nullptr] at c1 nl; omega
    | node rk rv rs rl rr =>
      obtain ⟨h2, hrl, hrr⟩ := hr
      obtain ⟨b2, brl, brr⟩ := br
      rw [abs_le] at b2
      simp only [calculate_balance_factor_node, height_node] at c1 c2 hs
      cases rl with
      | nullptr =>
        have := height_nonneg hrr
        simp only [height_nullptr] at c2; omega
      | node mk mv ms ml mr =>
        obtain ⟨h3, hml, hmr⟩ := hrl
        obtain ⟨b3, bml, bmr⟩ := brl
        rw [abs_le] at b3
        simp only [height_node] at c2 b2 h2
        refine ⟨_, rfl, ?_, ?_⟩
        · simp only [Balanced, height_node, abs_le]
          refine ⟨⟨?_, ?_⟩, ⟨⟨?_, ?_⟩, bl, bml⟩, ⟨?_, ?_⟩, bmr, brr⟩ <;> omega
        · simp only [height_node, lt_abs]; omega
  · cases l with
    | nullptr => simp only [height_nullptr] at c3 nr; omega
    | node lk lv ls ll lr =>
      obtain ⟨h2, hll, hlr⟩ := hl
      obtain ⟨b2, bll, blr⟩ := bl
      rw [abs_le] at b2
      simp only [calculate_balance_factor_node, height_node] at c3 c4 hs
      refine ⟨_, rfl, ?_, ?_⟩
      · simp only [Balanced, height_node, abs_le]
        refine ⟨⟨?_, ?_⟩, bll, ⟨?_, ?_⟩, blr, br⟩ <;> omega
      · simp only [height_node, lt_abs]; omega
  · cases l with
    | nullptr => simp only [height_nullptr] at c3 nr; omega
    | node lk lv ls ll lr =>
      obtain ⟨h2, hll, hlr⟩ := hl
      obtain ⟨b2, bll, blr⟩ := bl
      rw [abs_le] at b2
      simp only [calculate_balance_factor_node, height_node] at c3 c4 hs
      cases lr with
      | nullptr =>
        have := height_nonneg hll
        simp only [height_nullptr] at c4; omega
      | node mk mv ms ml mr =>
        obtain ⟨h3, hml, hmr⟩ := hlr
        obtain ⟨b3, bml, bmr⟩ := blr
        rw [abs_le] at b3
        simp only [height_node] at c4 b2 h2
        refine ⟨_, rfl, ?_, ?_⟩
        · simp only [Balanced, height_node, abs_le]
          refine ⟨⟨?_, ?_⟩, ⟨⟨?_, ?_⟩, bll, bml⟩, ⟨?_, ?_⟩, bmr, br⟩ <;> omega
        · simp only [height_node, lt_abs]; omega
  · refine ⟨_, rfl, ⟨?_, bl, br⟩, Or.inl rfl⟩
    rw [abs_le]; omega

/-- The unwind step of `insert` and `erase`: `update_height` then `balance`. -/
theorem unwind_heightsOk (k : Key) (v : Value) (s : Int) {l r : KeyValueAVLNode Key Value}
    (hl : HeightsOk l) (hr : HeightsOk r) :
    ∃ t', (update_height (.node k v s l r) >>= balance) = .ok t' ∧ HeightsOk t' := by
  rw [update_height_ok, ok_bind]
  exact balance_heightsOk ⟨rfl, hl, hr⟩

theorem unwind_balanced (k : Key) (v : Value) (s : Int) {l r : KeyValueAVLNode Key Value}
    (hl : HeightsOk l) (hr : HeightsOk r) (bl : Balanced l) (br : Balanced r)
    (hd : |height l - height r| ≤ 2) :
    ∃ t', (update_height (.node k v s l r) >>= balance) = .ok t' ∧ Balanced t' ∧
      (height t' = 1 + max (height l) (height r) ∨
        (height t' = 1 + max (height l) (height r) - 1 ∧ 1 < |height l - height r|)) := by
  rw [update_height_ok, ok_bind]
  exact balance_balanced k v _ l r rfl hl hr bl br hd

theorem unwind_id (k : Key) (v : Value) (s : Int) {l r : KeyValueAVLNode Key Value}
    (hs : s = 1 + max (height l) (height r)) (hd : |height l - height r| ≤ 1) :
    (update_height (.node k v s l r) >>= balance) = .ok (.node k v s l r) := by
  rw [update_height_ok, ok_bind, ← hs]
  exact balance_id k v s l r hd

section Ordered

variable [LinearOrder Key]

/-- With correct stored heights `insert` returns a tree, and its stored heights
are correct. -/
theorem insert_heightsOk (t : KeyValueAVLNode Key Value) (key : Key) (value : Value)
    (h : HeightsOk t) : ∃ t', insert t key value = .ok t' ∧ HeightsOk t' := by
  induction t with
  | nullptr => exact unwind_heightsOk key value 1 trivial trivial
  | node k v s l r ihl ihr =>
    obtain ⟨h1, hl, hr⟩ := h
    simp only [insert]
    split_ifs with c1 c2
    · obtain ⟨l', e, hl'⟩ := ihl hl
      rw [e, ok_bind]
      exact unwind_heightsOk k v s hl' hr
    · obtain ⟨r', e, hr'⟩ := ihr hr
      rw [e, ok_bind]
      exact unwind_heightsOk k v s hl hr'
    · exact ⟨_, rfl, h1, hl, hr⟩

/-- On an AVL tree `insert` returns a balanced tree that is as high as the old
one or one level higher. -/
theorem insert_balanced (t : KeyValueAVLNode Key Value) (key : Key) (value : Value)
    (h : HeightsOk t) (b : Balanced t) :
    ∃ t', insert t key value = .ok t' ∧ HeightsOk t' ∧ Balanced t' ∧
      (height t' = height t ∨ height t' = height t + 1) := by
  induction t with
  | nullptr =>
    refine ⟨.node key value 1 .nullptr .nullptr, rfl, ⟨rfl, trivial, trivial⟩, ?_, Or.inr rfl⟩
    simp [Balanced]
  | node k v s l r ihl ihr =>
    obtain ⟨h1, hl, hr⟩ := h
    obtain ⟨b1, bl, br⟩ := b
    rw [abs_le] at b1
    simp only [insert]
    split_ifs with c1 c2
    · obtain ⟨l', e, hl', bl', hh⟩ := ihl hl bl
      rw [e, ok_bind]
      obtain ⟨t', e', ht'⟩ := unwind_heightsOk k v s hl' hr
      obtain ⟨t'', e'', bt, hh'⟩ := unwind_balanced k v s hl' hr bl' br
        (by rw [abs_le]; omega)
      rw [e'] at e''
      cases e''
      refine ⟨t', e', ht', bt, ?_⟩
      simp only [height_node]
      rw [lt_abs] at hh'
      omega
    · obtain ⟨r', e, hr', br', hh⟩ := ihr hr br
      rw [e, ok_bind]
      obtain ⟨t', e', ht'⟩ := unwind_heightsOk k v s hl hr'
      obtain ⟨t'', e'', bt, hh'⟩ := unwind_balanced k v s hl hr' bl br'
        (by rw [abs_le]; omega)
      rw [e'] at e''
      cases e''
      refine ⟨t', e', ht', bt, ?_⟩
      simp only [height_node]
      rw [lt_abs] at hh'
      omega
    · exact ⟨_, rfl, ⟨h1, hl, hr⟩, ⟨abs_le.mpr b1, bl, br⟩, Or.inl rfl⟩

/-- With correct stored heights `erase` returns a tree, and its stored heights
are correct. -/
theorem erase_heightsOk (t : KeyValueAVLNode Key Value) (key : Key)
    (h : HeightsOk t) : ∃ t', erase t key = .ok t' ∧ HeightsOk t' := by
  induction t generalizing key with
  | nullptr => exact ⟨_, rfl, trivial⟩
  | node k v s l r ihl ihr =>
    obtain ⟨h1, hl, hr⟩ := h
    simp only [erase]
    split_ifs with c1 c2 c3 c4
    · obtain ⟨l', e, hl'⟩ := ihl key hl
      rw [e, ok_bind]
      exact unwind_heightsOk k v s hl' hr
    · obtain ⟨r', e, hr'⟩ := ihr key hr
      rw [e, ok_bind]
      exact unwind_heightsOk k v s hl hr'
    · exact ⟨_, rfl, hl⟩
    · exact ⟨_, rfl, hr⟩
    · cases l with
      | nullptr => simp [isNull] at c3
      | node lk lv ls ll lr =>
        obtain ⟨tk, tv, ts, tl, e⟩ := find_max_node lk lv ls ll lr
        rw [e, ok_bind]
        simp only []
        obtain ⟨l', e', hl'⟩ := ihl tk hl
        rw [e', ok_bind]
        exact unwind_heightsOk tk tv s hl' hr

/-- On an AVL tree `erase` returns a balanced tree that is as high as the old one
or one level lower. -/
theorem erase_balanced (t : KeyValueAVLNode Key Value) (key : Key)
    (h : HeightsOk t) (b : Balanced t) :
    ∃ t', erase t key = .ok t' ∧ HeightsOk t' ∧ Balanced t' ∧
      (height t' = height t ∨ height t' = height t - 1) := by
  induction t generalizing key with
  | nullptr => exact ⟨_, rfl, trivial, trivial, Or.inl rfl⟩
  | node k v s l r ihl ihr =>
    obtain ⟨h1, hl, hr⟩ := h
    obtain ⟨b1, bl, br⟩ := b
    rw [abs_le] at b1
    have nl := height_nonneg hl
    have nr := height_nonneg hr
    have left_case : ∀ (ek tk : Key) (tv : Value),
        ∃ t', (erase l ek >>= fun left => update_height (.node tk tv s left r) >>= balance)
            = .ok t' ∧ HeightsOk t' ∧ Balanced t' ∧ (height t' = s ∨ height t' = s - 1) := by
      intro ek tk tv
      obtain ⟨l', e, hl', bl', hh⟩ := ihl ek hl bl
      rw [e, ok_bind]
      obtain ⟨t', e', ht'⟩ := unwind_heightsOk tk tv s hl' hr
      obtain ⟨t'', e'', bt, hh'⟩ := unwind_balanced tk tv s hl' hr bl' br
        (by rw [abs_le]; omega)
      rw [e'] at e''
      cases e''
      refine ⟨t', e', ht', bt, ?_⟩
      rw [lt_abs] at hh'
      omega
    simp only [erase]
    split_ifs with c1 c2 c3 c4
    · exact left_case key k v
    · obtain ⟨r', e, hr', br', hh⟩ := ihr key hr br
      rw [e, ok_bind]
      obtain ⟨t', e', ht'⟩ := unwind_heightsOk k v s hl hr'
      obtain ⟨t'', e'', bt, hh'⟩ := unwind_balanced k v s hl hr' bl br'
        (by rw [abs_le]; omega)
      rw [e'] at e''
      cases e''
      refine ⟨t', e', ht', bt, ?_⟩
      simp only [height_node]
      rw [lt_abs] at hh'
      omega
    · cases r with
      | nullptr =>
        refine ⟨_, rfl, hl, bl, Or.inr ?_⟩
        simp only [height_node, height_nullptr] at h1 ⊢
        omega
      | node rk rv rs rl rr =>
        cases l with
        | nullptr => simp [isNull] at c4
        | node lk lv ls ll lr => simp [isNull] at c3
    · cases l with
      | nullptr =>
        refine ⟨r, rfl, hr, br, Or.inr ?_⟩
        simp only [height_node, height_nullptr] at h1 ⊢
        omega
      | node lk lv ls ll lr => simp [isNull] at c4
    · cases l with
      | nullptr => simp [isNull] at c3
      | node lk lv ls ll lr =>
        obtain ⟨tk, tv, ts, tl, e⟩ := find_max_node lk lv ls ll lr
        rw [e, ok_bind]
        exact left_case tk tk tv

end Ordered

/-! ### In-order traversal -/

theorem inorder_traversal_eq (t : KeyValueAVLNode Key Value) (acc : List (Key × Value)) :
    inorder_traversal t acc = acc ++ inorder t := by
  induction t generalizing acc with
  | nullptr => simp [inorder, inorder_traversal]
  | node k v s l r ihl ihr =>
    simp only [inorder, inorder_traversal]
    rw [ihr, ihl, ihr (inorder_traversal l [] ++ [(k, v)]), ihl []]
    simp

@[simp] theorem inorder_nullptr : inorder (.nullptr : KeyValueAVLNode Key Value) = [] := rfl

@[simp] theorem inorder_node (k : Key) (v : Value) (s : Int) (l r : KeyValueAVLNode Key Value) :
    inorder (.node k v s l r) = inorder l ++ (k, v) :: inorder r := by
  show inorder_traversal r (inorder_traversal l [] ++ [(k, v)]) = _
  rw [inorder_traversal_eq r, inorder_traversal_eq l]
  simp

theorem allKeys_iff (p : Key → Prop) (t : KeyValueAVLNode Key Value) :
    AllKeys p t ↔ ∀ x ∈ inorder t, p x.1 := by
  induction t with
  | nullptr => simp [AllKeys]
  | node k v s l r ihl ihr =>
    simp only [AllKeys, ihl, ihr, inorder_node, List.mem_append, List.mem_cons]
    constructor
    · rintro ⟨h1, h2, h3⟩ x (hx | rfl | hx)
      · exact h2 x hx
      · exact h1
      · exact h3 x hx
    · intro h
      exact ⟨h (k, v) (Or.inr (Or.inl rfl)), fun x hx => h x (Or.inl hx),
        fun x hx => h x (Or.inr (Or.inr hx))⟩

theorem bst_iff [Preorder Key] (t : KeyValueAVLNode Key Value) :
    BST t ↔ (inorder t).Pairwise (fun a b => a.1 < b.1) := by
  induction t with
  | nullptr => simp [BST]
  | node k v s l r ihl ihr =>
    simp only [BST, ihl, ihr, allKeys_iff, inorder_node, List.pairwise_append,
      List.pairwise_cons, List.mem_cons]
    constructor
    · rintro ⟨h1, h2, h3, h4⟩
      refine ⟨h3, ⟨h2, h4⟩, ?_⟩
      rintro a ha b (rfl | hb)
      · exact h1 a ha
      · exact lt_trans (h1 a ha) (h2 b hb)
    · rintro ⟨h3, ⟨h2, h4⟩, h5⟩
      exact ⟨fun a ha => h5 a ha (k, v) (Or.inl rfl), h2, h3, h4⟩

theorem rotate_left_inorder {t t' : KeyValueAVLNode Key Value} (h : rotate_left t = .ok t') :
    inorder t' = inorder t := by
  cases t with
  | nullptr => cases h
  | node k v s l r =>
    cases r with
    | nullptr => cases h
    | node rk rv rs rl rr =>
      cases h
      simp

theorem rotate_right_inorder {t t' : KeyValueAVLNode Key Value} (h : rotate_right t = .ok t') :
    inorder t' = inorder t := by
  cases t with
  | nullptr => cases h
  | node k v s l r =>
    cases l with
    | nullptr => cases h
    | node lk lv ls ll lr =>
      cases h
      simp

theorem bind_eq_ok {α β : Type} {x : Except Fault α} {f : α → Except Fault β} {b : β}
    (h : (x >>= f) = .ok b) : ∃ a, x = .ok a ∧ f a = .ok b := by
  cases x with
  | error e => cases h
  | ok a => exact ⟨a, rfl, h⟩

theorem rotate_left_right_inorder {t t' : KeyValueAVLNode Key Value}
    (h : rotate_left_right t = .ok t') : inorder t' = inorder t := by
  cases t with
  | nullptr => cases h
  | node k v s l r =>
    obtain ⟨l', e1, e2⟩ := bind_eq_ok h
    rw [rotate_right_inorder e2, inorder_node, inorder_node, rotate_left_inorder e1]

theorem rotate_right_left_inorder {t t' : KeyValueAVLNode Key Value}
    (h : rotate_right_left t = .ok t') : inorder t' = inorder t := by
  cases t with
  | nullptr => cases h
  | node k v s l r =>
    obtain ⟨r', e1, e2⟩ := bind_eq_ok h
    rw [rotate_left_inorder e2, inorder_node, inorder_node, rotate_right_inorder e1]

theorem balance_inorder {t t' : KeyValueAVLNode Key Value} (h : balance t = .ok t') :
    inorder t' = inorder t := by
  cases t with
  | nullptr => cases h; rfl
  | node k v s l r =>
    simp only [balance] at h
    split_ifs at h
    · exact rotate_left_inorder h
    · exact rotate_right_left_inorder h
    · exact rotate_right_inorder h
    · exact rotate_left_right_inorder h
    · cases h; rfl

theorem unwind_inorder {k : Key} {v : Value} {s : Int} {l r t' : KeyValueAVLNode Key Value}
    (h : (update_height (.node k v s l r) >>= balance) = .ok t') :
    inorder t' = inorder l ++ (k, v) :: inorder r := by
  rw [update_height_ok, ok_bind] at h
  rw [balance_inorder h, inorder_node]

theorem bst_of_inorder_eq [Preorder Key] {a b : KeyValueAVLNode Key Value}
    (h : inorder a = inorder b) (hb : BST b) : BST a := by
  rw [bst_iff] at hb ⊢
  rw [h]; exact hb

theorem allKeys_of_inorder_eq {p : Key → Prop} {a b : KeyValueAVLNode Key Value}
    (h : inorder a = inorder b) (hb : AllKeys p b) : AllKeys p a := by
  rw [allKeys_iff] at hb ⊢
  rw [h]; exact hb

/-- The node `find_max` returns holds the last entry of the in-order traversal. -/
theorem find_max_inorder (k : Key) (v : Value) (s : Int) (l r : KeyValueAVLNode Key Value) :
    ∃ tk tv ts tl init, find_max (.node k v s l r) = .ok (.node tk tv ts tl .nullptr) ∧
      inorder (.node k v s l r) = init ++ [(tk, tv)] := by
  induction r generalizing k v s l with
  | nullptr => exact ⟨k, v, s, l, inorder l, rfl, by simp⟩
  | node rk rv rs rl rr _ ihr =>
    obtain ⟨tk, tv, ts, tl, init, e, hi⟩ := ihr rk rv rs rl
    refine ⟨tk, tv, ts, tl, inorder l ++ (k, v) :: init, by rw [find_max, e], ?_⟩
    rw [inorder_node, hi]
    simp

theorem mem_keys_node {key k : Key} {v : Value} {s : Int} {l r : KeyValueAVLNode Key Value} :
    key ∈ keys (.node k v s l r) ↔ key ∈ keys l ∨ key = k ∨ key ∈ keys r := by
  simp only [keys, inorder_node, List.map_append, List.map_cons, List.mem_append, List.mem_cons]

theorem lt_of_mem_keys {p : Key → Prop} {t : KeyValueAVLNode Key Value} {key : Key}
    (h : AllKeys p t) (hk : key ∈ keys t) : p key := by
  rw [allKeys_iff] at h
  obtain ⟨x, hx, rfl⟩ := List.mem_map.mp hk
  exact h x hx

/-- In a list strictly ascending along `f`, dropping the entries that agree with
one entry on `f` drops exactly that entry. -/
theorem filter_remove {α β : Type} [LinearOrder β] (f : α → β) (pre post : List α) (x : α)
    (h : (pre ++ x :: post).Pairwise (fun a b => f a < f b)) :
    (pre ++ x :: post).filter (fun p => decide (f p ≠ f x)) = pre ++ post := by
  rw [List.pairwise_append, List.pairwise_cons] at h
  obtain ⟨_, ⟨h2, _⟩, h3⟩ := h
  rw [List.filter_append, List.filter_cons, if_neg (by simp),
    List.filter_eq_self.mpr (fun p hp => by simpa using ne_of_lt (h3 p hp x (List.mem_cons_self _ _))),
    List.filter_eq_self.mpr (fun p hp => by simpa using ne_of_gt (h2 p hp))]

section OrderedTraversal

variable [LinearOrder Key]

theorem insert_allKeys {p : Key → Prop} {t t' : KeyValueAVLNode Key Value} {key : Key}
    {value : Value} (ht : AllKeys p t) (hk : p key) (h : insert t key value = .ok t') :
    AllKeys p t' := by
  induction t generalizing t' with
  | nullptr =>
    cases h
    exact ⟨hk, trivial, trivial⟩
  | node k v s l r ihl ihr =>
    obtain ⟨h1, hl, hr⟩ := ht
    simp only [insert] at h
    split_ifs at h with c1 c2
    · obtain ⟨l', e1, e2⟩ := bind_eq_ok h
      have hl' := ihl hl e1
      refine allKeys_of_inorder_eq (b := .node k v s l' r) ?_ ⟨h1, hl', hr⟩
      rw [unwind_inorder e2, inorder_node]
    · obtain ⟨r', e1, e2⟩ := bind_eq_ok h
      have hr' := ihr hr e1
      refine allKeys_of_inorder_eq (b := .node k v s l r') ?_ ⟨h1, hl, hr'⟩
      rw [unwind_inorder e2, inorder_node]
    · cases h
      exact ⟨h1, hl, hr⟩

/-- Whenever `insert` returns a tree, the search-tree ordering is kept. -/
theorem insert_bst {t t' : KeyValueAVLNode Key Value} {key : Key} {value : Value}
    (ht : BST t) (h : insert t key value = .ok t') : BST t' := by
  induction t generalizing t' with
  | nullptr =>
    cases h
    exact ⟨trivial, trivial, trivial, trivial⟩
  | node k v s l r ihl ihr =>
    obtain ⟨h1, h2, hl, hr⟩ := ht
    simp only [insert] at h
    split_ifs at h with c1 c2
    · obtain ⟨l', e1, e2⟩ := bind_eq_ok h
      refine bst_of_inorder_eq (b := .node k v s l' r) ?_
        ⟨insert_allKeys h1 c1 e1, h2, ihl hl e1, hr⟩
      rw [unwind_inorder e2, inorder_node]
    · obtain ⟨r', e1, e2⟩ := bind_eq_ok h
      refine bst_of_inorder_eq (b := .node k v s l r') ?_
        ⟨h1, insert_allKeys h2 c2 e1, hl, ihr hr e1⟩
      rw [unwind_inorder e2, inorder_node]
    · cases h
      exact ⟨h1, h2, hl, hr⟩

/-- Inserting an absent key into a search tree puts the new entry between the
entries with a smaller key and the entries with a greater key. -/
theorem insert_inorder_absent {t t' : KeyValueAVLNode Key Value} {key : Key} {value : Value}
    (ht : BST t) (hk : key ∉ keys t) (h : insert t key value = .ok t') :
    ∃ pre post, inorder t = pre ++ post ∧ inorder t' = pre ++ (key, value) :: post ∧
      (∀ p ∈ pre, p.1 < key) ∧ (∀ p ∈ post, key < p.1) := by
  induction t generalizing t' with
  | nullptr =>
    cases h
    exact ⟨[], [], rfl, rfl, by simp, by simp⟩
  | node k v s l r ihl ihr =>
    obtain ⟨h1, h2, hl, hr⟩ := ht
    rw [allKeys_iff] at h1 h2
    simp only [keys, inorder_node, List.map_append, List.map_cons, List.mem_append,
      List.mem_cons, not_or] at hk
    obtain ⟨hkl, hkk, hkr⟩ := hk
    simp only [insert] at h
    split_ifs at h with c1 c2
    · obtain ⟨l', e1, e2⟩ := bind_eq_ok h
      obtain ⟨pre, post, i1, i2, i3, i4⟩ := ihl hl hkl e1
      refine ⟨pre, post ++ (k, v) :: inorder r, ?_, ?_, i3, ?_⟩
      · rw [inorder_node, i1, List.append_assoc]
      · rw [unwind_inorder e2, i2]; simp
      · intro p hp
        rcases List.mem_append.mp hp with hp | hp
        · exact i4 p hp
        · rcases List.mem_cons.mp hp with rfl | hp
          · exact c1
          · exact lt_trans c1 (h2 p hp)
    · obtain ⟨r', e1, e2⟩ := bind_eq_ok h
      obtain ⟨pre, post, i1, i2, i3, i4⟩ := ihr hr hkr e1
      refine ⟨inorder l ++ (k, v) :: pre, post, ?_, ?_, ?_, i4⟩
      · rw [inorder_node, i1]; simp
      · rw [unwind_inorder e2, i2]; simp
      · intro p hp
        rcases List.mem_append.mp hp with hp | hp
        · exact lt_trans (h1 p hp) c2
        · rcases List.mem_cons.mp hp with rfl | hp
          · exact c2
          · exact i3 p hp
    · exact absurd (le_antisymm (not_lt.mp c2) (not_lt.mp c1)) hkk

theorem filter_ne_self {L : List (Key × Value)} {key : Key} (h : ∀ p ∈ L, p.1 ≠ key) :
    L.filter (fun p => decide (p.1 ≠ key)) = L := by
  rw [List.filter_eq_self]
  intro p hp
  simpa using h p hp

/-- Whenever `erase` returns a tree from a search tree, its in-order traversal is
the old one without the entry of the erased key. -/
theorem erase_inorder {t t' : KeyValueAVLNode Key Value} {key : Key}
    (ht : BST t) (h : erase t key = .ok t') :
    inorder t' = (inorder t).filter (fun p => decide (p.1 ≠ key)) := by
  induction t generalizing t' key with
  | nullptr =>
    cases h
    rfl
  | node k v s l r ihl ihr =>
    have hp := (bst_iff _).mp ht
    obtain ⟨h1, h2, hl, hr⟩ := ht
    rw [allKeys_iff] at h1 h2
    simp only [erase] at h
    split_ifs at h with c1 c2 c3 c4
    · obtain ⟨l', e1, e2⟩ := bind_eq_ok h
      rw [unwind_inorder e2, ihl hl e1, inorder_node, List.filter_append, List.filter_cons,
        if_pos (by simpa using ne_of_gt c1),
        filter_ne_self (L := inorder r) (fun p hp => ne_of_gt (lt_trans c1 (h2 p hp)))]
    · obtain ⟨r', e1, e2⟩ := bind_eq_ok h
      rw [unwind_inorder e2, ihr hr e1, inorder_node, List.filter_append, List.filter_cons,
        if_pos (by simpa using ne_of_lt c2),
        filter_ne_self (L := inorder l) (fun p hp => ne_of_lt (lt_trans (h1 p hp) c2))]
    · have hk : key = k := le_antisymm (not_lt.mp c2) (not_lt.mp c1)
      subst hk
      cases h
      cases r with
      | nullptr =>
        rw [inorder_node, List.filter_append, List.filter_cons, if_neg (by simp),
          filter_ne_self (L := inorder l) (fun p hp => ne_of_lt (h1 p hp))]
        simp
      | node rk rv rs rl rr =>
        cases l with
        | nullptr => simp [isNull] at c4
        | node lk lv ls ll lr => simp [isNull] at c3
    · have hk : key = k := le_antisymm (not_lt.mp c2) (not_lt.mp c1)
      subst hk
      cases h
      cases l with
      | nullptr =>
        rw [inorder_node, List.filter_append, List.filter_cons, if_neg (by simp),
          filter_ne_self (L := inorder r) (fun p hp => ne_of_gt (h2 p hp))]
        simp
      | node lk lv ls ll lr => simp [isNull] at c4
    · have hk : key = k := le_antisymm (not_lt.mp c2) (not_lt.mp c1)
      subst hk
      cases l with
      | nullptr => simp [isNull] at c3
      | node lk lv ls ll lr =>
        obtain ⟨tk, tv, ts, tl, init, e, hi⟩ := find_max_inorder lk lv ls ll lr
        rw [e, ok_bind] at h
        obtain ⟨l', e1, e2⟩ := bind_eq_ok h
        have hpl := (bst_iff _).mp hl
        rw [hi, List.pairwise_append] at hpl
        have hinit : ∀ p ∈ init, p.1 ≠ tk := fun p hp =>
          ne_of_lt (hpl.2.2 p hp (tk, tv) (List.mem_singleton.mpr rfl))
        have e4 := ihl hl e1
        rw [hi, List.filter_append, filter_ne_self hinit] at e4
        simp only [ne_eq, not_true_eq_false, decide_False, Bool.false_eq_true,
          not_false_eq_true, List.filter_cons_of_neg, List.filter_nil, List.append_nil] at e4
        rw [unwind_inorder e2, e4, inorder_node, List.filter_append, List.filter_cons,
          if_neg (by simp),
          filter_ne_self (L := inorder r) (fun p hp => ne_of_gt (h2 p hp)),
          filter_ne_self (L := inorder (.node lk lv ls ll lr)) (fun p hp => ne_of_lt (h1 p hp)),
          hi]
        simp

/-- Whenever `erase` returns a tree, the search-tree ordering is kept. -/
theorem erase_bst {t t' : KeyValueAVLNode Key Value} {key : Key}
    (ht : BST t) (h : erase t key = .ok t') : BST t' := by
  rw [bst_iff, erase_inorder ht h]
  exact ((bst_iff t).mp ht).filter _

/-- The descent of `find` on a search tree: the entry of a present key is found
with its payload, an absent key gives the null pointer. -/
theorem find_spec {t : KeyValueAVLNode Key Value} (key : Key) (ht : BST t) :
    (∀ value, (key, value) ∈ inorder t → ∃ s l r, find t key = .node key value s l r) ∧
      (key ∉ keys t → find t key = .nullptr) := by
  induction t with
  | nullptr => exact ⟨fun _ h => by simp at h, fun _ => rfl⟩
  | node k v s l r ihl ihr =>
    obtain ⟨h1, h2, hl, hr⟩ := ht
    have a1 := (allKeys_iff _ _).mp h1
    have a2 := (allKeys_iff _ _).mp h2
    simp only [find]
    split_ifs with c1 c2
    · subst c1
      refine ⟨fun value hv => ?_, fun hk => absurd (mem_keys_node.mpr (Or.inr (Or.inl rfl))) hk⟩
      rw [inorder_node, List.mem_append, List.mem_cons] at hv
      rcases hv with hv | hv | hv
      · exact absurd (a1 _ hv) (lt_irrefl _)
      · cases hv
        exact ⟨s, l, r, rfl⟩
      · exact absurd (a2 _ hv) (lt_irrefl _)
    · refine ⟨fun value hv => ?_, fun hk => ?_⟩
      · rw [inorder_node, List.mem_append, List.mem_cons] at hv
        rcases hv with hv | hv | hv
        · exact (ihl hl).1 value hv
        · cases hv
          exact absurd rfl c1
        · exact absurd (lt_trans c2 (a2 _ hv)) (lt_irrefl _)
      · exact (ihl hl).2 (fun h => hk (mem_keys_node.mpr (Or.inl h)))
    · refine ⟨fun value hv => ?_, fun hk => ?_⟩
      · rw [inorder_node, List.mem_append, List.mem_cons] at hv
        rcases hv with hv | hv | hv
        · exact absurd (a1 _ hv) c2
        · cases hv
          exact absurd rfl c1
        · exact (ihr hr).1 value hv
      · exact (ihr hr).2 (fun h => hk (mem_keys_node.mpr (Or.inr (Or.inr h))))

/-- Inserting a key the AVL search tree already holds returns the very same tree. -/
theorem insert_present {t : KeyValueAVLNode Key Value} {key : Key} (value : Value)
    (hh : HeightsOk t) (hb : Balanced t) (ht : BST t) (hk : key ∈ keys t) :
    insert t key value = .ok t := by
  induction t with
  | nullptr => simp [keys] at hk
  | node k v s l r ihl ihr =>
    obtain ⟨h1, h2, hl, hr⟩ := ht
    obtain ⟨s1, sl, sr⟩ := hh
    obtain ⟨b1, bl, br⟩ := hb
    simp only [insert]
    split_ifs with c1 c2
    · rcases mem_keys_node.mp hk with h | h | h
      · rw [ihl sl bl hl h, ok_bind]
        exact unwind_id k v s s1 b1
      · exact absurd h (ne_of_lt c1)
      · exact absurd (lt_trans c1 (lt_of_mem_keys (p := fun x => k < x) h2 h)) (lt_irrefl _)
    · rcases mem_keys_node.mp hk with h | h | h
      · exact absurd (lt_trans c2 (lt_of_mem_keys (p := fun x => x < k) h1 h)) (lt_irrefl _)
      · exact absurd h (ne_of_gt c2)
      · rw [ihr sr br hr h, ok_bind]
        exact unwind_id k v s s1 b1
    · rfl

/-- Erasing a key the AVL tree does not hold returns the very same tree. -/
theorem erase_absent {t : KeyValueAVLNode Key Value} {key : Key}
    (hh : HeightsOk t) (hb : Balanced t) (hk : key ∉ keys t) :
    erase t key = .ok t := by
  induction t with
  | nullptr => rfl
  | node k v s l r ihl ihr =>
    obtain ⟨s1, sl, sr⟩ := hh
    obtain ⟨b1, bl, br⟩ := hb
    rw [mem_keys_node, not_or, not_or] at hk
    obtain ⟨kl, kk, kr⟩ := hk
    simp only [erase]
    rcases lt_trichotomy key k with c | c | c
    · rw [if_pos c, ihl sl bl kl, ok_bind]
      exact unwind_id k v s s1 b1
    · exact absurd c kk
    · rw [if_neg (lt_asymm c), if_pos c, ihr sr br kr, ok_bind]
      exact unwind_id k v s s1 b1

end OrderedTraversal

end KeyValueAVLTree

/-! ### The two engines: forgetting the payloads -/

namespace KeyValueAVLNode

variable {Key Value : Type}

theorem forget_lift (t : AVLNode Key) : t.lift.forget = t := by
  induction t with
  | nullptr => rfl
  | node d h l r ihl ihr => simp only [AVLNode.lift, forget, ihl, ihr]

@[simp] theorem height_forget (s : KeyValueAVLNode Key Value) :
    AVLTree.height s.forget = KeyValueAVLTree.height s := by
  cases s <;> rfl

@[simp] theorem calculate_balance_factor_forget (s : KeyValueAVLNode Key Value) :
    AVLTree.calculate_balance_factor s.forget = KeyValueAVLTree.calculate_balance_factor s := by
  cases s with
  | nullptr => rfl
  | node k v h l r =>
    show AVLTree.height r.forget - AVLTree.height l.forget = _
    rw [height_forget, height_forget]; rfl

@[simp] theorem isNull_forget (s : KeyValueAVLNode Key Value) :
    AVLTree.isNull s.forget = KeyValueAVLTree.isNull s := by
  cases s <;> rfl

theorem map_bind {α β α' β' : Type} (g : α → α') (g' : β → β') (x : Except Fault α)
    (f : α → Except Fault β) (f' : α' → Except Fault β')
    (h : ∀ a, f' (g a) = Except.map g' (f a)) :
    (Except.map g x >>= f') = Except.map g' (x >>= f) := by
  cases x with
  | error e => rfl
  | ok a => exact h a

theorem kv_rotate_left_eq (k : Key) (v : Value) (h : Int) (l : KeyValueAVLNode Key Value)
    (rk : Key) (rv : Value) (rh : Int) (rl rr : KeyValueAVLNode Key Value) :
    KeyValueAVLTree.rotate_left (.node k v h l (.node rk rv rh rl rr)) =
      .ok (.node rk rv (1 + max (1 + max (KeyValueAVLTree.height l) (KeyValueAVLTree.height rl))
          (KeyValueAVLTree.height rr))
        (.node k v (1 + max (KeyValueAVLTree.height l) (KeyValueAVLTree.height rl)) l rl) rr) :=
  rfl

theorem kv_rotate_right_eq (k : Key) (v : Value) (h : Int) (lk : Key) (lv : Value) (lh : Int)
    (ll lr r : KeyValueAVLNode Key Value) :
    KeyValueAVLTree.rotate_right (.node k v h (.node lk lv lh ll lr) r) =
      .ok (.node lk lv (1 + max (KeyValueAVLTree.height ll)
          (1 + max (KeyValueAVLTree.height lr) (KeyValueAVLTree.height r))) ll
        (.node k v (1 + max (KeyValueAVLTree.height lr) (KeyValueAVLTree.height r)) lr r)) :=
  rfl

theorem avl_rotate_left_eq (d : Key) (h : Int) (l : AVLNode Key)
    (rd : Key) (rh : Int) (rl rr : AVLNode Key) :
    AVLTree.rotate_left (.node d h l (.node rd rh rl rr)) =
      .ok (.node rd (1 + max (1 + max (AVLTree.height l) (AVLTree.height rl))
          (AVLTree.height rr))
        (.node d (1 + max (AVLTree.height l) (AVLTree.height rl)) l rl) rr) :=
  rfl

theorem avl_rotate_right_eq (d : Key) (h : Int) (ld : Key) (lh : Int)
    (ll lr r : AVLNode Key) :
    AVLTree.rotate_right (.node d h (.node ld lh ll lr) r) =
      .ok (.node ld (1 + max (AVLTree.height ll)
          (1 + max (AVLTree.height lr) (AVLTree.height r))) ll
        (.node d (1 + max (AVLTree.height lr) (AVLTree.height r)) lr r)) :=
  rfl

theorem update_height_forget (s : KeyValueAVLNode Key Value) :
    AVLTree.update_height s.forget = Except.map forget (KeyValueAVLTree.update_height s) := by
  cases s with
  | nullptr => rfl
  | node k v h l r =>
    show Except.ok (AVLNode.node k (1 + max (AVLTree.height l.forget) (AVLTree.height r.forget))
      l.forget r.forget) = _
    rw [height_forget, height_forget]; rfl

theorem rotate_left_forget (s : KeyValueAVLNode Key Value) :
    AVLTree.rotate_left s.forget = Except.map forget (KeyValueAVLTree.rotate_left s) := by
  cases s with
  | nullptr => rfl
  | node k v h l r =>
    cases r with
    | nullptr => rfl
    | node rk rv rh rl rr =>
      simp only [forget]
      rw [avl_rotate_left_eq, kv_rotate_left_eq]
      simp only [height_forget]
      rfl

theorem rotate_right_forget (s : KeyValueAVLNode Key Value) :
    AVLTree.rotate_right s.forget = Except.map forget (KeyValueAVLTree.rotate_right s) := by
  cases s with
  | nullptr => rfl
  | node k v h l r =>
    cases l with
    | nullptr => rfl
    | node lk lv lh ll lr =>
      simp only [forget]
      rw [avl_rotate_right_eq, kv_rotate_right_eq]
      simp only [height_forget]
      rfl

theorem rotate_left_right_forget (s : KeyValueAVLNode Key Value) :
    AVLTree.rotate_left_right s.forget =
      Except.map forget (KeyValueAVLTree.rotate_left_right s) := by
  cases s with
  | nullptr => rfl
  | node k v h l r =>
    simp only [forget, AVLTree.rotate_left_right, KeyValueAVLTree.rotate_left_right]
    rw [rotate_left_forget]
    exact map_bind _ _ _ _ _ (fun a => rotate_right_forget (.node k v h a r))

theorem rotate_right_left_forget (s : KeyValueAVLNode Key Value) :
    AVLTree.rotate_right_left s.forget =
      Except.map forget (KeyValueAVLTree.rotate_right_left s) := by
  cases s with
  | nullptr => rfl
  | node k v h l r =>
    simp only [forget, AVLTree.rotate_right_left, KeyValueAVLTree.rotate_right_left]
    rw [rotate_right_forget]
    exact map_bind _ _ _ _ _ (fun a => rotate_left_forget (.node k v h l a))

theorem balance_forget (s : KeyValueAVLNode Key Value) :
    AVLTree.balance s.forget = Except.map forget (KeyValueAVLTree.balance s) := by
  cases s with
  | nullptr => rfl
  | node k v h l r =>
    have e1 := calculate_balance_factor_forget (.node k v h l r)
    have e2 := rotate_left_forget (.node k v h l r)
    have e3 := rotate_right_left_forget (.node k v h l r)
    have e4 := rotate_right_forget (.node k v h l r)
    have e5 := rotate_left_right_forget (.node k v h l r)
    simp only [forget] at e1 e2 e3 e4 e5
    simp only [forget, AVLTree.balance, KeyValueAVLTree.balance, e1, e2, e3, e4, e5,
      calculate_balance_factor_forget]
    split_ifs <;> rfl

/-- The unwind step commutes with forgetting the payloads. -/
theorem unwind_forget (s : KeyValueAVLNode Key Value) :
    (AVLTree.update_height s.forget >>= AVLTree.balance) =
      Except.map forget (KeyValueAVLTree.update_height s >>= KeyValueAVLTree.balance) := by
  rw [update_height_forget]
  exact map_bind _ _ _ _ _ balance_forget

theorem find_max_forget (s : KeyValueAVLNode Key Value) :
    AVLTree.find_max s.forget = Except.map forget (KeyValueAVLTree.find_max s) := by
  induction s with
  | nullptr => rfl
  | node k v h l r _ ihr =>
    cases r with
    | nullptr => rfl
    | node rk rv rh rl rr =>
      simp only [forget, AVLTree.find_max, KeyValueAVLTree.find_max] at ihr ⊢
      exact ihr

theorem inorder_traversal_forget (s : KeyValueAVLNode Key Value) (acc : List (Key × Value)) :
    AVLTree.inorder_traversal s.forget (acc.map Prod.fst) =
      (KeyValueAVLTree.inorder_traversal s acc).map Prod.fst := by
  induction s generalizing acc with
  | nullptr => rfl
  | node k v h l r ihl ihr =>
    simp only [forget, AVLTree.inorder_traversal, KeyValueAVLTree.inorder_traversal]
    rw [← ihr, List.map_append, ← ihl]
    rfl

theorem inorder_forget (s : KeyValueAVLNode Key Value) :
    AVLTree.inorder s.forget = KeyValueAVLTree.keys s :=
  inorder_traversal_forget s []

theorem depth_forget (s : KeyValueAVLNode Key Value) :
    AVLTree.depth s.forget = KeyValueAVLTree.depth s := by
  induction s with
  | nullptr => rfl
  | node k v h l r ihl ihr =>
    simp only [forget, AVLTree.depth, KeyValueAVLTree.depth, ihl, ihr]

theorem heightsOk_forget (s : KeyValueAVLNode Key Value) :
    AVLTree.HeightsOk s.forget ↔ KeyValueAVLTree.HeightsOk s := by
  induction s with
  | nullptr => rfl
  | node k v h l r ihl ihr =>
    simp only [forget, AVLTree.HeightsOk, KeyValueAVLTree.HeightsOk, ihl, ihr, height_forget]

theorem balanced_forget (s : KeyValueAVLNode Key Value) :
    AVLTree.Balanced s.forget ↔ KeyValueAVLTree.Balanced s := by
  induction s with
  | nullptr => rfl
  | node k v h l r ihl ihr =>
    simp only [forget, AVLTree.Balanced, KeyValueAVLTree.Balanced, ihl, ihr, height_forget]

theorem depthBalanced_forget (s : KeyValueAVLNode Key Value) :
    AVLTree.DepthBalanced s.forget ↔ KeyValueAVLTree.DepthBalanced s := by
  induction s with
  | nullptr => rfl
  | node k v h l r ihl ihr =>
    simp only [forget, AVLTree.DepthBalanced, KeyValueAVLTree.DepthBalanced, ihl, ihr,
      depth_forget]

theorem allKeys_forget (p : Key → Prop) (s : KeyValueAVLNode Key Value) :
    AVLTree.AllKeys p s.forget ↔ KeyValueAVLTree.AllKeys p s := by
  induction s with
  | nullptr => rfl
  | node k v h l r ihl ihr =>
    simp only [forget, AVLTree.AllKeys, KeyValueAVLTree.AllKeys, ihl, ihr]

theorem bst_forget [LT Key] (s : KeyValueAVLNode Key Value) :
    AVLTree.BST s.forget ↔ KeyValueAVLTree.BST s := by
  induction s with
  | nullptr => rfl
  | node k v h l r ihl ihr =>
    simp only [forget, AVLTree.BST, KeyValueAVLTree.BST, ihl, ihr, allKeys_forget]

section OrderedBridge

variable [LinearOrder Key]

theorem find_forget (s : KeyValueAVLNode Key Value) (key : Key) :
    AVLTree.find s.forget key = (KeyValueAVLTree.find s key).forget := by
  induction s with
  | nullptr => rfl
  | node k v h l r ihl ihr =>
    simp only [forget, AVLTree.find, KeyValueAVLTree.find]
    split_ifs
    · rfl
    · exact ihl
    · exact ihr

/-- The set engine runs `insert` as the key-value engine does, payloads apart. -/
theorem insert_forget (s : KeyValueAVLNode Key Value) (key : Key) (value : Value) :
    AVLTree.insert s.forget key = Except.map forget (KeyValueAVLTree.insert s key value) := by
  induction s with
  | nullptr => rfl
  | node k v h l r ihl ihr =>
    simp only [forget, AVLTree.insert, KeyValueAVLTree.insert]
    split_ifs
    · rw [ihl]
      exact map_bind _ _ _ _ _ (fun a => unwind_forget (.node k v h a r))
    · rw [ihr]
      exact map_bind _ _ _ _ _ (fun a => unwind_forget (.node k v h l a))
    · rfl

/-- The set engine runs `erase` as the key-value engine does, payloads apart. -/
theorem erase_forget (s : KeyValueAVLNode Key Value) (key : Key) :
    AVLTree.erase s.forget key = Except.map forget (KeyValueAVLTree.erase s key) := by
  induction s generalizing key with
  | nullptr => rfl
  | node k v h l r ihl ihr =>
    simp only [forget, AVLTree.erase, KeyValueAVLTree.erase, isNull_forget]
    split_ifs
    · rw [ihl]
      exact map_bind _ _ _ _ _ (fun a => unwind_forget (.node k v h a r))
    · rw [ihr]
      exact map_bind _ _ _ _ _ (fun a => unwind_forget (.node k v h l a))
    · rfl
    · rfl
    · rw [find_max_forget]
      refine map_bind _ _ _ _ _ (fun temp => ?_)
      cases temp with
      | nullptr => rfl
      | node tk tv th tl tr =>
        simp only [forget]
        rw [ihl]
        exact map_bind _ _ _ _ _ (fun a => unwind_forget (.node tk tv h a r))

end OrderedBridge

end KeyValueAVLNode

namespace AVLTree

variable {T : Type}

theorem heightsOk_lift (s : AVLNode T) : HeightsOk s ↔ KeyValueAVLTree.HeightsOk s.lift := by
  rw [← KeyValueAVLNode.heightsOk_forget, KeyValueAVLNode.forget_lift]

theorem balanced_lift (s : AVLNode T) : Balanced s ↔ KeyValueAVLTree.Balanced s.lift := by
  rw [← KeyValueAVLNode.balanced_forget, KeyValueAVLNode.forget_lift]

theorem bst_lift [LT T] (s : AVLNode T) : BST s ↔ KeyValueAVLTree.BST s.lift := by
  rw [← KeyValueAVLNode.bst_forget, KeyValueAVLNode.forget_lift]

theorem inorder_lift (s : AVLNode T) : inorder s = KeyValueAVLTree.keys s.lift := by
  rw [← KeyValueAVLNode.inorder_forget, KeyValueAVLNode.forget_lift]

theorem set_height_eq_depth {s : AVLNode T} (h : HeightsOk s) : height s = depth s := by
  have := KeyValueAVLTree.height_eq_depth ((heightsOk_lift s).mp h)
  rwa [← KeyValueAVLNode.height_forget, ← KeyValueAVLNode.depth_forget,
    KeyValueAVLNode.forget_lift] at this

theorem set_balanced_iff_depthBalanced {s : AVLNode T} (h : HeightsOk s) :
    Balanced s ↔ DepthBalanced s := by
  have := KeyValueAVLTree.balanced_iff_depthBalanced ((heightsOk_lift s).mp h)
  rwa [← KeyValueAVLNode.balanced_forget, ← KeyValueAVLNode.depthBalanced_forget,
    KeyValueAVLNode.forget_lift] at this

theorem set_bst_iff [Preorder T] (s : AVLNode T) : BST s ↔ (inorder s).Pairwise (· < ·) := by
  rw [bst_lift, KeyValueAVLTree.bst_iff, inorder_lift, KeyValueAVLTree.keys, List.pairwise_map]

theorem map_eq_ok {α β : Type} {g : α → β} {x : Except Fault α} {b : β}
    (h : Except.map g x = .ok b) : ∃ a, x = .ok a ∧ g a = b := by
  cases x with
  | error e => cases h
  | ok a =>
    cases h
    exact ⟨a, rfl, rfl⟩

section OrderedSet

variable [LinearOrder T]

theorem insert_eq_lift (s : AVLNode T) (value : T) :
    insert s value = Except.map KeyValueAVLNode.forget (KeyValueAVLTree.insert s.lift value ()) := by
  have := KeyValueAVLNode.insert_forget s.lift value ()
  rwa [KeyValueAVLNode.forget_lift] at this

theorem erase_eq_lift (s : AVLNode T) (value : T) :
    erase s value = Except.map KeyValueAVLNode.forget (KeyValueAVLTree.erase s.lift value) := by
  have := KeyValueAVLNode.erase_forget s.lift value
  rwa [KeyValueAVLNode.forget_lift] at this

theorem find_eq_lift (s : AVLNode T) (value : T) :
    find s value = (KeyValueAVLTree.find s.lift value).forget := by
  have := KeyValueAVLNode.find_forget s.lift value
  rwa [KeyValueAVLNode.forget_lift] at this

theorem set_insert_heightsOk (s : AVLNode T) (value : T) (h : HeightsOk s) :
    ∃ s', insert s value = .ok s' ∧ HeightsOk s' := by
  obtain ⟨t', e, ht'⟩ := KeyValueAVLTree.insert_heightsOk s.lift value () ((heightsOk_lift s).mp h)
  exact ⟨t'.forget, by rw [insert_eq_lift, e]; rfl, (KeyValueAVLNode.heightsOk_forget t').mpr ht'⟩

theorem set_erase_heightsOk (s : AVLNode T) (value : T) (h : HeightsOk s) :
    ∃ s', erase s value = .ok s' ∧ HeightsOk s' := by
  obtain ⟨t', e, ht'⟩ := KeyValueAVLTree.erase_heightsOk s.lift value ((heightsOk_lift s).mp h)
  exact ⟨t'.forget, by rw [erase_eq_lift, e]; rfl, (KeyValueAVLNode.heightsOk_forget t').mpr ht'⟩

theorem set_insert_balanced (s : AVLNode T) (value : T) (h : HeightsOk s) (b : Balanced s) :
    ∃ s', insert s value = .ok s' ∧ HeightsOk s' ∧ Balanced s' ∧
      (height s' = height s ∨ height s' = height s + 1) := by
  obtain ⟨t', e, ht', bt', hh⟩ := KeyValueAVLTree.insert_balanced s.lift value ()
    ((heightsOk_lift s).mp h) ((balanced_lift s).mp b)
  refine ⟨t'.forget, by rw [insert_eq_lift, e]; rfl, (KeyValueAVLNode.heightsOk_forget t').mpr ht',
    (KeyValueAVLNode.balanced_forget t').mpr bt', ?_⟩
  rw [← KeyValueAVLNode.height_forget, ← KeyValueAVLNode.height_forget,
    KeyValueAVLNode.forget_lift] at hh
  exact hh

theorem set_erase_balanced (s : AVLNode T) (value : T) (h : HeightsOk s) (b : Balanced s) :
    ∃ s', erase s value = .ok s' ∧ HeightsOk s' ∧ Balanced s' ∧
      (height s' = height s ∨ height s' = height s - 1) := by
  obtain ⟨t', e, ht', bt', hh⟩ := KeyValueAVLTree.erase_balanced s.lift value
    ((heightsOk_lift s).mp h) ((balanced_lift s).mp b)
  refine ⟨t'.forget, by rw [erase_eq_lift, e]; rfl, (KeyValueAVLNode.heightsOk_forget t').mpr ht',
    (KeyValueAVLNode.balanced_forget t').mpr bt', ?_⟩
  rw [← KeyValueAVLNode.height_forget, ← KeyValueAVLNode.height_forget,
    KeyValueAVLNode.forget_lift] at hh
  exact hh

theorem set_insert_bst {s s' : AVLNode T} {value : T} (hs : BST s) (h : insert s value = .ok s') :
    BST s' := by
  rw [insert_eq_lift] at h
  obtain ⟨t', e, rfl⟩ := map_eq_ok h
  exact (KeyValueAVLNode.bst_forget t').mpr (KeyValueAVLTree.insert_bst ((bst_lift s).mp hs) e)

theorem set_erase_bst {s s' : AVLNode T} {value : T} (hs : BST s) (h : erase s value = .ok s') :
    BST s' := by
  rw [erase_eq_lift] at h
  obtain ⟨t', e, rfl⟩ := map_eq_ok h
  exact (KeyValueAVLNode.bst_forget t').mpr (KeyValueAVLTree.erase_bst ((bst_lift s).mp hs) e)

theorem set_erase_inorder {s s' : AVLNode T} {value : T} (hs : BST s) (h : erase s value = .ok s') :
    inorder s' = (inorder s).filter (fun x => decide (x ≠ value)) := by
  rw [erase_eq_lift] at h
  obtain ⟨t', e, rfl⟩ := map_eq_ok h
  rw [KeyValueAVLNode.inorder_forget, inorder_lift, KeyValueAVLTree.keys,
    KeyValueAVLTree.erase_inorder ((bst_lift s).mp hs) e, KeyValueAVLTree.keys, List.filter_map]
  rfl

theorem set_find_spec {s : AVLNode T} (value : T) (hs : BST s) :
    (value ∈ inorder s → ∃ h l r, find s value = .node value h l r) ∧
      (value ∉ inorder s → find s value = .nullptr) := by
  have hf := KeyValueAVLTree.find_spec value ((bst_lift s).mp hs)
  rw [inorder_lift, find_eq_lift]
  constructor
  · intro hm
    obtain ⟨⟨k, u⟩, hx, rfl⟩ := List.mem_map.mp hm
    obtain ⟨h, l, r, e⟩ := hf.1 u hx
    exact ⟨h, l.forget, r.forget, by rw [e]; rfl⟩
  · intro hm
    rw [hf.2 hm]; rfl

theorem set_erase_absent {s : AVLNode T} {value : T} (hh : HeightsOk s) (hb : Balanced s)
    (hk : value ∉ inorder s) : erase s value = .ok s := by
  rw [inorder_lift] at hk
  rw [erase_eq_lift, KeyValueAVLTree.erase_absent ((heightsOk_lift s).mp hh)
    ((balanced_lift s).mp hb) hk]
  show Except.ok s.lift.forget = _
  rw [KeyValueAVLNode.forget_lift]

end OrderedSet

end AVLTree

/-! ## The invariants of the engine -/

/-- C1: `insert` preserves height balance in both engines. For every tree whose
stored heights are correct and whose nodes all satisfy
`|height(left) - height(right)| ≤ 1`, and every key and payload, `insert` returns a
tree in which every node satisfies `|height(left) - height(right)| ≤ 1`, on the
stored heights and on the heights of the glossary alike. -/
theorem insert_preserves_height_balance {Key Value : Type} [LinearOrder Key]
    (t : KeyValueAVLNode Key Value) (s : AVLNode Key) (key : Key) (value : Value)
    (ht : KeyValueAVLTree.HeightsOk t) (bt : KeyValueAVLTree.Balanced t)
    (hs : AVLTree.HeightsOk s) (bs : AVLTree.Balanced s) :
    (∃ t', KeyValueAVLTree.insert t key value = .ok t' ∧
        KeyValueAVLTree.Balanced t' ∧ KeyValueAVLTree.DepthBalanced t') ∧
      (∃ s', AVLTree.insert s key = .ok s' ∧
        AVLTree.Balanced s' ∧ AVLTree.DepthBalanced s') := by
  obtain ⟨t', e, h', b', _⟩ := KeyValueAVLTree.insert_balanced t key value ht bt
  obtain ⟨s', e2, h2, b2, _⟩ := AVLTree.set_insert_balanced s key hs bs
  exact ⟨⟨t', e, b', (KeyValueAVLTree.balanced_iff_depthBalanced h').mp b'⟩,
    ⟨s', e2, b2, (AVLTree.set_balanced_iff_depthBalanced h2).mp b2⟩⟩

/-- Witness for C1: inserting 3 into the spine 1 -> 2, which rotates. -/
theorem insert_preserves_height_balance_witness :
    KeyValueAVLTree.HeightsOk sampleMap ∧ KeyValueAVLTree.Balanced sampleMap ∧
      AVLTree.HeightsOk sampleSet ∧ AVLTree.Balanced sampleSet ∧
      ((∃ t', KeyValueAVLTree.insert sampleMap 3 30 = .ok t' ∧
          KeyValueAVLTree.Balanced t' ∧ KeyValueAVLTree.DepthBalanced t') ∧
        (∃ s', AVLTree.insert sampleSet 3 = .ok s' ∧
          AVLTree.Balanced s' ∧ AVLTree.DepthBalanced s')) :=
  ⟨by decide, by decide, by decide, by decide,
    insert_preserves_height_balance sampleMap sampleSet 3 30
      (by decide) (by decide) (by decide) (by decide)⟩

/-- C2: `erase` preserves height balance in both engines. For every tree whose
stored heights are correct and whose nodes all satisfy
`|height(left) - height(right)| ≤ 1`, and every key, present or absent, `erase`
returns a tree in which every node satisfies `|height(left) - height(right)| ≤ 1`,
on the stored heights and on the heights of the glossary alike. -/
theorem erase_preserves_height_balance {Key Value : Type} [LinearOrder Key]
    (t : KeyValueAVLNode Key Value) (s : AVLNode Key) (key : Key)
    (ht : KeyValueAVLTree.HeightsOk t) (bt : KeyValueAVLTree.Balanced t)
    (hs : AVLTree.HeightsOk s) (bs : AVLTree.Balanced s) :
    (∃ t', KeyValueAVLTree.erase t key = .ok t' ∧
        KeyValueAVLTree.Balanced t' ∧ KeyValueAVLTree.DepthBalanced t') ∧
      (∃ s', AVLTree.erase s key = .ok s' ∧
        AVLTree.Balanced s' ∧ AVLTree.DepthBalanced s') := by
  obtain ⟨t', e, h', b', _⟩ := KeyValueAVLTree.erase_balanced t key ht bt
  obtain ⟨s', e2, h2, b2, _⟩ := AVLTree.set_erase_balanced s key hs bs
  exact ⟨⟨t', e, b', (KeyValueAVLTree.balanced_iff_depthBalanced h').mp b'⟩,
    ⟨s', e2, b2, (AVLTree.set_balanced_iff_depthBalanced h2).mp b2⟩⟩

/-- Witness for C2: erasing the root key 2, a node with two children. -/
theorem erase_preserves_height_balance_witness :
    KeyValueAVLTree.HeightsOk sampleMap4 ∧ KeyValueAVLTree.Balanced sampleMap4 ∧
      AVLTree.HeightsOk sampleSet4 ∧ AVLTree.Balanced sampleSet4 ∧
      ((∃ t', KeyValueAVLTree.erase sampleMap4 2 = .ok t' ∧
          KeyValueAVLTree.Balanced t' ∧ KeyValueAVLTree.DepthBalanced t') ∧
        (∃ s', AVLTree.erase sampleSet4 2 = .ok s' ∧
          AVLTree.Balanced s' ∧ AVLTree.DepthBalanced s')) :=
  ⟨by decide, by decide, by decide, by decide,
    erase_preserves_height_balance sampleMap4 sampleSet4 2
      (by decide) (by decide) (by decide) (by decide)⟩

/-- C3: `insert` preserves the search-tree ordering in both engines. For every tree
in which, at every node, the keys of the left subtree are strictly less and the
keys of the right subtree strictly greater than the key of the node, and for every
key, every tree `insert` returns has the same property, and its in-order traversal
is strictly ascending, so no two nodes share a key. A tree is returned whenever the
stored heights are correct. -/
theorem insert_preserves_bst_ordering {Key Value : Type} [LinearOrder Key]
    (t : KeyValueAVLNode Key Value) (s : AVLNode Key) (key : Key) (value : Value)
    (ht : KeyValueAVLTree.BST t) (hs : AVLTree.BST s) :
    ((∀ t', KeyValueAVLTree.insert t key value = .ok t' →
          KeyValueAVLTree.BST t' ∧ (KeyValueAVLTree.keys t').Pairwise (· < ·) ∧
            (KeyValueAVLTree.keys t').Nodup) ∧
        (KeyValueAVLTree.HeightsOk t → ∃ t', KeyValueAVLTree.insert t key value = .ok t')) ∧
      ((∀ s', AVLTree.insert s key = .ok s' →
          AVLTree.BST s' ∧ (AVLTree.inorder s').Pairwise (· < ·) ∧ (AVLTree.inorder s').Nodup) ∧
        (AVLTree.HeightsOk s → ∃ s', AVLTree.insert s key = .ok s')) := by
  refine ⟨⟨fun t' e => ?_, fun h => ?_⟩, ⟨fun s' e => ?_, fun h => ?_⟩⟩
  · have b := KeyValueAVLTree.insert_bst ht e
    have p : (KeyValueAVLTree.keys t').Pairwise (· < ·) := by
      rw [KeyValueAVLTree.keys, List.pairwise_map]
      exact (KeyValueAVLTree.bst_iff t').mp b
    exact ⟨b, p, p.imp ne_of_lt⟩
  · obtain ⟨t', e, _⟩ := KeyValueAVLTree.insert_heightsOk t key value h
    exact ⟨t', e⟩
  · have b := AVLTree.set_insert_bst hs e
    have p := (AVLTree.set_bst_iff s').mp b
    exact ⟨b, p, p.imp ne_of_lt⟩
  · obtain ⟨s', e, _⟩ := AVLTree.set_insert_heightsOk s key h
    exact ⟨s', e⟩

/-- Witness for C3: inserting 3 into the spine 1 -> 2 gives the ordered tree with root 2. -/
theorem insert_preserves_bst_ordering_witness :
    KeyValueAVLTree.BST sampleMap ∧ AVLTree.BST sampleSet ∧
      KeyValueAVLTree.BST (.node 2 20 2 (.node 1 10 1 .nullptr .nullptr)
        (.node 3 30 1 .nullptr .nullptr) : KeyValueAVLNode Nat Nat) ∧
      AVLTree.BST (.node 2 2 (.node 1 1 .nullptr .nullptr)
        (.node 3 1 .nullptr .nullptr) : AVLNode Nat) :=
  ⟨by decide, by decide,
    ((insert_preserves_bst_ordering sampleMap sampleSet 3 30 (by decide) (by decide)).1.1
      _ rfl).1,
    ((insert_preserves_bst_ordering sampleMap sampleSet 3 30 (by decide) (by decide)).2.1
      _ rfl).1⟩

/-- C4: `erase` preserves the search-tree ordering in both engines. For every tree
satisfying the strict ordering at every node and every key, every tree `erase`
returns satisfies the strict ordering at every node and its in-order traversal is
strictly ascending, also when the erased node has two children and is overwritten
with its in-order predecessor. A tree is returned whenever the stored heights are
correct. -/
theorem erase_preserves_bst_ordering {Key Value : Type} [LinearOrder Key]
    (t : KeyValueAVLNode Key Value) (s : AVLNode Key) (key : Key)
    (ht : KeyValueAVLTree.BST t) (hs : AVLTree.BST s) :
    ((∀ t', KeyValueAVLTree.erase t key = .ok t' →
          KeyValueAVLTree.BST t' ∧ (KeyValueAVLTree.keys t').Pairwise (· < ·)) ∧
        (KeyValueAVLTree.HeightsOk t → ∃ t', KeyValueAVLTree.erase t key = .ok t')) ∧
      ((∀ s', AVLTree.erase s key = .ok s' →
          AVLTree.BST s' ∧ (AVLTree.inorder s').Pairwise (· < ·)) ∧
        (AVLTree.HeightsOk s → ∃ s', AVLTree.erase s key = .ok s')) := by
  refine ⟨⟨fun t' e => ?_, fun h => ?_⟩, ⟨fun s' e => ?_, fun h => ?_⟩⟩
  · have b := KeyValueAVLTree.erase_bst ht e
    refine ⟨b, ?_⟩
    rw [KeyValueAVLTree.keys, List.pairwise_map]
    exact (KeyValueAVLTree.bst_iff t').mp b
  · obtain ⟨t', e, _⟩ := KeyValueAVLTree.erase_heightsOk t key h
    exact ⟨t', e⟩
  · have b := AVLTree.set_erase_bst hs e
    exact ⟨b, (AVLTree.set_bst_iff s').mp b⟩
  · obtain ⟨s', e, _⟩ := AVLTree.set_erase_heightsOk s key h
    exact ⟨s', e⟩

/-- Witness for C4: erasing the root key 2, which has two children, keeps the order. -/
theorem erase_preserves_bst_ordering_witness :
    KeyValueAVLTree.BST sampleMap4 ∧ AVLTree.BST sampleSet4 ∧
      KeyValueAVLTree.BST (.node 3 30 2 (.node 1 10 1 .nullptr .nullptr)
        (.node 4 40 1 .nullptr .nullptr) : KeyValueAVLNode Nat Nat) ∧
      AVLTree.BST (.node 3 2 (.node 1 1 .nullptr .nullptr)
        (.node 4 1 .nullptr .nullptr) : AVLNode Nat) :=
  ⟨by decide, by decide,
    ((erase_preserves_bst_ordering sampleMap4 sampleSet4 2 (by decide) (by decide)).1.1
      _ rfl).1,
    ((erase_preserves_bst_ordering sampleMap4 sampleSet4 2 (by decide) (by decide)).2.1
      _ rfl).1⟩

/-- C5: stored-height correctness is preserved in both engines. For every tree in
which every stored height equals 1 + max of the heights of the children (an absent
child counts 0), `insert` and `erase` return, for any key, a tree with the same
property, whose stored height is the height of the glossary; and the leaf `insert`
creates has height 1. -/
theorem stored_heights_preserved {Key Value : Type} [LinearOrder Key]
    (t : KeyValueAVLNode Key Value) (s : AVLNode Key) (key : Key) (value : Value)
    (ht : KeyValueAVLTree.HeightsOk t) (hs : AVLTree.HeightsOk s) :
    (∃ t', KeyValueAVLTree.insert t key value = .ok t' ∧ KeyValueAVLTree.HeightsOk t' ∧
        KeyValueAVLTree.height t' = KeyValueAVLTree.depth t') ∧
      (∃ t', KeyValueAVLTree.erase t key = .ok t' ∧ KeyValueAVLTree.HeightsOk t' ∧
        KeyValueAVLTree.height t' = KeyValueAVLTree.depth t') ∧
      (∃ s', AVLTree.insert s key = .ok s' ∧ AVLTree.HeightsOk s' ∧
        AVLTree.height s' = AVLTree.depth s') ∧
      (∃ s', AVLTree.erase s key = .ok s' ∧ AVLTree.HeightsOk s' ∧
        AVLTree.height s' = AVLTree.depth s') ∧
      KeyValueAVLTree.insert .nullptr key value = .ok (.node key value 1 .nullptr .nullptr) ∧
      AVLTree.insert .nullptr key = .ok (.node key 1 .nullptr .nullptr) := by
  obtain ⟨a, ea, ha⟩ := KeyValueAVLTree.insert_heightsOk t key value ht
  obtain ⟨b, eb, hb⟩ := KeyValueAVLTree.erase_heightsOk t key ht
  obtain ⟨c, ec, hc⟩ := AVLTree.set_insert_heightsOk s key hs
  obtain ⟨d, ed, hd⟩ := AVLTree.set_erase_heightsOk s key hs
  exact ⟨⟨a, ea, ha, KeyValueAVLTree.height_eq_depth ha⟩,
    ⟨b, eb, hb, KeyValueAVLTree.height_eq_depth hb⟩,
    ⟨c, ec, hc, AVLTree.set_height_eq_depth hc⟩,
    ⟨d, ed, hd, AVLTree.set_height_eq_depth hd⟩, rfl, rfl⟩

/-- Witness for C5: the spine 1 -> 2 with the key 3 inserted and erased. -/
theorem stored_heights_preserved_witness :
    KeyValueAVLTree.HeightsOk sampleMap ∧ AVLTree.HeightsOk sampleSet ∧
      (∃ t', KeyValueAVLTree.insert sampleMap 3 30 = .ok t' ∧ KeyValueAVLTree.HeightsOk t' ∧
        KeyValueAVLTree.height t' = KeyValueAVLTree.depth t') :=
  ⟨by decide, by decide,
    (stored_heights_preserved sampleMap sampleSet 3 30 (by decide) (by decide)).1⟩

/-- C6: `find` is correct on a search tree, in both engines. For every tree
satisfying the strict ordering and every key, `find` returns a node holding that
key (with the payload the traversal lists for it) if the key occurs among the keys
of the tree, and the null pointer otherwise. -/
theorem find_correct_on_search_tree {Key Value : Type} [LinearOrder Key]
    (t : KeyValueAVLNode Key Value) (s : AVLNode Key) (key : Key)
    (ht : KeyValueAVLTree.BST t) (hs : AVLTree.BST s) :
    (key ∈ KeyValueAVLTree.keys t → ∃ value h l r,
        KeyValueAVLTree.find t key = .node key value h l r ∧
          (key, value) ∈ KeyValueAVLTree.inorder t) ∧
      (key ∉ KeyValueAVLTree.keys t → KeyValueAVLTree.find t key = .nullptr) ∧
      (key ∈ AVLTree.inorder s → ∃ h l r, AVLTree.find s key = .node key h l r) ∧
      (key ∉ AVLTree.inorder s → AVLTree.find s key = .nullptr) := by
  refine ⟨fun hk => ?_, (KeyValueAVLTree.find_spec key ht).2,
    (AVLTree.set_find_spec key hs).1, (AVLTree.set_find_spec key hs).2⟩
  obtain ⟨⟨k, v⟩, hx, rfl⟩ := List.mem_map.mp hk
  obtain ⟨h, l, r, e⟩ := (KeyValueAVLTree.find_spec k ht).1 v hx
  exact ⟨v, h, l, r, e, hx⟩

/-- Witness for C6: 4 is found in the tree with the keys 1 to 4, and 7 is not. -/
theorem find_correct_on_search_tree_witness :
    KeyValueAVLTree.BST sampleMap4 ∧ AVLTree.BST sampleSet4 ∧
      KeyValueAVLTree.find sampleMap4 7 = .nullptr ∧
      (∃ h l r, AVLTree.find sampleSet4 4 = .node 4 h l r) :=
  ⟨by decide, by decide,
    (find_correct_on_search_tree sampleMap4 sampleSet4 7 (by decide) (by decide)).2.1
      (by decide),
    (find_correct_on_search_tree sampleMap4 sampleSet4 4 (by decide) (by decide)).2.2.1
      (by decide)⟩

/-! ## What `insert` and `erase` do to the entries -/

/-- C7: `insert` of an absent key adds exactly that entry. For every search tree
with correct stored heights, every key not in the tree and every payload, `insert`
returns a tree whose in-order traversal is the old one with the new pair put at its
sorted position: after the entries with a smaller key and before those with a
greater one, all of them kept with their payloads. -/
theorem insert_absent_adds_entry {Key Value : Type} [LinearOrder Key]
    (t : KeyValueAVLNode Key Value) (key : Key) (value : Value)
    (hh : KeyValueAVLTree.HeightsOk t) (ht : KeyValueAVLTree.BST t)
    (hk : key ∉ KeyValueAVLTree.keys t) :
    ∃ t' pre post, KeyValueAVLTree.insert t key value = .ok t' ∧
      KeyValueAVLTree.inorder t = pre ++ post ∧
      KeyValueAVLTree.inorder t' = pre ++ (key, value) :: post ∧
      (∀ p ∈ pre, p.1 < key) ∧ (∀ p ∈ post, key < p.1) := by
  obtain ⟨t', e, _⟩ := KeyValueAVLTree.insert_heightsOk t key value hh
  obtain ⟨pre, post, h1, h2, h3, h4⟩ := KeyValueAVLTree.insert_inorder_absent ht hk e
  exact ⟨t', pre, post, e, h1, h2, h3, h4⟩

/-- Witness for C7: inserting the absent key 3 into the spine 1 -> 2. -/
theorem insert_absent_adds_entry_witness :
    KeyValueAVLTree.HeightsOk sampleMap ∧ KeyValueAVLTree.BST sampleMap ∧
      3 ∉ KeyValueAVLTree.keys sampleMap ∧
      ∃ t' pre post, KeyValueAVLTree.insert sampleMap 3 30 = .ok t' ∧
        KeyValueAVLTree.inorder sampleMap = pre ++ post ∧
        KeyValueAVLTree.inorder t' = pre ++ (3, 30) :: post ∧
        (∀ p ∈ pre, p.1 < 3) ∧ (∀ p ∈ post, 3 < p.1) :=
  ⟨by decide, by decide, by decide,
    insert_absent_adds_entry sampleMap 3 30 (by decide) (by decide) (by decide)⟩

/-- C8: `erase` of a present key removes exactly that entry, in both engines. For
every search tree with correct stored heights and every key in the tree, `erase`
returns a tree whose in-order traversal is the old one with the entry of that key
taken out; every other pair stays, in place and with its payload, also when the
node has two children and takes the key and payload of its predecessor. -/
theorem erase_present_removes_entry {Key Value : Type} [LinearOrder Key]
    (t : KeyValueAVLNode Key Value) (s : AVLNode Key) (key : Key)
    (hh : KeyValueAVLTree.HeightsOk t) (ht : KeyValueAVLTree.BST t)
    (hk : key ∈ KeyValueAVLTree.keys t)
    (hhs : AVLTree.HeightsOk s) (hs : AVLTree.BST s) (hks : key ∈ AVLTree.inorder s) :
    (∃ t' pre value post, KeyValueAVLTree.erase t key = .ok t' ∧
        KeyValueAVLTree.inorder t = pre ++ (key, value) :: post ∧
        KeyValueAVLTree.inorder t' = pre ++ post) ∧
      (∃ s' pre post, AVLTree.erase s key = .ok s' ∧
        AVLTree.inorder s = pre ++ key :: post ∧ AVLTree.inorder s' = pre ++ post) := by
  constructor
  · obtain ⟨t', e, _⟩ := KeyValueAVLTree.erase_heightsOk t key hh
    obtain ⟨⟨k, v⟩, hx, rfl⟩ := List.mem_map.mp hk
    obtain ⟨pre, post, hsplit⟩ := List.append_of_mem hx
    refine ⟨t', pre, v, post, e, hsplit, ?_⟩
    have hp := (KeyValueAVLTree.bst_iff t).mp ht
    rw [hsplit] at hp
    rw [KeyValueAVLTree.erase_inorder ht e, hsplit]
    exact KeyValueAVLTree.filter_remove Prod.fst pre post (k, v) hp
  · obtain ⟨s', e, _⟩ := AVLTree.set_erase_heightsOk s key hhs
    obtain ⟨pre, post, hsplit⟩ := List.append_of_mem hks
    refine ⟨s', pre, post, e, hsplit, ?_⟩
    have hp := (AVLTree.set_bst_iff s).mp hs
    rw [hsplit] at hp
    rw [AVLTree.set_erase_inorder hs e, hsplit]
    exact KeyValueAVLTree.filter_remove (fun a => a) pre post key hp

/-- Witness for C8: erasing the root key 2, which has two children. -/
theorem erase_present_removes_entry_witness :
    KeyValueAVLTree.HeightsOk sampleMap4 ∧ KeyValueAVLTree.BST sampleMap4 ∧
      2 ∈ KeyValueAVLTree.keys sampleMap4 ∧
      AVLTree.HeightsOk sampleSet4 ∧ AVLTree.BST sampleSet4 ∧ 2 ∈ AVLTree.inorder sampleSet4 ∧
      ((∃ t' pre value post, KeyValueAVLTree.erase sampleMap4 2 = .ok t' ∧
          KeyValueAVLTree.inorder sampleMap4 = pre ++ (2, value) :: post ∧
          KeyValueAVLTree.inorder t' = pre ++ post) ∧
        (∃ s' pre post, AVLTree.erase sampleSet4 2 = .ok s' ∧
          AVLTree.inorder sampleSet4 = pre ++ 2 :: post ∧ AVLTree.inorder s' = pre ++ post)) :=
  ⟨by decide, by decide, by decide, by decide, by decide, by decide,
    erase_present_removes_entry sampleMap4 sampleSet4 2
      (by decide) (by decide) (by decide) (by decide) (by decide) (by decide)⟩

/-- C9: a duplicate `insert` leaves the tree unchanged. For every tree satisfying
the invariants that holds the key with payload `v1`, and every payload `v2`,
`insert` returns the input tree itself, with the same shape, keys, payloads and
stored heights, and `find` still yields the payload `v1`. -/
theorem duplicate_insert_unchanged {Key Value : Type} [LinearOrder Key]
    (t : KeyValueAVLNode Key Value) (key : Key) (v1 v2 : Value)
    (hh : KeyValueAVLTree.HeightsOk t) (hb : KeyValueAVLTree.Balanced t)
    (ht : KeyValueAVLTree.BST t) (hk : (key, v1) ∈ KeyValueAVLTree.inorder t) :
    KeyValueAVLTree.insert t key v2 = .ok t ∧
      ∃ h l r, KeyValueAVLTree.find t key = .node key v1 h l r :=
  ⟨KeyValueAVLTree.insert_present v2 hh hb ht (List.mem_map.mpr ⟨(key, v1), hk, rfl⟩),
    (KeyValueAVLTree.find_spec key ht).1 v1 hk⟩

/-- Witness for C9: inserting the key 4 again, with the payload 99 instead of 40. -/
theorem duplicate_insert_unchanged_witness :
    KeyValueAVLTree.HeightsOk sampleMap4 ∧ KeyValueAVLTree.Balanced sampleMap4 ∧
      KeyValueAVLTree.BST sampleMap4 ∧ (4, 40) ∈ KeyValueAVLTree.inorder sampleMap4 ∧
      KeyValueAVLTree.insert sampleMap4 4 99 = .ok sampleMap4 ∧
      ∃ h l r, KeyValueAVLTree.find sampleMap4 4 = .node 4 40 h l r :=
  ⟨by decide, by decide, by decide, by decide,
    duplicate_insert_unchanged sampleMap4 4 40 99
      (by decide) (by decide) (by decide) (by decide)⟩

/-- C10: erasing a missing key is a no-op, in both engines. For every tree with
correct stored heights and balanced nodes and every key not in the tree, `erase`
returns the input tree itself, with the same shape, keys, payloads and stored
heights, although every node on the search path has its height recomputed and
`balance` applied on unwind. -/
theorem erase_missing_key_noop {Key Value : Type} [LinearOrder Key]
    (t : KeyValueAVLNode Key Value) (s : AVLNode Key) (key : Key)
    (hh : KeyValueAVLTree.HeightsOk t) (hb : KeyValueAVLTree.Balanced t)
    (hk : key ∉ KeyValueAVLTree.keys t)
    (hhs : AVLTree.HeightsOk s) (hbs : AVLTree.Balanced s) (hks : key ∉ AVLTree.inorder s) :
    KeyValueAVLTree.erase t key = .ok t ∧ AVLTree.erase s key = .ok s :=
  ⟨KeyValueAVLTree.erase_absent hh hb hk, AVLTree.set_erase_absent hhs hbs hks⟩

/-- Witness for C10: erasing the absent key 7 from the trees with the keys 1 to 4. -/
theorem erase_missing_key_noop_witness :
    KeyValueAVLTree.HeightsOk sampleMap4 ∧ KeyValueAVLTree.Balanced sampleMap4 ∧
      7 ∉ KeyValueAVLTree.keys sampleMap4 ∧
      AVLTree.HeightsOk sampleSet4 ∧ AVLTree.Balanced sampleSet4 ∧
      7 ∉ AVLTree.inorder sampleSet4 ∧
      KeyValueAVLTree.erase sampleMap4 7 = .ok sampleMap4 ∧
      AVLTree.erase sampleSet4 7 = .ok sampleSet4 :=
  ⟨by decide, by decide, by decide, by decide, by decide, by decide,
    erase_missing_key_noop sampleMap4 sampleSet4 7
      (by decide) (by decide) (by decide) (by decide) (by decide) (by decide)⟩

/-! ## Size, traversals, minimum and maximum -/

namespace KeyValueAVLTree

variable {Key Value : Type}

theorem length_inorder_traversal (t : KeyValueAVLNode Key Value) (acc : List (Key × Value)) :
    (inorder_traversal t acc).length = acc.length + size t := by
  induction t generalizing acc with
  | nullptr => simp [inorder_traversal, size]
  | node k v s l r ihl ihr =>
    simp only [inorder_traversal, size, ihr, List.length_append, ihl, List.length_singleton]
    omega

theorem length_preorder_traversal (t : KeyValueAVLNode Key Value) (acc : List (Key × Value)) :
    (preorder_traversal t acc).length = acc.length + size t := by
  induction t generalizing acc with
  | nullptr => simp [preorder_traversal, size]
  | node k v s l r ihl ihr =>
    simp only [preorder_traversal, size, ihr, List.length_append, ihl, List.length_singleton]
    omega

theorem length_postorder_traversal (t : KeyValueAVLNode Key Value) (acc : List (Key × Value)) :
    (postorder_traversal t acc).length = acc.length + size t := by
  induction t generalizing acc with
  | nullptr => simp [postorder_traversal, size]
  | node k v s l r ihl ihr =>
    simp only [postorder_traversal, size, ihr, List.length_append, ihl, List.length_singleton]
    omega

theorem size_eq_length_inorder (t : KeyValueAVLNode Key Value) :
    size t = (inorder t).length := by
  simp [inorder, length_inorder_traversal]

/-- The node `find_min` returns holds the first entry of the in-order traversal. -/
theorem find_min_inorder (k : Key) (v : Value) (s : Int) (l r : KeyValueAVLNode Key Value) :
    ∃ mk mv ms mr rest, find_min (.node k v s l r) = .ok (.node mk mv ms .nullptr mr) ∧
      inorder (.node k v s l r) = (mk, mv) :: rest := by
  induction l generalizing k v s r with
  | nullptr => exact ⟨k, v, s, r, inorder r, rfl, by simp⟩
  | node lk lv ls ll lr ihl _ =>
    obtain ⟨mk, mv, ms, mr, rest, e, hi⟩ := ihl lk lv ls lr
    refine ⟨mk, mv, ms, mr, rest ++ (k, v) :: inorder r, by rw [find_min, e], ?_⟩
    rw [inorder_node, hi]
    simp

end KeyValueAVLTree

namespace AVLTree

variable {T : Type}

theorem set_length_inorder_traversal (t : AVLNode T) (acc : List T) :
    (inorder_traversal t acc).length = acc.length + size t := by
  induction t generalizing acc with
  | nullptr => simp [inorder_traversal, size]
  | node d s l r ihl ihr =>
    simp only [inorder_traversal, size, ihr, List.length_append, ihl, List.length_singleton]
    omega

theorem set_length_preorder_traversal (t : AVLNode T) (acc : List T) :
    (preorder_traversal t acc).length = acc.length + size t := by
  induction t generalizing acc with
  | nullptr => simp [preorder_traversal, size]
  | node d s l r ihl ihr =>
    simp only [preorder_traversal, size, ihr, List.length_append, ihl, List.length_singleton]
    omega

theorem set_length_postorder_traversal (t : AVLNode T) (acc : List T) :
    (postorder_traversal t acc).length = acc.length + size t := by
  induction t generalizing acc with
  | nullptr => simp [postorder_traversal, size]
  | node d s l r ihl ihr =>
    simp only [postorder_traversal, size, ihr, List.length_append, ihl, List.length_singleton]
    omega

theorem set_size_eq_length_inorder (t : AVLNode T) : size t = (inorder t).length := by
  simp [inorder, set_length_inorder_traversal]

theorem set_inorder_traversal_eq (t : AVLNode T) (acc : List T) :
    inorder_traversal t acc = acc ++ inorder t := by
  induction t generalizing acc with
  | nullptr => simp [inorder, inorder_traversal]
  | node d s l r ihl ihr =>
    simp only [inorder, inorder_traversal]
    rw [ihr, ihl, ihr (inorder_traversal l [] ++ [d]), ihl []]
    simp

theorem set_inorder_node (d : T) (s : Int) (l r : AVLNode T) :
    inorder (.node d s l r) = inorder l ++ d :: inorder r := by
  show inorder_traversal r (inorder_traversal l [] ++ [d]) = _
  rw [set_inorder_traversal_eq r, set_inorder_traversal_eq l]
  simp

/-- The node `find_min` returns holds the first value of the in-order traversal. -/
theorem set_find_min_inorder (d : T) (s : Int) (l r : AVLNode T) :
    ∃ md ms mr rest, find_min (.node d s l r) = .ok (.node md ms .nullptr mr) ∧
      inorder (.node d s l r) = md :: rest := by
  induction l generalizing d s r with
  | nullptr => exact ⟨d, s, r, inorder r, rfl, by rw [set_inorder_node]; rfl⟩
  | node ld ls ll lr ihl _ =>
    obtain ⟨md, ms, mr, rest, e, hi⟩ := ihl ld ls lr
    refine ⟨md, ms, mr, rest ++ d :: inorder r, by rw [find_min, e], ?_⟩
    rw [set_inorder_node, hi]
    simp

/-- The node `find_max` returns holds the last value of the in-order traversal. -/
theorem set_find_max_inorder (d : T) (s : Int) (l r : AVLNode T) :
    ∃ td ts tl init, find_max (.node d s l r) = .ok (.node td ts tl .nullptr) ∧
      inorder (.node d s l r) = init ++ [td] := by
  induction r generalizing d s l with
  | nullptr => exact ⟨d, s, l, inorder l, rfl, by rw [set_inorder_node]; rfl⟩
  | node rd rs rl rr _ ihr =>
    obtain ⟨td, ts, tl, init, e, hi⟩ := ihr rd rs rl
    refine ⟨td, ts, tl, inorder l ++ d :: init, by rw [find_max, e], ?_⟩
    rw [set_inorder_node, hi]
    simp

end AVLTree

/-- C13: `size()` equals the length of `elements()`. For every tree of either
engine, the recursive node count of `size` is the length of the in-order traversal,
and of the pre-order and post-order traversals. -/
theorem size_eq_length_of_traversals {Key Value : Type}
    (t : KeyValueAVLNode Key Value) (s : AVLNode Key) :
    (KeyValueAVLTree.size t = (KeyValueAVLTree.inorder_traversal t []).length ∧
        KeyValueAVLTree.size t = (KeyValueAVLTree.preorder_traversal t []).length ∧
        KeyValueAVLTree.size t = (KeyValueAVLTree.postorder_traversal t []).length) ∧
      (AVLTree.size s = (AVLTree.inorder_traversal s []).length ∧
        AVLTree.size s = (AVLTree.preorder_traversal s []).length ∧
        AVLTree.size s = (AVLTree.postorder_traversal s []).length) := by
  simp [KeyValueAVLTree.length_inorder_traversal, KeyValueAVLTree.length_preorder_traversal,
    KeyValueAVLTree.length_postorder_traversal, AVLTree.set_length_inorder_traversal,
    AVLTree.set_length_preorder_traversal, AVLTree.set_length_postorder_traversal]

/-- C15: `find_min` and `find_max` fail exactly on the empty tree, in both engines.
On the null root both raise the out-of-range error, so no value is returned; on every
node both return a node and raise nothing. -/
theorem find_min_max_fail_exactly_on_empty {Key Value : Type} :
    (KeyValueAVLTree.find_min (.nullptr : KeyValueAVLNode Key Value) =
        .error (.out_of_range "The tree is empty.") ∧
      KeyValueAVLTree.find_max (.nullptr : KeyValueAVLNode Key Value) =
        .error (.out_of_range "The tree is empty.") ∧
      AVLTree.find_min (.nullptr : AVLNode Key) = .error (.out_of_range "The tree is empty.") ∧
      AVLTree.find_max (.nullptr : AVLNode Key) = .error (.out_of_range "The tree is empty.")) ∧
    (∀ (k : Key) (v : Value) (h : Int) (l r : KeyValueAVLNode Key Value),
      (∃ mk mv mh mr, KeyValueAVLTree.find_min (.node k v h l r) = .ok (.node mk mv mh .nullptr mr)) ∧
      (∃ tk tv th tl, KeyValueAVLTree.find_max (.node k v h l r) = .ok (.node tk tv th tl .nullptr))) ∧
    (∀ (d : Key) (h : Int) (l r : AVLNode Key),
      (∃ md mh mr, AVLTree.find_min (.node d h l r) = .ok (.node md mh .nullptr mr)) ∧
      (∃ td th tl, AVLTree.find_max (.node d h l r) = .ok (.node td th tl .nullptr))) := by
  refine ⟨⟨rfl, rfl, rfl, rfl⟩, fun k v h l r => ⟨?_, ?_⟩, fun d h l r => ⟨?_, ?_⟩⟩
  · obtain ⟨mk, mv, ms, mr, _, e, _⟩ := KeyValueAVLTree.find_min_inorder k v h l r
    exact ⟨mk, mv, ms, mr, e⟩
  · exact KeyValueAVLTree.find_max_node k v h l r
  · obtain ⟨md, ms, mr, _, e, _⟩ := AVLTree.set_find_min_inorder d h l r
    exact ⟨md, ms, mr, e⟩
  · obtain ⟨td, ts, tl, _, e, _⟩ := AVLTree.set_find_max_inorder d h l r
    exact ⟨td, ts, tl, e⟩

/-- C16: `find_min` and `find_max` return the extreme entries, in both engines. For
every non-empty tree `find_min` returns the node holding the first element of the
in-order traversal and `find_max` the node holding the last; when the tree satisfies
the search-tree ordering these are the smallest and the largest key of the tree. -/
theorem find_min_max_return_extremes {Key Value : Type} [LinearOrder Key]
    (t : KeyValueAVLNode Key Value) (s : AVLNode Key)
    (ht : t ≠ .nullptr) (hs : s ≠ .nullptr) :
    (∃ mk mv mh mr rest, KeyValueAVLTree.find_min t = .ok (.node mk mv mh .nullptr mr) ∧
        KeyValueAVLTree.inorder t = (mk, mv) :: rest ∧
        (KeyValueAVLTree.BST t → ∀ x ∈ KeyValueAVLTree.keys t, mk ≤ x)) ∧
      (∃ tk tv th tl init, KeyValueAVLTree.find_max t = .ok (.node tk tv th tl .nullptr) ∧
        KeyValueAVLTree.inorder t = init ++ [(tk, tv)] ∧
        (KeyValueAVLTree.BST t → ∀ x ∈ KeyValueAVLTree.keys t, x ≤ tk)) ∧
      (∃ md mh mr rest, AVLTree.find_min s = .ok (.node md mh .nullptr mr) ∧
        AVLTree.inorder s = md :: rest ∧ (AVLTree.BST s → ∀ x ∈ AVLTree.inorder s, md ≤ x)) ∧
      (∃ td th tl init, AVLTree.find_max s = .ok (.node td th tl .nullptr) ∧
        AVLTree.inorder s = init ++ [td] ∧ (AVLTree.BST s → ∀ x ∈ AVLTree.inorder s, x ≤ td)) := by
  cases t with
  | nullptr => exact absurd rfl ht
  | node k v h l r =>
    cases s with
    | nullptr => exact absurd rfl hs
    | node d sh sl sr =>
      refine ⟨?_, ?_, ?_, ?_⟩
      · obtain ⟨mk, mv, ms, mr, rest, e, hi⟩ := KeyValueAVLTree.find_min_inorder k v h l r
        refine ⟨mk, mv, ms, mr, rest, e, hi, fun hb x hx => ?_⟩
        have hp := (KeyValueAVLTree.bst_iff _).mp hb
        rw [hi, List.pairwise_cons] at hp
        rw [KeyValueAVLTree.keys, hi, List.map_cons, List.mem_cons] at hx
        rcases hx with rfl | hx
        · exact le_refl _
        · obtain ⟨y, hy, rfl⟩ := List.mem_map.mp hx
          exact le_of_lt (hp.1 y hy)
      · obtain ⟨tk, tv, ts, tl, init, e, hi⟩ := KeyValueAVLTree.find_max_inorder k v h l r
        refine ⟨tk, tv, ts, tl, init, e, hi, fun hb x hx => ?_⟩
        have hp := (KeyValueAVLTree.bst_iff _).mp hb
        rw [hi, List.pairwise_append] at hp
        rw [KeyValueAVLTree.keys, hi, List.map_append, List.mem_append] at hx
        rcases hx with hx | hx
        · obtain ⟨y, hy, rfl⟩ := List.mem_map.mp hx
          exact le_of_lt (hp.2.2 y hy (tk, tv) (List.mem_singleton.mpr rfl))
        · simp only [List.map_cons, List.map_nil, List.mem_singleton] at hx
          exact le_of_eq hx
      · obtain ⟨md, ms, mr, rest, e, hi⟩ := AVLTree.set_find_min_inorder d sh sl sr
        refine ⟨md, ms, mr, rest, e, hi, fun hb x hx => ?_⟩
        have hp := (AVLTree.set_bst_iff _).mp hb
        rw [hi, List.pairwise_cons] at hp
        rw [hi, List.mem_cons] at hx
        rcases hx with rfl | hx
        · exact le_refl _
        · exact le_of_lt (hp.1 x hx)
      · obtain ⟨td, ts, tl, init, e, hi⟩ := AVLTree.set_find_max_inorder d sh sl sr
        refine ⟨td, ts, tl, init, e, hi, fun hb x hx => ?_⟩
        have hp := (AVLTree.set_bst_iff _).mp hb
        rw [hi, List.pairwise_append] at hp
        rw [hi, List.mem_append, List.mem_singleton] at hx
        rcases hx with hx | hx
        · exact le_of_lt (hp.2.2 x hx td (List.mem_singleton.mpr rfl))
        · exact le_of_eq hx

/-- Witness for C16: the minimum 1 and the maximum 4 of the trees with the keys 1 to 4. -/
theorem find_min_max_return_extremes_witness :
    sampleMap4 ≠ .nullptr ∧ sampleSet4 ≠ .nullptr ∧
      KeyValueAVLTree.find_min sampleMap4 = .ok (.node 1 10 1 .nullptr .nullptr) ∧
      KeyValueAVLTree.find_max sampleMap4 = .ok (.node 4 40 1 .nullptr .nullptr) ∧
      (∃ td th tl init, AVLTree.find_max sampleSet4 = .ok (.node td th tl .nullptr) ∧
        AVLTree.inorder sampleSet4 = init ++ [td] ∧
        (AVLTree.BST sampleSet4 → ∀ x ∈ AVLTree.inorder sampleSet4, x ≤ td)) :=
  ⟨by decide, by decide, rfl, rfl,
    (find_min_max_return_extremes sampleMap4 sampleSet4 (by decide) (by decide)).2.2.2⟩

/-! ## Round trips -/

/-- C11 as stated fails: on the map with the keys 1 to 4, where 4 carries the
payload 40, `insert(4, 99)` followed by `find(4)` does not give the payload 99. -/
theorem insert_find_round_trip_counterexample :
    ¬ ∀ (t : KeyValueAVLNode Nat Nat) (key value : Nat),
      KeyValueAVLTree.HeightsOk t → KeyValueAVLTree.Balanced t → KeyValueAVLTree.BST t →
      ∃ t' h l r, KeyValueAVLTree.insert t key value = .ok t' ∧
        KeyValueAVLTree.find t' key = .node key value h l r := by
  intro hall
  obtain ⟨t', h, l, r, e, hf⟩ := hall sampleMap4 4 99 (by decide) (by decide) (by decide)
  have e' : KeyValueAVLTree.insert sampleMap4 4 99 = .ok sampleMap4 := rfl
  rw [e'] at e
  cases e
  have hf' : KeyValueAVLTree.find sampleMap4 4 = .node 4 40 1 .nullptr .nullptr := rfl
  rw [hf'] at hf
  cases hf

/-- C11, amended: for every tree satisfying the invariants, every key and every
payload, `insert(key, value)` returns a tree in which `find(key)` returns a node
holding the key; its payload is the inserted one when the key was not in the tree,
and the payload stored before when the key was already there. -/
theorem insert_find_round_trip {Key Value : Type} [LinearOrder Key]
    (t : KeyValueAVLNode Key Value) (key : Key) (value : Value)
    (hh : KeyValueAVLTree.HeightsOk t) (hb : KeyValueAVLTree.Balanced t)
    (ht : KeyValueAVLTree.BST t) :
    ∃ t', KeyValueAVLTree.insert t key value = .ok t' ∧
      (key ∉ KeyValueAVLTree.keys t →
        ∃ h l r, KeyValueAVLTree.find t' key = .node key value h l r) ∧
      (∀ v1, (key, v1) ∈ KeyValueAVLTree.inorder t →
        ∃ h l r, KeyValueAVLTree.find t' key = .node key v1 h l r) := by
  obtain ⟨t', e, _⟩ := KeyValueAVLTree.insert_heightsOk t key value hh
  refine ⟨t', e, fun hk => ?_, fun v1 hv => ?_⟩
  · obtain ⟨pre, post, _, h2, _, _⟩ := KeyValueAVLTree.insert_inorder_absent ht hk e
    refine (KeyValueAVLTree.find_spec key (KeyValueAVLTree.insert_bst ht e)).1 value ?_
    rw [h2]
    exact List.mem_append_right _ (List.mem_cons_self _ _)
  · have hp := KeyValueAVLTree.insert_present value hh hb ht
      (List.mem_map.mpr ⟨(key, v1), hv, rfl⟩)
    rw [hp] at e
    cases e
    exact (KeyValueAVLTree.find_spec key ht).1 v1 hv

/-- Witness for C11, amended: the absent key 3 inserted into the spine 1 -> 2. -/
theorem insert_find_round_trip_witness :
    KeyValueAVLTree.HeightsOk sampleMap ∧ KeyValueAVLTree.Balanced sampleMap ∧
      KeyValueAVLTree.BST sampleMap ∧
      ∃ t', KeyValueAVLTree.insert sampleMap 3 30 = .ok t' ∧
        (3 ∉ KeyValueAVLTree.keys sampleMap →
          ∃ h l r, KeyValueAVLTree.find t' 3 = .node 3 30 h l r) ∧
        (∀ v1, (3, v1) ∈ KeyValueAVLTree.inorder sampleMap →
          ∃ h l r, KeyValueAVLTree.find t' 3 = .node 3 v1 h l r) :=
  ⟨by decide, by decide, by decide,
    insert_find_round_trip sampleMap 3 30 (by decide) (by decide) (by decide)⟩

/-- C12: insert, erase, find round trip, in both engines and both adapters. For
every search tree with correct stored heights, every key and payload, `insert`
followed by `erase` of the key returns a tree in which `find` of the key gives the
null pointer, and `Set::contains` and `Map::contains` give false. -/
theorem insert_erase_find_round_trip {Key Value : Type} [LinearOrder Key]
    (t : KeyValueAVLNode Key Value) (s : AVLNode Key) (key : Key) (value : Value)
    (hh : KeyValueAVLTree.HeightsOk t) (ht : KeyValueAVLTree.BST t)
    (hhs : AVLTree.HeightsOk s) (hs : AVLTree.BST s) :
    (∃ t1 t2, KeyValueAVLTree.insert t key value = .ok t1 ∧
        KeyValueAVLTree.erase t1 key = .ok t2 ∧ KeyValueAVLTree.find t2 key = .nullptr ∧
        Collections.Map.insert ⟨t⟩ key value = .ok ⟨t1⟩ ∧
        Collections.Map.erase ⟨t1⟩ key = .ok ⟨t2⟩ ∧
        Collections.Map.contains ⟨t2⟩ key = false) ∧
      (∃ s1 s2, AVLTree.insert s key = .ok s1 ∧
        AVLTree.erase s1 key = .ok s2 ∧ AVLTree.find s2 key = .nullptr ∧
        Collections.Set.add ⟨s⟩ key = .ok ⟨s1⟩ ∧
        Collections.Set.remove ⟨s1⟩ key = .ok ⟨s2⟩ ∧
        Collections.Set.contains ⟨s2⟩ key = false) := by
  constructor
  · obtain ⟨t1, e1, h1⟩ := KeyValueAVLTree.insert_heightsOk t key value hh
    have b1 := KeyValueAVLTree.insert_bst ht e1
    obtain ⟨t2, e2, _⟩ := KeyValueAVLTree.erase_heightsOk t1 key h1
    have hk : key ∉ KeyValueAVLTree.keys t2 := by
      rw [KeyValueAVLTree.keys, KeyValueAVLTree.erase_inorder b1 e2]
      simp
    have hf := (KeyValueAVLTree.find_spec key (KeyValueAVLTree.erase_bst b1 e2)).2 hk
    refine ⟨t1, t2, e1, e2, hf, ?_, ?_, ?_⟩
    · simp only [Collections.Map.insert, e1]; rfl
    · simp only [Collections.Map.erase, e2]; rfl
    · simp only [Collections.Map.contains, hf]; rfl
  · obtain ⟨s1, e1, h1⟩ := AVLTree.set_insert_heightsOk s key hhs
    have b1 := AVLTree.set_insert_bst hs e1
    obtain ⟨s2, e2, _⟩ := AVLTree.set_erase_heightsOk s1 key h1
    have hk : key ∉ AVLTree.inorder s2 := by
      rw [AVLTree.set_erase_inorder b1 e2]
      simp
    have hf := (AVLTree.set_find_spec key (AVLTree.set_erase_bst b1 e2)).2 hk
    refine ⟨s1, s2, e1, e2, hf, ?_, ?_, ?_⟩
    · simp only [Collections.Set.add, e1]; rfl
    · simp only [Collections.Set.remove, e2]; rfl
    · simp only [Collections.Set.contains, hf]; rfl

/-- Witness for C12: the key 3 inserted into and erased from the spine 1 -> 2. -/
theorem insert_erase_find_round_trip_witness :
    KeyValueAVLTree.HeightsOk sampleMap ∧ KeyValueAVLTree.BST sampleMap ∧
      AVLTree.HeightsOk sampleSet ∧ AVLTree.BST sampleSet ∧
      (∃ s1 s2, AVLTree.insert sampleSet 3 = .ok s1 ∧
        AVLTree.erase s1 3 = .ok s2 ∧ AVLTree.find s2 3 = .nullptr ∧
        Collections.Set.add ⟨sampleSet⟩ 3 = .ok ⟨s1⟩ ∧
        Collections.Set.remove ⟨s1⟩ 3 = .ok ⟨s2⟩ ∧
        Collections.Set.contains ⟨s2⟩ 3 = false) :=
  ⟨by decide, by decide, by decide, by decide,
    (insert_erase_find_round_trip sampleMap sampleSet 3 30
      (by decide) (by decide) (by decide) (by decide)).2⟩

/-! ## Sequences of operations and the height bound -/

theorem two_pow_le_fib_sq (h : ℕ) : 2 ^ h ≤ Nat.fib (h + 2) ^ 2 := by
  induction h using Nat.twoStepInduction with
  | zero => decide
  | one => decide
  | more n ih _ =>
    have h1 : 2 * Nat.fib (n + 2) ≤ Nat.fib (n + 2 + 2) := by
      rw [Nat.fib_add_two (n := n + 2)]
      have := Nat.fib_le_fib_succ (n := n + 2)
      omega
    calc 2 ^ (n + 2) = 4 * 2 ^ n := by ring
      _ ≤ 4 * Nat.fib (n + 2) ^ 2 := Nat.mul_le_mul_left 4 ih
      _ = (2 * Nat.fib (n + 2)) ^ 2 := by ring
      _ ≤ Nat.fib (n + 2 + 2) ^ 2 := Nat.pow_le_pow_left h1 2

namespace KeyValueAVLTree

variable {Key Value : Type}

theorem inorder_eq_nil {t : KeyValueAVLNode Key Value} (h : inorder t = []) : t = .nullptr := by
  cases t with
  | nullptr => rfl
  | node k v s l r => simp at h

/-- The Fibonacci bound of an AVL tree: a tree of height `h` has at least
`fib (h + 2) - 1` nodes. -/
theorem fib_le_size {t : KeyValueAVLNode Key Value} (hh : HeightsOk t) (hb : Balanced t) :
    ∃ h : ℕ, height t = (h : Int) ∧ Nat.fib (h + 2) ≤ size t + 1 := by
  induction t with
  | nullptr => exact ⟨0, rfl, by simp [size]⟩
  | node k v s l r ihl ihr =>
    obtain ⟨h1, hl, hr⟩ := hh
    obtain ⟨b1, bl, br⟩ := hb
    rw [abs_le] at b1
    obtain ⟨a, ea, fa⟩ := ihl hl bl
    obtain ⟨b, eb, fb⟩ := ihr hr br
    rw [ea, eb] at h1 b1
    simp only [height_node, size]
    rcases le_total a b with c | c
    · refine ⟨b + 1, by omega, ?_⟩
      have m : Nat.fib (b + 1) ≤ Nat.fib (a + 2) := Nat.fib_mono (by omega)
      have key : Nat.fib (b + 1 + 2) = Nat.fib (b + 1) + Nat.fib (b + 2) := Nat.fib_add_two
      rw [key]
      omega
    · refine ⟨a + 1, by omega, ?_⟩
      have m : Nat.fib (a + 1) ≤ Nat.fib (b + 2) := Nat.fib_mono (by omega)
      have key : Nat.fib (a + 1 + 2) = Nat.fib (a + 1) + Nat.fib (a + 2) := Nat.fib_add_two
      rw [key]
      omega

/-- Every binary tree of height `d` has at most `2 ^ d - 1` nodes. -/
theorem size_lt_two_pow_depth (t : KeyValueAVLNode Key Value) :
    ∃ d : ℕ, depth t = (d : Int) ∧ size t + 1 ≤ 2 ^ d := by
  induction t with
  | nullptr => exact ⟨0, rfl, by simp [size]⟩
  | node k v s l r ihl ihr =>
    obtain ⟨a, ea, fa⟩ := ihl
    obtain ⟨b, eb, fb⟩ := ihr
    simp only [depth, size, ea, eb]
    have pa : 2 ^ a ≤ 2 ^ max a b := Nat.pow_le_pow_right (by decide) (le_max_left a b)
    have pb : 2 ^ b ≤ 2 ^ max a b := Nat.pow_le_pow_right (by decide) (le_max_right a b)
    refine ⟨max a b + 1, by push_cast; ring, ?_⟩
    rw [pow_succ]
    omega

section OrderedSequences

variable [LinearOrder Key]

/-- The keys after `insert` are the old keys and the inserted key. -/
theorem insert_mem_keys {t t' : KeyValueAVLNode Key Value} {key : Key} {value : Value}
    (h : insert t key value = .ok t') (x : Key) :
    x ∈ keys t' ↔ x = key ∨ x ∈ keys t := by
  induction t generalizing t' with
  | nullptr =>
    cases h
    simp [keys]
  | node k v s l r ihl ihr =>
    simp only [insert] at h
    split_ifs at h with c1 c2
    · obtain ⟨l', e1, e2⟩ := bind_eq_ok h
      have e3 : keys t' = keys (.node k v s l' r) := by
        show (inorder t').map Prod.fst = (inorder (.node k v s l' r)).map Prod.fst
        rw [unwind_inorder e2, inorder_node]
      rw [e3, mem_keys_node, mem_keys_node, ihl e1]
      tauto
    · obtain ⟨r', e1, e2⟩ := bind_eq_ok h
      have e3 : keys t' = keys (.node k v s l r') := by
        show (inorder t').map Prod.fst = (inorder (.node k v s l r')).map Prod.fst
        rw [unwind_inorder e2, inorder_node]
      rw [e3, mem_keys_node, mem_keys_node, ihr e1]
      tauto
    · cases h
      have hk : key = k := le_antisymm (not_lt.mp c2) (not_lt.mp c1)
      rw [mem_keys_node]
      constructor
      · exact Or.inr
      · rintro (rfl | h)
        · exact Or.inr (Or.inl hk)
        · exact h

/-- The keys after `erase` on a search tree are the old keys without the erased one. -/
theorem erase_keys {t t' : KeyValueAVLNode Key Value} {key : Key}
    (ht : BST t) (h : erase t key = .ok t') :
    keys t' = (keys t).filter (fun x => decide (x ≠ key)) := by
  show (inorder t').map Prod.fst = ((inorder t).map Prod.fst).filter _
  rw [erase_inorder ht h, List.filter_map]
  rfl

/-- The invariants hold in every tree a client can build. -/
theorem reachable_invariants {t : KeyValueAVLNode Key Value} (h : Reachable t) :
    HeightsOk t ∧ Balanced t ∧ BST t := by
  induction h with
  | empty => exact ⟨trivial, trivial, trivial⟩
  | step_insert key value _ e ih =>
    obtain ⟨hh, hb, ht⟩ := ih
    obtain ⟨t'', e', hh', hb', _⟩ := insert_balanced _ key value hh hb
    rw [e] at e'
    cases e'
    exact ⟨hh', hb', insert_bst ht e⟩
  | step_erase key _ e ih =>
    obtain ⟨hh, hb, ht⟩ := ih
    obtain ⟨t'', e', hh', hb', _⟩ := erase_balanced _ key hh hb
    rw [e] at e'
    cases e'
    exact ⟨hh', hb', erase_bst ht e⟩

/-- A run of `insert` calls on a reachable tree returns a reachable tree whose keys
are the old keys and the inserted ones. -/
theorem insert_all_spec (entries : List (Key × Value)) (t : KeyValueAVLNode Key Value)
    (h : Reachable t) :
    ∃ t', insert_all t entries = .ok t' ∧ Reachable t' ∧
      ∀ x, x ∈ keys t' ↔ x ∈ entries.map Prod.fst ∨ x ∈ keys t := by
  induction entries generalizing t with
  | nil => exact ⟨t, rfl, h, by simp⟩
  | cons e rest ih =>
    obtain ⟨hh, _, _⟩ := reachable_invariants h
    obtain ⟨t1, e1, _⟩ := insert_heightsOk t e.1 e.2 hh
    obtain ⟨t', e2, r2, m2⟩ := ih t1 (Reachable.step_insert e.1 e.2 h e1)
    refine ⟨t', ?_, r2, fun x => ?_⟩
    · simp only [insert_all, List.foldlM_cons, e1]
      exact e2
    · rw [m2, insert_mem_keys e1, List.map_cons, List.mem_cons]
      tauto

/-- A run of `erase` calls on a reachable tree returns a reachable tree whose keys
are the old keys that were not erased. -/
theorem erase_all_spec (ks : List Key) (t : KeyValueAVLNode Key Value) (h : Reachable t) :
    ∃ t', erase_all t ks = .ok t' ∧ Reachable t' ∧
      ∀ x, x ∈ keys t' ↔ x ∈ keys t ∧ x ∉ ks := by
  induction ks generalizing t with
  | nil => exact ⟨t, rfl, h, by simp⟩
  | cons k rest ih =>
    obtain ⟨hh, _, ht⟩ := reachable_invariants h
    obtain ⟨t1, e1, _⟩ := erase_heightsOk t k hh
    obtain ⟨t', e2, r2, m2⟩ := ih t1 (Reachable.step_erase k h e1)
    refine ⟨t', ?_, r2, fun x => ?_⟩
    · simp only [erase_all, List.foldlM_cons, e1]
      exact e2
    · rw [m2, erase_keys ht e1, List.mem_filter, List.mem_cons]
      simp only [ne_eq, decide_not, Bool.not_eq_eq_eq_not, Bool.not_true,
        decide_eq_false_iff_not]
      tauto

theorem keys_nodup {t : KeyValueAVLNode Key Value} (h : BST t) : (keys t).Nodup := by
  have p : (keys t).Pairwise (· < ·) := by
    rw [keys, List.pairwise_map]
    exact (bst_iff t).mp h
  exact p.imp ne_of_lt

/-- Inserting pairwise distinct keys into the empty tree gives as many nodes, and
erasing them in any order gives the empty tree back. -/
theorem insert_all_erase_all (entries : List (Key × Value)) (order : List Key)
    (hd : (entries.map Prod.fst).Nodup) (hp : order.Perm (entries.map Prod.fst)) :
    ∃ t, insert_all .nullptr entries = .ok t ∧ size t = entries.length ∧
      erase_all t order = .ok .nullptr := by
  obtain ⟨t, e, r, m⟩ := insert_all_spec entries .nullptr Reachable.empty
  obtain ⟨_, _, ht⟩ := reachable_invariants r
  obtain ⟨t', e', r', m'⟩ := erase_all_spec order t r
  refine ⟨t, e, ?_, ?_⟩
  · have hperm : (keys t).Perm (entries.map Prod.fst) :=
      (List.perm_ext_iff_of_nodup (keys_nodup ht) hd).mpr (fun x => by rw [m x]; simp [keys])
    rw [size_eq_length_inorder, ← List.length_map (inorder t) Prod.fst, ← keys, hperm.length_eq,
      List.length_map]
  · have hnil : keys t' = [] := by
      rw [List.eq_nil_iff_forall_not_mem]
      intro x hx
      obtain ⟨h1, h2⟩ := (m' x).mp hx
      rcases (m x).mp h1 with h3 | h3
      · exact h2 (hp.mem_iff.mpr h3)
      · simp [keys] at h3
    rw [e', inorder_eq_nil (List.map_eq_nil_iff.mp hnil)]

end OrderedSequences

end KeyValueAVLTree

theorem KeyValueAVLNode.size_forget {Key Value : Type} (t : KeyValueAVLNode Key Value) :
    AVLTree.size t.forget = KeyValueAVLTree.size t := by
  induction t with
  | nullptr => rfl
  | node k v h l r ihl ihr =>
    simp only [KeyValueAVLNode.forget, AVLTree.size, KeyValueAVLTree.size, ihl, ihr]

namespace AVLTree

variable {T : Type}

theorem size_lift (s : AVLNode T) : KeyValueAVLTree.size s.lift = size s := by
  rw [← KeyValueAVLNode.size_forget, KeyValueAVLNode.forget_lift]

theorem set_inorder_eq_nil {s : AVLNode T} (h : inorder s = []) : s = .nullptr := by
  cases s with
  | nullptr => rfl
  | node d h l r => simp [set_inorder_node] at h

theorem set_fib_le_size {s : AVLNode T} (hh : HeightsOk s) (hb : Balanced s) :
    ∃ h : ℕ, height s = (h : Int) ∧ Nat.fib (h + 2) ≤ size s + 1 := by
  obtain ⟨h, e, f⟩ := KeyValueAVLTree.fib_le_size ((heightsOk_lift s).mp hh)
    ((balanced_lift s).mp hb)
  rw [← KeyValueAVLNode.height_forget, KeyValueAVLNode.forget_lift] at e
  rw [size_lift] at f
  exact ⟨h, e, f⟩

theorem set_size_lt_two_pow_depth (s : AVLNode T) :
    ∃ d : ℕ, depth s = (d : Int) ∧ size s + 1 ≤ 2 ^ d := by
  obtain ⟨d, e, f⟩ := KeyValueAVLTree.size_lt_two_pow_depth s.lift
  rw [← KeyValueAVLNode.depth_forget, KeyValueAVLNode.forget_lift] at e
  rw [size_lift] at f
  exact ⟨d, e, f⟩

section OrderedSetSequences

variable [LinearOrder T]

theorem set_insert_mem {s s' : AVLNode T} {value : T} (h : insert s value = .ok s') (x : T) :
    x ∈ inorder s' ↔ x = value ∨ x ∈ inorder s := by
  rw [insert_eq_lift] at h
  obtain ⟨t', e, rfl⟩ := map_eq_ok h
  rw [KeyValueAVLNode.inorder_forget, inorder_lift, KeyValueAVLTree.insert_mem_keys e]

theorem set_reachable_invariants {s : AVLNode T} (h : Reachable s) :
    HeightsOk s ∧ Balanced s ∧ BST s := by
  induction h with
  | empty => exact ⟨trivial, trivial, trivial⟩
  | step_insert value _ e ih =>
    obtain ⟨hh, hb, ht⟩ := ih
    obtain ⟨s'', e', hh', hb', _⟩ := set_insert_balanced _ value hh hb
    rw [e] at e'
    cases e'
    exact ⟨hh', hb', set_insert_bst ht e⟩
  | step_erase value _ e ih =>
    obtain ⟨hh, hb, ht⟩ := ih
    obtain ⟨s'', e', hh', hb', _⟩ := set_erase_balanced _ value hh hb
    rw [e] at e'
    cases e'
    exact ⟨hh', hb', set_erase_bst ht e⟩

theorem set_insert_all_spec (values : List T) (s : AVLNode T) (h : Reachable s) :
    ∃ s', insert_all s values = .ok s' ∧ Reachable s' ∧
      ∀ x, x ∈ inorder s' ↔ x ∈ values ∨ x ∈ inorder s := by
  induction values generalizing s with
  | nil => exact ⟨s, rfl, h, by simp⟩
  | cons v rest ih =>
    obtain ⟨hh, _, _⟩ := set_reachable_invariants h
    obtain ⟨s1, e1, _⟩ := set_insert_heightsOk s v hh
    obtain ⟨s', e2, r2, m2⟩ := ih s1 (Reachable.step_insert v h e1)
    refine ⟨s', ?_, r2, fun x => ?_⟩
    · simp only [insert_all, List.foldlM_cons, e1]
      exact e2
    · rw [m2, set_insert_mem e1, List.mem_cons]
      tauto

theorem set_erase_all_spec (values : List T) (s : AVLNode T) (h : Reachable s) :
    ∃ s', erase_all s values = .ok s' ∧ Reachable s' ∧
      ∀ x, x ∈ inorder s' ↔ x ∈ inorder s ∧ x ∉ values := by
  induction values generalizing s with
  | nil => exact ⟨s, rfl, h, by simp⟩
  | cons v rest ih =>
    obtain ⟨hh, _, ht⟩ := set_reachable_invariants h
    obtain ⟨s1, e1, _⟩ := set_erase_heightsOk s v hh
    obtain ⟨s', e2, r2, m2⟩ := ih s1 (Reachable.step_erase v h e1)
    refine ⟨s', ?_, r2, fun x => ?_⟩
    · simp only [erase_all, List.foldlM_cons, e1]
      exact e2
    · rw [m2, set_erase_inorder ht e1, List.mem_filter, List.mem_cons]
      simp only [ne_eq, decide_not, Bool.not_eq_eq_eq_not, Bool.not_true,
        decide_eq_false_iff_not]
      tauto

theorem set_insert_all_erase_all (values order : List T)
    (hd : values.Nodup) (hp : order.Perm values) :
    ∃ s, insert_all .nullptr values = .ok s ∧ size s = values.length ∧
      erase_all s order = .ok .nullptr := by
  obtain ⟨s, e, r, m⟩ := set_insert_all_spec values .nullptr Reachable.empty
  obtain ⟨_, _, ht⟩ := set_reachable_invariants r
  obtain ⟨s', e', r', m'⟩ := set_erase_all_spec order s r
  refine ⟨s, e, ?_, ?_⟩
  · have hnd : (inorder s).Nodup := ((set_bst_iff s).mp ht).imp ne_of_lt
    have hperm : (inorder s).Perm values :=
      (List.perm_ext_iff_of_nodup hnd hd).mpr (fun x => by rw [m x]; simp [inorder, inorder_traversal])
    rw [set_size_eq_length_inorder, hperm.length_eq]
  · have hnil : inorder s' = [] := by
      rw [List.eq_nil_iff_forall_not_mem]
      intro x hx
      obtain ⟨h1, h2⟩ := (m' x).mp hx
      rcases (m x).mp h1 with h3 | h3
      · exact h2 (hp.mem_iff.mpr h3)
      · simp [inorder, inorder_traversal] at h3
    rw [e', set_inorder_eq_nil hnil]

end OrderedSetSequences

end AVLTree

/-- C14: insert-all then erase-all empties the tree, in both engines. For every
list of n pairwise distinct keys, inserting them all into the empty tree returns a
tree with `size() == n`, and erasing all of them, in any order, then returns the
empty tree, whose `size()` is 0. -/
theorem insert_all_then_erase_all_empties {Key Value : Type} [LinearOrder Key]
    (entries : List (Key × Value)) (values order1 order2 : List Key)
    (hd1 : (entries.map Prod.fst).Nodup) (hp1 : order1.Perm (entries.map Prod.fst))
    (hd2 : values.Nodup) (hp2 : order2.Perm values) :
    (∃ t, KeyValueAVLTree.insert_all .nullptr entries = .ok t ∧
        KeyValueAVLTree.size t = entries.length ∧
        KeyValueAVLTree.erase_all t order1 = .ok .nullptr ∧
        KeyValueAVLTree.size (.nullptr : KeyValueAVLNode Key Value) = 0) ∧
      (∃ s, AVLTree.insert_all .nullptr values = .ok s ∧ AVLTree.size s = values.length ∧
        AVLTree.erase_all s order2 = .ok .nullptr ∧
        AVLTree.size (.nullptr : AVLNode Key) = 0) := by
  obtain ⟨t, e1, e2, e3⟩ := KeyValueAVLTree.insert_all_erase_all entries order1 hd1 hp1
  obtain ⟨s, f1, f2, f3⟩ := AVLTree.set_insert_all_erase_all values order2 hd2 hp2
  exact ⟨⟨t, e1, e2, e3, rfl⟩, ⟨s, f1, f2, f3, rfl⟩⟩

/-- Witness for C14: the keys 1, 2, 3 inserted in that order and erased as 2, 3, 1. -/
theorem insert_all_then_erase_all_empties_witness :
    ([((1 : Nat), (10 : Nat)), (2, 20), (3, 30)].map Prod.fst).Nodup ∧
      [(2 : Nat), 3, 1].Perm ([((1 : Nat), (10 : Nat)), (2, 20), (3, 30)].map Prod.fst) ∧
      [(1 : Nat), 2, 3].Nodup ∧ [(2 : Nat), 3, 1].Perm [1, 2, 3] ∧
      (∃ s, AVLTree.insert_all .nullptr [(1 : Nat), 2, 3] = .ok s ∧ AVLTree.size s = 3 ∧
        AVLTree.erase_all s [2, 3, 1] = .ok .nullptr ∧
        AVLTree.size (.nullptr : AVLNode Nat) = 0) :=
  ⟨by decide, by decide, by decide, by decide,
    (insert_all_then_erase_all_empties [((1 : Nat), (10 : Nat)), (2, 20), (3, 30)]
      [1, 2, 3] [2, 3, 1] [2, 3, 1] (by decide) (by decide) (by decide) (by decide)).2⟩

/-- C17: the AVL height bound, in both engines. Every tree reachable from the empty
tree by `insert` and `erase`, with n nodes and height h (stored at the root, and
equal to the height of the glossary), satisfies `Fib(h + 2) ≤ n + 1`, the exact
integer form of h ≤ ~1.44 log2(n + 2). Inserting 1, ..., 1000 in ascending order
returns a tree with 1000 nodes and height at most 14. -/
theorem avl_height_bound {Key Value : Type} [LinearOrder Key]
    (t : KeyValueAVLNode Key Value) (s : AVLNode Key)
    (ht : KeyValueAVLTree.Reachable t) (hs : AVLTree.Reachable s) :
    (∃ h : ℕ, KeyValueAVLTree.height t = (h : Int) ∧ KeyValueAVLTree.depth t = (h : Int) ∧
        Nat.fib (h + 2) ≤ KeyValueAVLTree.size t + 1) ∧
      (∃ h : ℕ, AVLTree.height s = (h : Int) ∧ AVLTree.depth s = (h : Int) ∧
        Nat.fib (h + 2) ≤ AVLTree.size s + 1) ∧
      (∃ u, AVLTree.insert_all .nullptr (List.range' 1 1000) = .ok u ∧
        AVLTree.size u = 1000 ∧ AVLTree.height u ≤ 14) := by
  refine ⟨?_, ?_, ?_⟩
  · obtain ⟨hh, hb, _⟩ := KeyValueAVLTree.reachable_invariants ht
    obtain ⟨h, e, f⟩ := KeyValueAVLTree.fib_le_size hh hb
    exact ⟨h, e, by rw [← KeyValueAVLTree.height_eq_depth hh]; exact e, f⟩
  · obtain ⟨hh, hb, _⟩ := AVLTree.set_reachable_invariants hs
    obtain ⟨h, e, f⟩ := AVLTree.set_fib_le_size hh hb
    exact ⟨h, e, by rw [← AVLTree.set_height_eq_depth hh]; exact e, f⟩
  · obtain ⟨u, e, hsize, _⟩ := AVLTree.set_insert_all_erase_all (List.range' 1 1000)
      (List.range' 1 1000) (List.nodup_range' 1 1000) (List.Perm.refl _)
    obtain ⟨u', e', r, _⟩ := AVLTree.set_insert_all_spec (List.range' 1 1000) .nullptr
      AVLTree.Reachable.empty
    rw [e] at e'
    cases e'
    obtain ⟨hh, hb, _⟩ := AVLTree.set_reachable_invariants r
    obtain ⟨h, eh, f⟩ := AVLTree.set_fib_le_size hh hb
    rw [List.length_range'] at hsize
    rw [hsize] at f
    refine ⟨u, e, hsize, ?_⟩
    rw [eh]
    by_contra hc
    have h15 : 17 ≤ h + 2 := by omega
    have := Nat.fib_mono h15
    have f17 : Nat.fib 17 = 1597 := by norm_num
    omega

/-- Witness for C17: the spine 1 -> 2 is what `insert(1)` and `insert(2)` build. -/
theorem avl_height_bound_witness :
    KeyValueAVLTree.Reachable sampleMap ∧ AVLTree.Reachable sampleSet ∧
      (∃ h : ℕ, KeyValueAVLTree.height sampleMap = (h : Int) ∧
        KeyValueAVLTree.depth sampleMap = (h : Int) ∧
        Nat.fib (h + 2) ≤ KeyValueAVLTree.size sampleMap + 1) :=
  ⟨.step_insert 2 20 (.step_insert 1 10 .empty rfl) rfl,
    .step_insert 2 (.step_insert 1 .empty rfl) rfl,
    (avl_height_bound sampleMap sampleSet
      (.step_insert 2 20 (.step_insert 1 10 .empty rfl) rfl)
      (.step_insert 2 (.step_insert 1 .empty rfl) rfl)).1⟩

/-- C18: the height is within a factor of 2 of optimal, in both engines. Every tree
reachable from the empty tree by `insert` and `erase`, with n nodes and height h,
satisfies `2 ^ h ≤ (n + 1) ^ 2` and `h ≤ 2 * ceil(log2(n + 1))`, and every binary
tree with n nodes has height at least `ceil(log2(n + 1))`. -/
theorem height_within_factor_two_of_optimal {Key Value : Type} [LinearOrder Key]
    (t : KeyValueAVLNode Key Value) (s : AVLNode Key)
    (ht : KeyValueAVLTree.Reachable t) (hs : AVLTree.Reachable s) :
    (∃ h : ℕ, KeyValueAVLTree.height t = (h : Int) ∧ KeyValueAVLTree.depth t = (h : Int) ∧
        2 ^ h ≤ (KeyValueAVLTree.size t + 1) ^ 2 ∧
        h ≤ 2 * Nat.clog 2 (KeyValueAVLTree.size t + 1) ∧
        ∀ u : KeyValueAVLNode Key Value, KeyValueAVLTree.size u = KeyValueAVLTree.size t →
          ∃ d : ℕ, KeyValueAVLTree.depth u = (d : Int) ∧
            Nat.clog 2 (KeyValueAVLTree.size t + 1) ≤ d) ∧
      (∃ h : ℕ, AVLTree.height s = (h : Int) ∧ AVLTree.depth s = (h : Int) ∧
        2 ^ h ≤ (AVLTree.size s + 1) ^ 2 ∧
        h ≤ 2 * Nat.clog 2 (AVLTree.size s + 1) ∧
        ∀ u : AVLNode Key, AVLTree.size u = AVLTree.size s →
          ∃ d : ℕ, AVLTree.depth u = (d : Int) ∧ Nat.clog 2 (AVLTree.size s + 1) ≤ d) := by
  have key : ∀ h n : ℕ, Nat.fib (h + 2) ≤ n + 1 →
      2 ^ h ≤ (n + 1) ^ 2 ∧ h ≤ 2 * Nat.clog 2 (n + 1) := by
    intro h n f
    have p1 : 2 ^ h ≤ (n + 1) ^ 2 :=
      le_trans (two_pow_le_fib_sq h) (Nat.pow_le_pow_left f 2)
    refine ⟨p1, ?_⟩
    have p2 : (n + 1) ^ 2 ≤ 2 ^ (2 * Nat.clog 2 (n + 1)) := by
      rw [mul_comm, pow_mul]
      exact Nat.pow_le_pow_left (Nat.le_pow_clog (by decide) (n + 1)) 2
    exact (Nat.pow_le_pow_iff_right (by decide)).mp (le_trans p1 p2)
  constructor
  · obtain ⟨hh, hb, _⟩ := KeyValueAVLTree.reachable_invariants ht
    obtain ⟨h, e, f⟩ := KeyValueAVLTree.fib_le_size hh hb
    refine ⟨h, e, by rw [← KeyValueAVLTree.height_eq_depth hh]; exact e,
      (key h _ f).1, (key h _ f).2, fun u hu => ?_⟩
    obtain ⟨d, ed, fd⟩ := KeyValueAVLTree.size_lt_two_pow_depth u
    rw [hu] at fd
    exact ⟨d, ed, (Nat.le_pow_iff_clog_le (by decide)).mp fd⟩
  · obtain ⟨hh, hb, _⟩ := AVLTree.set_reachable_invariants hs
    obtain ⟨h, e, f⟩ := AVLTree.set_fib_le_size hh hb
    refine ⟨h, e, by rw [← AVLTree.set_height_eq_depth hh]; exact e,
      (key h _ f).1, (key h _ f).2, fun u hu => ?_⟩
    obtain ⟨d, ed, fd⟩ := AVLTree.set_size_lt_two_pow_depth u
    rw [hu] at fd
    exact ⟨d, ed, (Nat.le_pow_iff_clog_le (by decide)).mp fd⟩

/-- Witness for C18: the spine 1 -> 2, with 2 nodes and height 2. -/
theorem height_within_factor_two_of_optimal_witness :
    KeyValueAVLTree.Reachable sampleMap ∧ AVLTree.Reachable sampleSet ∧
      (∃ h : ℕ, AVLTree.height sampleSet = (h : Int) ∧ AVLTree.depth sampleSet = (h : Int) ∧
        2 ^ h ≤ (AVLTree.size sampleSet + 1) ^ 2 ∧
        h ≤ 2 * Nat.clog 2 (AVLTree.size sampleSet + 1) ∧
        ∀ u : AVLNode Nat, AVLTree.size u = AVLTree.size sampleSet →
          ∃ d : ℕ, AVLTree.depth u = (d : Int) ∧
            Nat.clog 2 (AVLTree.size sampleSet + 1) ≤ d) :=
  ⟨.step_insert 2 20 (.step_insert 1 10 .empty rfl) rfl,
    .step_insert 2 (.step_insert 1 .empty rfl) rfl,
    (height_within_factor_two_of_optimal sampleMap sampleSet
      (.step_insert 2 20 (.step_insert 1 10 .empty rfl) rfl)
      (.step_insert 2 (.step_insert 1 .empty rfl) rfl)).2⟩

/-! ## Concrete scenarios -/

namespace AVLTree

variable {T : Type}

theorem map_fst_bind_pure {α L : Type} (x : Except Fault (α × L)) (g : α × L → L) :
    Except.map Prod.fst (x >>= fun done => pure (done.1, g done)) = Except.map Prod.fst x := by
  cases x <;> rfl

theorem map_fst_bind {α β L : Type} (x : Except Fault (α × L)) (f : α × L → Except Fault (β × L))
    (g : α → Except Fault β) (h : ∀ a, Except.map Prod.fst (f a) = g a.1) :
    Except.map Prod.fst (x >>= f) = (Except.map Prod.fst x >>= g) := by
  cases x with
  | error e => rfl
  | ok a => exact h a

theorem traced_rotate_left (t : AVLNode T) :
    Except.map Prod.fst (Traced.rotate_left t) = rotate_left t := by
  cases t with
  | nullptr => rfl
  | node d h l r => cases r <;> rfl

theorem traced_rotate_right (t : AVLNode T) :
    Except.map Prod.fst (Traced.rotate_right t) = rotate_right t := by
  cases t with
  | nullptr => rfl
  | node d h l r => cases l <;> rfl

theorem traced_rotate_left_right (t : AVLNode T) :
    Except.map Prod.fst (Traced.rotate_left_right t) = rotate_left_right t := by
  cases t with
  | nullptr => rfl
  | node d h l r =>
    simp only [Traced.rotate_left_right, rotate_left_right]
    rw [map_fst_bind _ _ (fun left => rotate_right (.node d h left r)), traced_rotate_left]
    intro a
    rw [map_fst_bind_pure _ (fun second => a.2 ++ second.2), traced_rotate_right]

theorem traced_rotate_right_left (t : AVLNode T) :
    Except.map Prod.fst (Traced.rotate_right_left t) = rotate_right_left t := by
  cases t with
  | nullptr => rfl
  | node d h l r =>
    simp only [Traced.rotate_right_left, rotate_right_left]
    rw [map_fst_bind _ _ (fun right => rotate_left (.node d h l right)), traced_rotate_right]
    intro a
    rw [map_fst_bind_pure _ (fun second => a.2 ++ second.2), traced_rotate_left]

theorem traced_balance (t : AVLNode T) :
    Except.map Prod.fst (Traced.balance t) = balance t := by
  cases t with
  | nullptr => rfl
  | node d h l r =>
    simp only [Traced.balance, balance]
    split_ifs
    · exact (map_fst_bind_pure _ _).trans (traced_rotate_left _)
    · exact (map_fst_bind_pure _ _).trans (traced_rotate_right_left _)
    · exact (map_fst_bind_pure _ _).trans (traced_rotate_right _)
    · exact (map_fst_bind_pure _ _).trans (traced_rotate_left_right _)
    · rfl

/-- Dropping the recorded events from the traced `insert` gives `insert`. -/
theorem traced_insert [LinearOrder T] (t : AVLNode T) (value : T) :
    Except.map Prod.fst (Traced.insert t value) = insert t value := by
  induction t with
  | nullptr =>
    exact traced_balance (.node value (1 + max (height .nullptr) (height .nullptr))
      .nullptr .nullptr)
  | node d h l r ihl ihr =>
    simp only [Traced.insert, insert]
    split_ifs
    · rw [map_fst_bind _ _ (fun left => update_height (.node d h left r) >>= balance), ihl]
      intro a
      exact (map_fst_bind_pure _ (fun done => a.2 ++ done.2)).trans (traced_balance _)
    · rw [map_fst_bind _ _ (fun right => update_height (.node d h l right) >>= balance), ihr]
      intro a
      exact (map_fst_bind_pure _ (fun done => a.2 ++ done.2)).trans (traced_balance _)
    · rfl

end AVLTree

/-- C19: the concrete scenario. Inserting 5, 3, 8, 1, 4, 7, 9, 2, 6 in that order into
the empty tree gives the in-order traversal 1, ..., 9 with 5 at the root, above two
children; `erase(5)` then gives the in-order traversal 1, 2, 3, 4, 6, 7, 8, 9, and
`find(5)` returns the null pointer. The key-value engine builds the same trees. -/
theorem concrete_scenario :
    AVLTree.insert_all .nullptr [5, 3, 8, 1, 4, 7, 9, 2, 6] = .ok scenarioSet ∧
      AVLTree.inorder scenarioSet = [1, 2, 3, 4, 5, 6, 7, 8, 9] ∧
      (∃ h l r, scenarioSet = .node 5 h l r ∧ AVLTree.isNull l = false ∧
        AVLTree.isNull r = false) ∧
      AVLTree.erase scenarioSet 5 = .ok scenarioSetErased ∧
      AVLTree.inorder scenarioSetErased = [1, 2, 3, 4, 6, 7, 8, 9] ∧
      AVLTree.find scenarioSetErased 5 = .nullptr ∧
      (∃ t t', KeyValueAVLTree.insert_all (.nullptr : KeyValueAVLNode Int Int)
          [(5, 50), (3, 30), (8, 80), (1, 10), (4, 40), (7, 70), (9, 90), (2, 20), (6, 60)]
            = .ok t ∧
        t.forget = scenarioSet ∧
        KeyValueAVLTree.erase t 5 = .ok t' ∧ t'.forget = scenarioSetErased ∧
        KeyValueAVLTree.inorder t' =
          [(1, 10), (2, 20), (3, 30), (4, 40), (6, 60), (7, 70), (8, 80), (9, 90)] ∧
        KeyValueAVLTree.find t' 5 = .nullptr) :=
  ⟨rfl, rfl, ⟨_, _, _, rfl, rfl, rfl⟩, rfl, rfl, rfl, ⟨_, _, rfl, rfl, rfl, rfl, rfl, rfl⟩⟩

/-- C20: the rotation trigger scenario. Inserting 1, 2, 3 in ascending order into the
empty tree makes one rotation in all: the first two calls of `insert` rotate nothing,
the third calls `rotate_left` once, at the node holding 1 when its balance factor is 2,
and no `rotate_right`; the tree returned has root 2 with left child 1 and right
child 3. The recorded run returns the trees `insert` returns. -/
theorem rotation_trigger_scenario :
    AVLTree.Traced.insert (.nullptr : AVLNode Int) 1 =
        .ok (.node 1 1 .nullptr .nullptr, [.balance 1 0]) ∧
      AVLTree.Traced.insert (.node 1 1 .nullptr .nullptr : AVLNode Int) 2 =
        .ok (.node 1 2 .nullptr (.node 2 1 .nullptr .nullptr), [.balance 2 0, .balance 1 1]) ∧
      AVLTree.Traced.insert (.node 1 2 .nullptr (.node 2 1 .nullptr .nullptr) : AVLNode Int) 3 =
        .ok (.node 2 2 (.node 1 1 .nullptr .nullptr) (.node 3 1 .nullptr .nullptr),
          [.balance 3 0, .balance 2 1, .balance 1 2, .rotate_left 1]) ∧
      AVLTree.insert_all (.nullptr : AVLNode Int) [1, 2, 3] =
        .ok (.node 2 2 (.node 1 1 .nullptr .nullptr) (.node 3 1 .nullptr .nullptr)) ∧
      (∀ (t : AVLNode Int) (value : Int),
        Except.map Prod.fst (AVLTree.Traced.insert t value) = AVLTree.insert t value) :=
  ⟨rfl, rfl, rfl, rfl, AVLTree.traced_insert⟩

/-! ## The adapters -/

namespace Collections

variable {T : Type} [LinearOrder T]

/-- On an ordered tree `contains` tells whether the element is among `elements()`. -/
theorem contains_iff {s : Set T} (hs : AVLTree.BST s.tree_) (x : T) :
    s.contains x = true ↔ x ∈ s.elements := by
  have hf := AVLTree.set_find_spec x hs
  constructor
  · intro h
    by_contra hx
    rw [Set.contains, hf.2 hx] at h
    simp [AVLTree.isNull] at h
  · intro hx
    obtain ⟨h, l, r, e⟩ := hf.1 hx
    rw [Set.contains, e]
    rfl

theorem contains_eq_false_iff {s : Set T} (hs : AVLTree.BST s.tree_) (x : T) :
    s.contains x = false ↔ x ∉ s.elements := by
  rw [← contains_iff hs, Bool.not_eq_true]

theorem add_spec (s : Set T) (e : T) (hs : AVLTree.Reachable s.tree_) :
    ∃ s' : Set T, s.add e = .ok s' ∧ AVLTree.Reachable s'.tree_ ∧
      ∀ x, x ∈ s'.elements ↔ x = e ∨ x ∈ s.elements := by
  obtain ⟨hh, _, _⟩ := AVLTree.set_reachable_invariants hs
  obtain ⟨t, e1, _⟩ := AVLTree.set_insert_heightsOk s.tree_ e hh
  refine ⟨⟨t⟩, ?_, AVLTree.Reachable.step_insert e hs e1, fun x => AVLTree.set_insert_mem e1 x⟩
  simp only [Set.add, e1]
  rfl

theorem remove_spec (s : Set T) (e : T) (hs : AVLTree.Reachable s.tree_) :
    ∃ s' : Set T, s.remove e = .ok s' ∧ AVLTree.Reachable s'.tree_ ∧
      ∀ x, x ∈ s'.elements ↔ x ∈ s.elements ∧ x ≠ e := by
  obtain ⟨hh, _, ht⟩ := AVLTree.set_reachable_invariants hs
  obtain ⟨t, e1, _⟩ := AVLTree.set_erase_heightsOk s.tree_ e hh
  refine ⟨⟨t⟩, ?_, AVLTree.Reachable.step_erase e hs e1, fun x => ?_⟩
  · simp only [Set.remove, e1]
    rfl
  · show x ∈ AVLTree.inorder t ↔ x ∈ AVLTree.inorder s.tree_ ∧ x ≠ e
    rw [AVLTree.set_erase_inorder ht e1, List.mem_filter]
    simp

/-- A loop that adds the elements satisfying `c` to a set. -/
theorem fold_add_spec (f : Set T → T → Except Fault (Set T)) (c : T → Prop)
    (hstep : ∀ (r : Set T) (e : T), AVLTree.Reachable r.tree_ →
      ∃ r' : Set T, f r e = .ok r' ∧ AVLTree.Reachable r'.tree_ ∧
        ∀ x, x ∈ r'.elements ↔ (x = e ∧ c e) ∨ x ∈ r.elements)
    (xs : List T) (r : Set T) (hr : AVLTree.Reachable r.tree_) :
    ∃ r' : Set T, xs.foldlM f r = .ok r' ∧ AVLTree.Reachable r'.tree_ ∧
      ∀ x, x ∈ r'.elements ↔ (x ∈ xs ∧ c x) ∨ x ∈ r.elements := by
  induction xs generalizing r with
  | nil => exact ⟨r, rfl, hr, by simp⟩
  | cons e rest ih =>
    obtain ⟨r1, e1, h1, m1⟩ := hstep r e hr
    obtain ⟨r', e2, h2, m2⟩ := ih r1 h1
    refine ⟨r', ?_, h2, fun x => ?_⟩
    · simp only [List.foldlM_cons, e1]
      exact e2
    · rw [m2, m1, List.mem_cons]
      constructor
      · rintro (⟨h, hc⟩ | ⟨rfl, hc⟩ | h)
        · exact Or.inl ⟨Or.inr h, hc⟩
        · exact Or.inl ⟨Or.inl rfl, hc⟩
        · exact Or.inr h
      · rintro (⟨rfl | h, hc⟩ | h)
        · exact Or.inr (Or.inl ⟨rfl, hc⟩)
        · exact Or.inl ⟨h, hc⟩
        · exact Or.inr (Or.inr h)

/-- A loop that removes the elements of a list from a set. -/
theorem fold_remove_spec (xs : List T) (r : Set T) (hr : AVLTree.Reachable r.tree_) :
    ∃ r' : Set T, xs.foldlM (fun (acc : Set T) elem => acc.remove elem) r = .ok r' ∧
      AVLTree.Reachable r'.tree_ ∧ ∀ x, x ∈ r'.elements ↔ x ∈ r.elements ∧ x ∉ xs := by
  induction xs generalizing r with
  | nil => exact ⟨r, rfl, hr, by simp⟩
  | cons e rest ih =>
    obtain ⟨r1, e1, h1, m1⟩ := remove_spec r e hr
    obtain ⟨r', e2, h2, m2⟩ := ih r1 h1
    refine ⟨r', ?_, h2, fun x => ?_⟩
    · simp only [List.foldlM_cons, e1]
      exact e2
    · rw [m2, m1, List.mem_cons]
      tauto

theorem elements_sorted {s : Set T} (hs : AVLTree.Reachable s.tree_) :
    s.elements.Pairwise (· < ·) :=
  (AVLTree.set_bst_iff s.tree_).mp (AVLTree.set_reachable_invariants hs).2.2

/-- Two strictly ascending lists with the same members are the same list. -/
theorem sorted_ext {xs ys : List T} (hx : xs.Pairwise (· < ·)) (hy : ys.Pairwise (· < ·))
    (h : ∀ a, a ∈ xs ↔ a ∈ ys) : xs = ys :=
  List.eq_of_perm_of_sorted
    ((List.perm_ext_iff_of_nodup (hx.imp ne_of_lt) (hy.imp ne_of_lt)).mpr h) hx hy

theorem union_set_spec (a b : Set T) :
    ∃ u : Set T, union_set a b = .ok u ∧ AVLTree.Reachable u.tree_ ∧
      ∀ x, x ∈ u.elements ↔ x ∈ a.elements ∨ x ∈ b.elements := by
  have step : ∀ (r : Set T) (e : T), AVLTree.Reachable r.tree_ →
      ∃ r' : Set T, r.add e = .ok r' ∧ AVLTree.Reachable r'.tree_ ∧
        ∀ x, x ∈ r'.elements ↔ (x = e ∧ True) ∨ x ∈ r.elements := by
    intro r e hr
    obtain ⟨r', e1, h1, m1⟩ := add_spec r e hr
    exact ⟨r', e1, h1, fun x => by rw [m1, and_true]⟩
  obtain ⟨u1, e1, h1, m1⟩ := fold_add_spec (fun (acc : Set T) elem => acc.add elem)
    (fun _ => True) step a.elements Set.empty_set AVLTree.Reachable.empty
  obtain ⟨u2, e2, h2, m2⟩ := fold_add_spec (fun (acc : Set T) elem => acc.add elem)
    (fun _ => True) step b.elements u1 h1
  refine ⟨u2, ?_, h2, fun x => ?_⟩
  · simp only [union_set, e1]
    exact e2
  · rw [m2, m1]
    have : x ∉ (Set.empty_set : Set T).elements := by
      simp [Set.elements, Set.empty_set, AVLTree.inorder, AVLTree.inorder_traversal]
    tauto

theorem intersection_spec (a b : Set T) :
    ∃ u : Set T, intersection a b = .ok u ∧ AVLTree.Reachable u.tree_ ∧
      ∀ x, x ∈ u.elements ↔ x ∈ a.elements ∧ b.contains x = true := by
  have step : ∀ (r : Set T) (e : T), AVLTree.Reachable r.tree_ →
      ∃ r' : Set T, (if b.contains e then r.add e else pure r) = .ok r' ∧
        AVLTree.Reachable r'.tree_ ∧
        ∀ x, x ∈ r'.elements ↔ (x = e ∧ b.contains e = true) ∨ x ∈ r.elements := by
    intro r e hr
    by_cases hc : b.contains e = true
    · obtain ⟨r', e1, h1, m1⟩ := add_spec r e hr
      exact ⟨r', by rw [if_pos hc]; exact e1, h1, fun x => by rw [m1]; tauto⟩
    · exact ⟨r, by rw [if_neg hc]; rfl, hr, fun x => by tauto⟩
  obtain ⟨u, e1, h1, m1⟩ := fold_add_spec
    (fun (acc : Set T) elem => if b.contains elem then acc.add elem else pure acc)
    (fun e => b.contains e = true) step a.elements Set.empty_set AVLTree.Reachable.empty
  refine ⟨u, e1, h1, fun x => ?_⟩
  rw [m1]
  have : x ∉ (Set.empty_set : Set T).elements := by
    simp [Set.elements, Set.empty_set, AVLTree.inorder, AVLTree.inorder_traversal]
  tauto

theorem difference_spec (a b : Set T) :
    ∃ u : Set T, difference a b = .ok u ∧ AVLTree.Reachable u.tree_ ∧
      ∀ x, x ∈ u.elements ↔ x ∈ a.elements ∧ b.contains x = false := by
  have step : ∀ (r : Set T) (e : T), AVLTree.Reachable r.tree_ →
      ∃ r' : Set T, (if !b.contains e then r.add e else pure r) = .ok r' ∧
        AVLTree.Reachable r'.tree_ ∧
        ∀ x, x ∈ r'.elements ↔ (x = e ∧ b.contains e = false) ∨ x ∈ r.elements := by
    intro r e hr
    cases hc : b.contains e
    · obtain ⟨r', e1, h1, m1⟩ := add_spec r e hr
      exact ⟨r', e1, h1, fun x => by rw [m1]; tauto⟩
    · exact ⟨r, rfl, hr, fun x => by simp⟩
  obtain ⟨u, e1, h1, m1⟩ := fold_add_spec
    (fun (acc : Set T) elem => if !b.contains elem then acc.add elem else pure acc)
    (fun e => b.contains e = false) step a.elements Set.empty_set AVLTree.Reachable.empty
  refine ⟨u, e1, h1, fun x => ?_⟩
  rw [m1]
  have : x ∉ (Set.empty_set : Set T).elements := by
    simp [Set.elements, Set.empty_set, AVLTree.inorder, AVLTree.inorder_traversal]
  tauto

theorem symmetric_difference_spec (a b : Set T) :
    ∃ u : Set T, symmetric_difference a b = .ok u ∧ AVLTree.Reachable u.tree_ ∧
      ∀ x, x ∈ u.elements ↔
        (x ∈ a.elements ∨ x ∈ b.elements) ∧ ¬ (x ∈ a.elements ∧ b.contains x = true) := by
  obtain ⟨u, e1, h1, m1⟩ := union_set_spec a b
  obtain ⟨i, e2, h2, m2⟩ := intersection_spec a b
  obtain ⟨d, e3, h3, m3⟩ := fold_remove_spec i.elements u h1
  refine ⟨d, ?_, h3, fun x => ?_⟩
  · simp only [symmetric_difference, e1, e2]
    exact e3
  · rw [m3, m1, m2]

end Collections

theorem sampleSet_reachable : AVLTree.Reachable sampleSet :=
  .step_insert 2 (.step_insert 1 .empty rfl) rfl

theorem sampleSet4_reachable : AVLTree.Reachable sampleSet4 :=
  .step_insert 4 (.step_insert 3 sampleSet_reachable rfl) rfl

theorem sampleMap_reachable : KeyValueAVLTree.Reachable sampleMap :=
  .step_insert 2 20 (.step_insert 1 10 .empty rfl) rfl

theorem sampleMap4_reachable : KeyValueAVLTree.Reachable sampleMap4 :=
  .step_insert 4 40 (.step_insert 3 30 sampleMap_reachable rfl) rfl

/-- C24: `union_set` is set union. For every two sets built by `add` and `remove` and
every element x, `union_set(a, b)` returns a set that contains x iff a contains x or b
contains x, and its `elements()` is strictly ascending, so without duplicates. -/
theorem union_set_is_set_union {T : Type} [LinearOrder T] (a b : Collections.Set T)
    (ha : AVLTree.Reachable a.tree_) (hb : AVLTree.Reachable b.tree_) :
    ∃ u : Collections.Set T, Collections.union_set a b = .ok u ∧
      (∀ x, u.contains x = true ↔ a.contains x = true ∨ b.contains x = true) ∧
      u.elements.Pairwise (· < ·) ∧ u.elements.Nodup := by
  obtain ⟨u, e, hu, m⟩ := Collections.union_set_spec a b
  refine ⟨u, e, fun x => ?_, Collections.elements_sorted hu,
    (Collections.elements_sorted hu).imp ne_of_lt⟩
  rw [Collections.contains_iff (AVLTree.set_reachable_invariants hu).2.2,
    Collections.contains_iff (AVLTree.set_reachable_invariants ha).2.2,
    Collections.contains_iff (AVLTree.set_reachable_invariants hb).2.2, m]

/-- Witness for C24: the union of the sets 1, 2 and 1, 2, 3, 4. -/
theorem union_set_is_set_union_witness :
    AVLTree.Reachable sampleSet ∧ AVLTree.Reachable sampleSet4 ∧
      ∃ u : Collections.Set Nat, Collections.union_set ⟨sampleSet⟩ ⟨sampleSet4⟩ = .ok u ∧
        (∀ x, u.contains x = true ↔
          Collections.Set.contains ⟨sampleSet⟩ x = true ∨
            Collections.Set.contains ⟨sampleSet4⟩ x = true) ∧
        u.elements.Pairwise (· < ·) ∧ u.elements.Nodup :=
  ⟨sampleSet_reachable, sampleSet4_reachable,
    union_set_is_set_union ⟨sampleSet⟩ ⟨sampleSet4⟩ sampleSet_reachable sampleSet4_reachable⟩

/-- C25: `intersection` is set intersection. For every set a built by `add` and
`remove`, every set b (built so or not) and every element x, `intersection(a, b)`
returns a set that contains x iff a contains x and b contains x. -/
theorem intersection_is_set_intersection {T : Type} [LinearOrder T] (a b : Collections.Set T)
    (ha : AVLTree.Reachable a.tree_) :
    ∃ u : Collections.Set T, Collections.intersection a b = .ok u ∧
      ∀ x, u.contains x = true ↔ a.contains x = true ∧ b.contains x = true := by
  obtain ⟨u, e, hu, m⟩ := Collections.intersection_spec a b
  refine ⟨u, e, fun x => ?_⟩
  rw [Collections.contains_iff (AVLTree.set_reachable_invariants hu).2.2,
    Collections.contains_iff (AVLTree.set_reachable_invariants ha).2.2, m]

/-- Witness for C25: the intersection of the sets 1, 2 and 1, 2, 3, 4. -/
theorem intersection_is_set_intersection_witness :
    AVLTree.Reachable sampleSet ∧
      ∃ u : Collections.Set Nat, Collections.intersection ⟨sampleSet⟩ ⟨sampleSet4⟩ = .ok u ∧
        ∀ x, u.contains x = true ↔
          Collections.Set.contains ⟨sampleSet⟩ x = true ∧
            Collections.Set.contains ⟨sampleSet4⟩ x = true :=
  ⟨sampleSet_reachable,
    intersection_is_set_intersection ⟨sampleSet⟩ ⟨sampleSet4⟩ sampleSet_reachable⟩

/-- C26: `difference` is set difference. For every set a built by `add` and `remove`,
every set b (built so or not) and every element x, `difference(a, b)` returns a set
that contains x iff a contains x and b does not contain x. -/
theorem difference_is_set_difference {T : Type} [LinearOrder T] (a b : Collections.Set T)
    (ha : AVLTree.Reachable a.tree_) :
    ∃ u : Collections.Set T, Collections.difference a b = .ok u ∧
      ∀ x, u.contains x = true ↔ a.contains x = true ∧ b.contains x = false := by
  obtain ⟨u, e, hu, m⟩ := Collections.difference_spec a b
  refine ⟨u, e, fun x => ?_⟩
  rw [Collections.contains_iff (AVLTree.set_reachable_invariants hu).2.2,
    Collections.contains_iff (AVLTree.set_reachable_invariants ha).2.2, m]

/-- Witness for C26: the set 1, 2, 3, 4 without the elements of the set 1, 2. -/
theorem difference_is_set_difference_witness :
    AVLTree.Reachable sampleSet4 ∧
      ∃ u : Collections.Set Nat, Collections.difference ⟨sampleSet4⟩ ⟨sampleSet⟩ = .ok u ∧
        ∀ x, u.contains x = true ↔
          Collections.Set.contains ⟨sampleSet4⟩ x = true ∧
            Collections.Set.contains ⟨sampleSet⟩ x = false :=
  ⟨sampleSet4_reachable,
    difference_is_set_difference ⟨sampleSet4⟩ ⟨sampleSet⟩ sampleSet4_reachable⟩

/-- C27: `symmetric_difference` is the symmetric difference. For every two sets built
by `add` and `remove` and every element x, `symmetric_difference(a, b)` returns a set
that contains x iff exactly one of a and b contains x; and `symmetric_difference(a, b)`
and `symmetric_difference(b, a)` have the same `elements()`. -/
theorem symmetric_difference_is_symmetric {T : Type} [LinearOrder T] (a b : Collections.Set T)
    (ha : AVLTree.Reachable a.tree_) (hb : AVLTree.Reachable b.tree_) :
    ∃ d d' : Collections.Set T, Collections.symmetric_difference a b = .ok d ∧
      Collections.symmetric_difference b a = .ok d' ∧
      (∀ x, d.contains x = true ↔
        (a.contains x = true ∧ b.contains x = false) ∨
          (a.contains x = false ∧ b.contains x = true)) ∧
      d.elements = d'.elements := by
  obtain ⟨d, e, hd, m⟩ := Collections.symmetric_difference_spec a b
  obtain ⟨d', e', hd', m'⟩ := Collections.symmetric_difference_spec b a
  have ba := (AVLTree.set_reachable_invariants ha).2.2
  have bb := (AVLTree.set_reachable_invariants hb).2.2
  refine ⟨d, d', e, e', fun x => ?_, ?_⟩
  · rw [Collections.contains_iff (AVLTree.set_reachable_invariants hd).2.2, m,
      Collections.contains_eq_false_iff ba, Collections.contains_eq_false_iff bb,
      Collections.contains_iff ba, Collections.contains_iff bb]
    tauto
  · refine Collections.sorted_ext (Collections.elements_sorted hd)
      (Collections.elements_sorted hd') (fun x => ?_)
    rw [m, m', Collections.contains_iff ba, Collections.contains_iff bb]
    tauto

/-- Witness for C27: the sets 1, 2 and 1, 2, 3, 4 differ by 3 and 4. -/
theorem symmetric_difference_is_symmetric_witness :
    AVLTree.Reachable sampleSet ∧ AVLTree.Reachable sampleSet4 ∧
      ∃ d d' : Collections.Set Nat,
        Collections.symmetric_difference ⟨sampleSet⟩ ⟨sampleSet4⟩ = .ok d ∧
        Collections.symmetric_difference ⟨sampleSet4⟩ ⟨sampleSet⟩ = .ok d' ∧
        (∀ x, d.contains x = true ↔
          (Collections.Set.contains ⟨sampleSet⟩ x = true ∧
              Collections.Set.contains ⟨sampleSet4⟩ x = false) ∨
            (Collections.Set.contains ⟨sampleSet⟩ x = false ∧
              Collections.Set.contains ⟨sampleSet4⟩ x = true)) ∧
        d.elements = d'.elements :=
  ⟨sampleSet_reachable, sampleSet4_reachable,
    symmetric_difference_is_symmetric ⟨sampleSet⟩ ⟨sampleSet4⟩
      sampleSet_reachable sampleSet4_reachable⟩

/-- C28: the subset and superset tests. For every set a built by `add` and `remove`
and every set b, `a.is_subset(b)` is true iff every element of a is contained in b;
the empty set is a subset of every set; and `a.is_superset(b)` is `b.is_subset(a)`. -/
theorem subset_and_superset_tests {T : Type} [LinearOrder T] (a b : Collections.Set T)
    (ha : AVLTree.Reachable a.tree_) :
    (a.is_subset b = true ↔ ∀ x, a.contains x = true → b.contains x = true) ∧
      (a.is_subset b = true ↔ ∀ x ∈ a.elements, b.contains x = true) ∧
      Collections.Set.is_subset Collections.Set.empty_set b = true ∧
      a.is_superset b = b.is_subset a := by
  have ba := (AVLTree.set_reachable_invariants ha).2.2
  refine ⟨?_, ?_, rfl, rfl⟩
  · rw [Collections.Set.is_subset, List.all_eq_true]
    constructor
    · intro h x hx
      exact h x ((Collections.contains_iff ba x).mp hx)
    · intro h x hx
      exact h x ((Collections.contains_iff ba x).mpr hx)
  · rw [Collections.Set.is_subset, List.all_eq_true]

/-- Witness for C28: the set 1, 2 is a subset of the set 1, 2, 3, 4. -/
theorem subset_and_superset_tests_witness :
    AVLTree.Reachable sampleSet ∧
      Collections.Set.is_subset ⟨sampleSet⟩ ⟨sampleSet4⟩ = true ∧
      (Collections.Set.is_subset ⟨sampleSet⟩ ⟨sampleSet4⟩ = true ↔
        ∀ x, Collections.Set.contains ⟨sampleSet⟩ x = true →
          Collections.Set.contains ⟨sampleSet4⟩ x = true) :=
  ⟨sampleSet_reachable, by decide,
    (subset_and_superset_tests ⟨sampleSet⟩ ⟨sampleSet4⟩ sampleSet_reachable).1⟩

/-- C29: set equality. For every two sets built by `add` and `remove`, `a == b` is
true iff a and b contain the same elements, iff their `elements()` are equal; so two
sets built from the same elements added in different orders are equal. -/
theorem set_equality {T : Type} [LinearOrder T] (a b : Collections.Set T)
    (ha : AVLTree.Reachable a.tree_) (hb : AVLTree.Reachable b.tree_) :
    (Collections.operator_eq a b = true ↔ ∀ x, a.contains x = b.contains x) ∧
      (Collections.operator_eq a b = true ↔ a.elements = b.elements) ∧
      (∀ xs ys : List T, xs.Perm ys →
        ∃ s s', AVLTree.insert_all .nullptr xs = .ok s ∧
          AVLTree.insert_all .nullptr ys = .ok s' ∧
          Collections.operator_eq ⟨s⟩ ⟨s'⟩ = true) := by
  have key : ∀ (a b : Collections.Set T), AVLTree.Reachable a.tree_ →
      AVLTree.Reachable b.tree_ →
      (Collections.operator_eq a b = true ↔ a.elements = b.elements) := by
    intro a b ha hb
    have ba := (AVLTree.set_reachable_invariants ha).2.2
    have sa := Collections.elements_sorted ha
    have sb := Collections.elements_sorted hb
    have la : a.size = a.elements.length := AVLTree.set_size_eq_length_inorder a.tree_
    have lb : b.size = b.elements.length := AVLTree.set_size_eq_length_inorder b.tree_
    have bb := (AVLTree.set_reachable_invariants hb).2.2
    constructor
    · intro h
      rw [Collections.operator_eq] at h
      split_ifs at h with c
      rw [not_not] at c
      rw [List.all_eq_true] at h
      have hsub : a.elements ⊆ b.elements :=
        fun x hx => (Collections.contains_iff bb x).mp (h x hx)
      have hperm := (List.subperm_of_subset (sa.imp ne_of_lt) hsub).perm_of_length_le
        (by rw [← la, ← lb, c])
      exact List.eq_of_perm_of_sorted hperm sa sb
    · intro h
      rw [Collections.operator_eq, if_neg (by rw [la, lb, h]; simp), List.all_eq_true]
      intro x hx
      rw [Collections.contains_iff bb, ← h]
      exact hx
  have ba := (AVLTree.set_reachable_invariants ha).2.2
  have bb := (AVLTree.set_reachable_invariants hb).2.2
  refine ⟨?_, key a b ha hb, fun xs ys hp => ?_⟩
  · rw [key a b ha hb]
    constructor
    · intro h x
      rw [Bool.eq_iff_iff, Collections.contains_iff ba, Collections.contains_iff bb, h]
    · intro h
      refine Collections.sorted_ext (Collections.elements_sorted ha)
        (Collections.elements_sorted hb) (fun x => ?_)
      rw [← Collections.contains_iff ba, ← Collections.contains_iff bb, h x]
  · obtain ⟨s, e, r, m⟩ := AVLTree.set_insert_all_spec xs .nullptr AVLTree.Reachable.empty
    obtain ⟨s', e', r', m'⟩ := AVLTree.set_insert_all_spec ys .nullptr AVLTree.Reachable.empty
    refine ⟨s, s', e, e', (key ⟨s⟩ ⟨s'⟩ r r').mpr ?_⟩
    refine Collections.sorted_ext (Collections.elements_sorted (s := ⟨s⟩) r)
      (Collections.elements_sorted (s := ⟨s'⟩) r') (fun x => ?_)
    show x ∈ AVLTree.inorder s ↔ x ∈ AVLTree.inorder s'
    rw [m, m', hp.mem_iff]

/-- Witness for C29: the set 1, 2 differs from the set 1, 2, 3, 4 and equals itself. -/
theorem set_equality_witness :
    AVLTree.Reachable sampleSet ∧ AVLTree.Reachable sampleSet4 ∧
      Collections.operator_eq ⟨sampleSet⟩ ⟨sampleSet4⟩ = false ∧
      (Collections.operator_eq ⟨sampleSet⟩ ⟨sampleSet4⟩ = true ↔
        Collections.Set.elements ⟨sampleSet⟩ = Collections.Set.elements ⟨sampleSet4⟩) :=
  ⟨sampleSet_reachable, sampleSet4_reachable, by decide,
    (set_equality ⟨sampleSet⟩ ⟨sampleSet4⟩ sampleSet_reachable sampleSet4_reachable).2.1⟩

namespace Collections

variable {Key Value : Type} [LinearOrder Key]

/-- What `find` gives decides `Map::at` and `Map::contains`. -/
theorem map_lookup_spec (m : Map Key Value) (key : Key) (hm : KeyValueAVLTree.BST m.tree_) :
    (key ∉ KeyValueAVLTree.keys m.tree_ ∧ KeyValueAVLTree.find m.tree_ key = .nullptr ∧
        m.contains key = false ∧
        Map.at m key = .error (.out_of_range "Key not found in the map.")) ∨
      (∃ value h l r, (key, value) ∈ m.elements ∧
        KeyValueAVLTree.find m.tree_ key = .node key value h l r ∧
        m.contains key = true ∧ Map.at m key = .ok value) := by
  have hf := KeyValueAVLTree.find_spec key hm
  by_cases hk : key ∈ KeyValueAVLTree.keys m.tree_
  · right
    obtain ⟨⟨k, v⟩, hx, rfl⟩ := List.mem_map.mp hk
    obtain ⟨h, l, r, e⟩ := hf.1 v hx
    exact ⟨v, h, l, r, hx, e, by rw [Map.contains, e]; rfl, by rw [Map.at, e]⟩
  · left
    have e := hf.2 hk
    exact ⟨hk, e, by rw [Map.contains, e]; rfl, by rw [Map.at, e]⟩

theorem map_value_unique {m : Map Key Value} (hm : KeyValueAVLTree.BST m.tree_) {key : Key}
    {v w : Value} (hv : (key, v) ∈ m.elements) (hw : (key, w) ∈ m.elements) : v = w := by
  obtain ⟨h, l, r, e⟩ := (KeyValueAVLTree.find_spec key hm).1 v hv
  obtain ⟨h', l', r', e'⟩ := (KeyValueAVLTree.find_spec key hm).1 w hw
  rw [e] at e'
  cases e'
  rfl

end Collections

/-- C21: `Map::at` fails exactly on a missing key. For every map built by `insert` and
`erase` and every key, `at(key)` raises the out-of-range error iff the map does not
contain the key, which is when the key is not among its entries; otherwise it returns
the payload stored with the key. The call gives a value and no new map: the map stays
as it is. -/
theorem map_at_fails_exactly_on_missing_key {Key Value : Type} [LinearOrder Key]
    (m : Collections.Map Key Value) (key : Key) (hm : KeyValueAVLTree.Reachable m.tree_) :
    ((∃ e, Collections.Map.at m key = .error e) ↔ m.contains key = false) ∧
      (Collections.Map.at m key = .error (.out_of_range "Key not found in the map.") ↔
        m.contains key = false) ∧
      (m.contains key = false ↔ key ∉ KeyValueAVLTree.keys m.tree_) ∧
      (∀ value, (key, value) ∈ m.elements → Collections.Map.at m key = .ok value) ∧
      (m.contains key = true → ∃ value, Collections.Map.at m key = .ok value ∧
        (key, value) ∈ m.elements) := by
  have hb := (KeyValueAVLTree.reachable_invariants hm).2.2
  rcases Collections.map_lookup_spec m key hb with ⟨hk, _, hc, ha⟩ | ⟨v, h, l, r, hv, _, hc, ha⟩
  · refine ⟨⟨fun _ => hc, fun _ => ⟨_, ha⟩⟩, ⟨fun _ => hc, fun _ => ha⟩,
      ⟨fun _ => hk, fun _ => hc⟩, fun value hv => ?_, fun h => ?_⟩
    · exact absurd (List.mem_map.mpr ⟨(key, value), hv, rfl⟩) hk
    · rw [hc] at h
      cases h
  · have hk : key ∈ KeyValueAVLTree.keys m.tree_ := List.mem_map.mpr ⟨(key, v), hv, rfl⟩
    refine ⟨⟨?_, ?_⟩, ⟨?_, ?_⟩, ⟨?_, ?_⟩, fun value hv' => ?_, fun _ => ⟨v, ha, hv⟩⟩
    · rintro ⟨e, he⟩
      rw [ha] at he
      cases he
    · intro h
      rw [hc] at h
      cases h
    · intro he
      rw [ha] at he
      cases he
    · intro h
      rw [hc] at h
      cases h
    · intro h
      rw [hc] at h
      cases h
    · intro h
      exact absurd hk h
    · rw [ha, Collections.map_value_unique hb hv' hv]

/-- Witness for C21: in the map with the keys 1 to 4, `at(4)` is 40 and `at(7)` fails. -/
theorem map_at_fails_exactly_on_missing_key_witness :
    KeyValueAVLTree.Reachable sampleMap4 ∧
      Collections.Map.at ⟨sampleMap4⟩ 4 = .ok 40 ∧
      Collections.Map.at ⟨sampleMap4⟩ 7 = .error (.out_of_range "Key not found in the map.") :=
  ⟨sampleMap4_reachable,
    (map_at_fails_exactly_on_missing_key ⟨sampleMap4⟩ 4 sampleMap4_reachable).2.2.2.1 40
      (by decide),
    (map_at_fails_exactly_on_missing_key ⟨sampleMap4⟩ 7 sampleMap4_reachable).2.1.mpr rfl⟩

/-- C22: the two failure kinds can be told apart. The error `find_min` and `find_max`
raise on the empty tree and the error `Map::at` raises on an absent key are different
values: both are `std::out_of_range`, and they differ in the message they carry. -/
theorem failure_kinds_distinguishable {Key Value : Type} [LinearOrder Key]
    (m : Collections.Map Key Value) (key : Key) (hc : m.contains key = false) :
    ∃ e1 e2, KeyValueAVLTree.find_min (.nullptr : KeyValueAVLNode Key Value) = .error e1 ∧
      KeyValueAVLTree.find_max (.nullptr : KeyValueAVLNode Key Value) = .error e1 ∧
      AVLTree.find_min (.nullptr : AVLNode Key) = .error e1 ∧
      AVLTree.find_max (.nullptr : AVLNode Key) = .error e1 ∧
      Collections.Map.at m key = .error e2 ∧ e1 ≠ e2 ∧
      e1 = .out_of_range "The tree is empty." ∧
      e2 = .out_of_range "Key not found in the map." := by
  refine ⟨_, _, rfl, rfl, rfl, rfl, ?_, by decide, rfl, rfl⟩
  rw [Collections.Map.contains] at hc
  rw [Collections.Map.at]
  cases hf : KeyValueAVLTree.find m.tree_ key with
  | nullptr => rfl
  | node k v h l r =>
    rw [hf] at hc
    cases hc

/-- Witness for C22: `at(7)` on the map with the keys 1 to 4 against an empty tree. -/
theorem failure_kinds_distinguishable_witness :
    Collections.Map.contains ⟨sampleMap4⟩ 7 = false ∧
      ∃ e1 e2, KeyValueAVLTree.find_min (.nullptr : KeyValueAVLNode Nat Nat) = .error e1 ∧
        KeyValueAVLTree.find_max (.nullptr : KeyValueAVLNode Nat Nat) = .error e1 ∧
        AVLTree.find_min (.nullptr : AVLNode Nat) = .error e1 ∧
        AVLTree.find_max (.nullptr : AVLNode Nat) = .error e1 ∧
        Collections.Map.at ⟨sampleMap4⟩ 7 = .error e2 ∧ e1 ≠ e2 ∧
        e1 = .out_of_range "The tree is empty." ∧
        e2 = .out_of_range "Key not found in the map." :=
  ⟨rfl, failure_kinds_distinguishable ⟨sampleMap4⟩ 7 rfl⟩

/-- C23: `Map::operator[]` inserts a default on a miss and never fails. For every map
built by `insert` and `erase` and every key: if the key is absent, `m[key]` returns the
default value and leaves a map that holds the key with the default value between the
old entries, all unchanged, and has one entry more; if the key is present, `m[key]`
returns the stored value and leaves the map as it was. In both cases the lookup finds
a node, so nothing null is dereferenced. -/
theorem map_operator_index {Key Value : Type} [LinearOrder Key] [Inhabited Value]
    (m : Collections.Map Key Value) (key : Key) (hm : KeyValueAVLTree.Reachable m.tree_) :
    (key ∉ KeyValueAVLTree.keys m.tree_ →
        ∃ (m' : Collections.Map Key Value) (pre post : List (Key × Value)),
          Collections.Map.operator_index m key = .ok (default, m') ∧
          m.elements = pre ++ post ∧ m'.elements = pre ++ (key, default) :: post ∧
          m'.size = m.size + 1 ∧ m'.contains key = true ∧
          Collections.Map.at m' key = .ok default) ∧
      (∀ value, (key, value) ∈ m.elements →
        Collections.Map.operator_index m key = .ok (value, m)) := by
  obtain ⟨hh, _, hb⟩ := KeyValueAVLTree.reachable_invariants hm
  constructor
  · intro hk
    have hf := (KeyValueAVLTree.find_spec key hb).2 hk
    obtain ⟨t', e, _⟩ := KeyValueAVLTree.insert_heightsOk m.tree_ key default hh
    obtain ⟨pre, post, h1, h2, _, _⟩ := KeyValueAVLTree.insert_inorder_absent hb hk e
    have hb' := KeyValueAVLTree.insert_bst hb e
    have hmem : (key, (default : Value)) ∈ KeyValueAVLTree.inorder t' := by
      rw [h2]
      exact List.mem_append_right _ (List.mem_cons_self _ _)
    obtain ⟨h, l, r, hf'⟩ := (KeyValueAVLTree.find_spec key hb').1 default hmem
    refine ⟨⟨t'⟩, pre, post, ?_, h1, h2, ?_, ?_, ?_⟩
    · simp only [Collections.Map.operator_index, hf, KeyValueAVLTree.isNull, if_true,
        Collections.Map.insert, e]
      show (match KeyValueAVLTree.find t' key with
        | .nullptr => Except.error Fault.null_dereference
        | .node _ value _ _ _ => pure (value, (⟨t'⟩ : Collections.Map Key Value))) = _
      rw [hf']
      rfl
    · show KeyValueAVLTree.size t' = KeyValueAVLTree.size m.tree_ + 1
      rw [KeyValueAVLTree.size_eq_length_inorder, KeyValueAVLTree.size_eq_length_inorder, h2, h1]
      simp only [List.length_append, List.length_cons]
      omega
    · show (!KeyValueAVLTree.isNull (KeyValueAVLTree.find t' key)) = true
      rw [hf']
      rfl
    · show (match KeyValueAVLTree.find t' key with
        | .nullptr => Except.error (Fault.out_of_range "Key not found in the map.")
        | .node _ value _ _ _ => Except.ok value) = _
      rw [hf']
  · intro value hv
    obtain ⟨h, l, r, hf⟩ := (KeyValueAVLTree.find_spec key hb).1 value hv
    simp only [Collections.Map.operator_index, hf, KeyValueAVLTree.isNull]
    rfl

/-- Witness for C23: `m[3]` on the map 1, 2 inserts the default 0; `m[2]` returns 20. -/
theorem map_operator_index_witness :
    KeyValueAVLTree.Reachable sampleMap ∧ 3 ∉ KeyValueAVLTree.keys sampleMap ∧
      (2, 20) ∈ Collections.Map.elements ⟨sampleMap⟩ ∧
      Collections.Map.operator_index ⟨sampleMap⟩ 2 = .ok (20, ⟨sampleMap⟩) ∧
      (∃ (m' : Collections.Map Nat Nat) (pre post : List (Nat × Nat)),
          Collections.Map.operator_index ⟨sampleMap⟩ 3 = .ok (default, m') ∧
          Collections.Map.elements ⟨sampleMap⟩ = pre ++ post ∧
          m'.elements = pre ++ (3, default) :: post ∧
          m'.size = Collections.Map.size ⟨sampleMap⟩ + 1 ∧ m'.contains 3 = true ∧
          Collections.Map.at m' 3 = .ok default) :=
  ⟨sampleMap_reachable, by decide, by decide,
    (map_operator_index ⟨sampleMap⟩ 2 sampleMap_reachable).2 20 (by decide),
    (map_operator_index ⟨sampleMap⟩ 3 sampleMap_reachable).1 (by decide)⟩

/-! ## The rebalancing step -/

theorem AVLTree.set_balance_spec {T : Type} (d : T) (s : Int) (l r : AVLNode T)
    (hs : s = 1 + max (AVLTree.height l) (AVLTree.height r))
    (hl : AVLTree.HeightsOk l) (hr : AVLTree.HeightsOk r)
    (bl : AVLTree.Balanced l) (br : AVLTree.Balanced r)
    (hd : |AVLTree.height l - AVLTree.height r| ≤ 2) :
    ∃ t', AVLTree.balance (.node d s l r) = .ok t' ∧ AVLTree.HeightsOk t' ∧
      AVLTree.Balanced t' := by
  have el : KeyValueAVLTree.height l.lift = AVLTree.height l := by
    rw [← KeyValueAVLNode.height_forget, KeyValueAVLNode.forget_lift]
  have er : KeyValueAVLTree.height r.lift = AVLTree.height r := by
    rw [← KeyValueAVLNode.height_forget, KeyValueAVLNode.forget_lift]
  obtain ⟨t', e, b, _⟩ := KeyValueAVLTree.balance_balanced d () s l.lift r.lift
    (by rw [el, er]; exact hs) ((AVLTree.heightsOk_lift l).mp hl)
    ((AVLTree.heightsOk_lift r).mp hr) ((AVLTree.balanced_lift l).mp bl)
    ((AVLTree.balanced_lift r).mp br) (by rw [el, er]; exact hd)
  obtain ⟨t'', e', h'⟩ := KeyValueAVLTree.balance_heightsOk (t := .node d () s l.lift r.lift)
    ⟨by rw [el, er]; exact hs, (AVLTree.heightsOk_lift l).mp hl,
      (AVLTree.heightsOk_lift r).mp hr⟩
  rw [e] at e'
  cases e'
  have hb := KeyValueAVLNode.balance_forget (.node d () s l.lift r.lift)
  simp only [KeyValueAVLNode.forget, KeyValueAVLNode.forget_lift, e] at hb
  exact ⟨t'.forget, hb, (KeyValueAVLNode.heightsOk_forget t').mpr h',
    (KeyValueAVLNode.balanced_forget t').mpr b⟩

/-- C30: `balance` restores balance at an imbalanced node, in both engines. For every
node with correct stored heights whose two subtrees are height-balanced and whose
balance factor `height(right) - height(left)` is 2 or -2, `balance` returns a subtree
that is height-balanced at every node and has correct stored heights. It is the single
rotation `rotate_left` (for 2) or `rotate_right` (for -2) when the balance factor of the
heavy child has the same sign or is 0, and the double rotation `rotate_right_left` or
`rotate_left_right` otherwise. -/
theorem balance_restores_balance {Key Value : Type}
    (k : Key) (v : Value) (h : Int) (l r : KeyValueAVLNode Key Value)
    (d : Key) (sh : Int) (sl sr : AVLNode Key)
    (hh : KeyValueAVLTree.HeightsOk (.node k v h l r))
    (bl : KeyValueAVLTree.Balanced l) (br : KeyValueAVLTree.Balanced r)
    (hbf : KeyValueAVLTree.calculate_balance_factor (.node k v h l r) = 2 ∨
      KeyValueAVLTree.calculate_balance_factor (.node k v h l r) = -2)
    (shh : AVLTree.HeightsOk (.node d sh sl sr))
    (sbl : AVLTree.Balanced sl) (sbr : AVLTree.Balanced sr)
    (sbf : AVLTree.calculate_balance_factor (.node d sh sl sr) = 2 ∨
      AVLTree.calculate_balance_factor (.node d sh sl sr) = -2) :
    ((∃ t', KeyValueAVLTree.balance (.node k v h l r) = .ok t' ∧
          KeyValueAVLTree.Balanced t' ∧ KeyValueAVLTree.HeightsOk t' ∧
          KeyValueAVLTree.DepthBalanced t') ∧
        (KeyValueAVLTree.calculate_balance_factor (.node k v h l r) = 2 →
          (0 ≤ KeyValueAVLTree.calculate_balance_factor r →
            KeyValueAVLTree.balance (.node k v h l r) =
              KeyValueAVLTree.rotate_left (.node k v h l r)) ∧
          (KeyValueAVLTree.calculate_balance_factor r < 0 →
            KeyValueAVLTree.balance (.node k v h l r) =
              KeyValueAVLTree.rotate_right_left (.node k v h l r))) ∧
        (KeyValueAVLTree.calculate_balance_factor (.node k v h l r) = -2 →
          (KeyValueAVLTree.calculate_balance_factor l ≤ 0 →
            KeyValueAVLTree.balance (.node k v h l r) =
              KeyValueAVLTree.rotate_right (.node k v h l r)) ∧
          (0 < KeyValueAVLTree.calculate_balance_factor l →
            KeyValueAVLTree.balance (.node k v h l r) =
              KeyValueAVLTree.rotate_left_right (.node k v h l r)))) ∧
      ((∃ s', AVLTree.balance (.node d sh sl sr) = .ok s' ∧
          AVLTree.Balanced s' ∧ AVLTree.HeightsOk s' ∧ AVLTree.DepthBalanced s') ∧
        (AVLTree.calculate_balance_factor (.node d sh sl sr) = 2 →
          (0 ≤ AVLTree.calculate_balance_factor sr →
            AVLTree.balance (.node d sh sl sr) = AVLTree.rotate_left (.node d sh sl sr)) ∧
          (AVLTree.calculate_balance_factor sr < 0 →
            AVLTree.balance (.node d sh sl sr) =
              AVLTree.rotate_right_left (.node d sh sl sr))) ∧
        (AVLTree.calculate_balance_factor (.node d sh sl sr) = -2 →
          (AVLTree.calculate_balance_factor sl ≤ 0 →
            AVLTree.balance (.node d sh sl sr) = AVLTree.rotate_right (.node d sh sl sr)) ∧
          (0 < AVLTree.calculate_balance_factor sl →
            AVLTree.balance (.node d sh sl sr) =
              AVLTree.rotate_left_right (.node d sh sl sr)))) := by
  refine ⟨⟨?_, ?_, ?_⟩, ⟨?_, ?_, ?_⟩⟩
  · obtain ⟨h1, hl, hr⟩ := hh
    have hd : |KeyValueAVLTree.height l - KeyValueAVLTree.height r| ≤ 2 := by
      rw [KeyValueAVLTree.calculate_balance_factor_node] at hbf
      rw [abs_le]
      omega
    obtain ⟨t', e, b, _⟩ := KeyValueAVLTree.balance_balanced k v h l r h1 hl hr bl br hd
    obtain ⟨t'', e', h'⟩ := KeyValueAVLTree.balance_heightsOk (t := .node k v h l r) ⟨h1, hl, hr⟩
    rw [e] at e'
    cases e'
    exact ⟨t', e, b, h', (KeyValueAVLTree.balanced_iff_depthBalanced h').mp b⟩
  · intro c
    simp only [KeyValueAVLTree.balance, c, if_true]
    exact ⟨fun c2 => by rw [if_pos c2], fun c2 => by rw [if_neg (not_le.mpr c2)]⟩
  · intro c
    simp only [KeyValueAVLTree.balance, c, if_true]
    exact ⟨fun c2 => by rw [if_pos c2, if_neg (show ¬ ((-2 : Int) = 2) by decide)],
      fun c2 => by rw [if_neg (not_le.mpr c2), if_neg (show ¬ ((-2 : Int) = 2) by decide)]⟩
  · obtain ⟨h1, hl, hr⟩ := shh
    have hd : |AVLTree.height sl - AVLTree.height sr| ≤ 2 := by
      have : AVLTree.calculate_balance_factor (.node d sh sl sr) =
        AVLTree.height sr - AVLTree.height sl := rfl
      rw [this] at sbf
      rw [abs_le]
      omega
    obtain ⟨s', e, h', b⟩ := AVLTree.set_balance_spec d sh sl sr h1 hl hr sbl sbr hd
    exact ⟨s', e, b, h', (AVLTree.set_balanced_iff_depthBalanced h').mp b⟩
  · intro c
    simp only [AVLTree.balance, c, if_true]
    exact ⟨fun c2 => by rw [if_pos c2], fun c2 => by rw [if_neg (not_le.mpr c2)]⟩
  · intro c
    simp only [AVLTree.balance, c, if_true]
    exact ⟨fun c2 => by rw [if_pos c2, if_neg (show ¬ ((-2 : Int) = 2) by decide)],
      fun c2 => by rw [if_neg (not_le.mpr c2), if_neg (show ¬ ((-2 : Int) = 2) by decide)]⟩

/-- Witness for C30: the spine 1 -> 2 -> 3 before `balance`, with balance factor 2. -/
theorem balance_restores_balance_witness :
    KeyValueAVLTree.HeightsOk
        (.node 1 10 3 .nullptr (.node 2 20 2 .nullptr (.node 3 30 1 .nullptr .nullptr)) :
          KeyValueAVLNode Nat Nat) ∧
      KeyValueAVLTree.Balanced
        (.node 2 20 2 .nullptr (.node 3 30 1 .nullptr .nullptr) : KeyValueAVLNode Nat Nat) ∧
      AVLTree.HeightsOk
        (.node 1 3 .nullptr (.node 2 2 .nullptr (.node 3 1 .nullptr .nullptr)) : AVLNode Nat) ∧
      AVLTree.Balanced (.node 2 2 .nullptr (.node 3 1 .nullptr .nullptr) : AVLNode Nat) ∧
      (∃ s', AVLTree.balance
          (.node 1 3 .nullptr (.node 2 2 .nullptr (.node 3 1 .nullptr .nullptr)) : AVLNode Nat)
            = .ok s' ∧
        AVLTree.Balanced s' ∧ AVLTree.HeightsOk s' ∧ AVLTree.DepthBalanced s') :=
  ⟨by decide, by decide, by decide, by decide,
    (balance_restores_balance 1 10 3 .nullptr
      (.node 2 20 2 .nullptr (.node 3 30 1 .nullptr .nullptr))
      1 3 .nullptr (.node 2 2 .nullptr (.node 3 1 .nullptr .nullptr))
      (by decide) trivial (by decide) (Or.inl rfl)
      (by decide) trivial (by decide) (Or.inl rfl)).2.1⟩

/-! ## Claims C31 to C37: the engine, one step at a time -/

namespace AVLTree

variable {T : Type}

/-- Dropping the recorded events from the traced `erase` gives `erase`. -/
theorem traced_erase [LinearOrder T] (t : AVLNode T) (value : T) :
    Except.map Prod.fst (Traced.erase t value) = erase t value := by
  induction t generalizing value with
  | nullptr => rfl
  | node d h l r ihl ihr =>
    simp only [Traced.erase, erase]
    split_ifs
    · rw [map_fst_bind _ _ (fun left => update_height (.node d h left r) >>= balance), ihl]
      intro a
      exact (map_fst_bind_pure _ (fun done => a.2 ++ done.2)).trans (traced_balance _)
    · rw [map_fst_bind _ _ (fun right => update_height (.node d h l right) >>= balance), ihr]
      intro a
      exact (map_fst_bind_pure _ (fun done => a.2 ++ done.2)).trans (traced_balance _)
    · rfl
    · rfl
    · cases find_max l with
      | error e => rfl
      | ok temp =>
        cases temp with
        | nullptr => rfl
        | node td th tl tr =>
          show Except.map Prod.fst (Traced.erase l td >>= _) = (erase l td >>= _)
          rw [map_fst_bind _ _ (fun left => update_height (.node td h left r) >>= balance), ihl]
          intro a
          exact (map_fst_bind_pure _ (fun done => a.2 ++ done.2)).trans (traced_balance _)

/-- A traced run whose tree is known returns that tree with some events. -/
theorem traced_ok {α L : Type} {x : Except Fault (α × L)} {a : α}
    (h : Except.map Prod.fst x = .ok a) : ∃ evs, x = .ok (a, evs) := by
  cases x with
  | error e => cases h
  | ok p =>
    cases h
    exact ⟨p.2, rfl⟩

theorem balanceCalls_append {p : Int → Prop} {a b : List (Event T)}
    (ha : BalanceCalls p a) (hb : BalanceCalls p b) : BalanceCalls p (a ++ b) := by
  intro d bf h
  rcases List.mem_append.mp h with h | h
  · exact ha d bf h
  · exact hb d bf h

theorem traced_rotate_left_calls {p : Int → Prop} {t u : AVLNode T} {evs : List (Event T)}
    (h : Traced.rotate_left t = .ok (u, evs)) : BalanceCalls p evs := by
  cases t with
  | nullptr => cases h
  | node d s l r =>
    cases r with
    | nullptr => cases h
    | node rd rs rl rr =>
      cases h
      intro d' bf hm
      simp at hm

theorem traced_rotate_right_calls {p : Int → Prop} {t u : AVLNode T} {evs : List (Event T)}
    (h : Traced.rotate_right t = .ok (u, evs)) : BalanceCalls p evs := by
  cases t with
  | nullptr => cases h
  | node d s l r =>
    cases l with
    | nullptr => cases h
    | node ld ls ll lr =>
      cases h
      intro d' bf hm
      simp at hm

theorem traced_rotate_left_right_calls {p : Int → Prop} {t u : AVLNode T}
    {evs : List (Event T)} (h : Traced.rotate_left_right t = .ok (u, evs)) :
    BalanceCalls p evs := by
  cases t with
  | nullptr => cases h
  | node d s l r =>
    obtain ⟨first, e1, e2⟩ := KeyValueAVLTree.bind_eq_ok h
    obtain ⟨second, e3, e4⟩ := KeyValueAVLTree.bind_eq_ok e2
    cases e4
    exact balanceCalls_append (traced_rotate_left_calls (u := first.1) e1)
      (traced_rotate_right_calls (u := second.1) e3)

theorem traced_rotate_right_left_calls {p : Int → Prop} {t u : AVLNode T}
    {evs : List (Event T)} (h : Traced.rotate_right_left t = .ok (u, evs)) :
    BalanceCalls p evs := by
  cases t with
  | nullptr => cases h
  | node d s l r =>
    obtain ⟨first, e1, e2⟩ := KeyValueAVLTree.bind_eq_ok h
    obtain ⟨second, e3, e4⟩ := KeyValueAVLTree.bind_eq_ok e2
    cases e4
    exact balanceCalls_append (traced_rotate_right_calls (u := first.1) e1)
      (traced_rotate_left_calls (u := second.1) e3)

theorem balanceCalls_cons {p : Int → Prop} {x : Except Fault (AVLNode T × List (Event T))}
    {d : T} {bf : Int} {t' : AVLNode T} {evs : List (Event T)}
    (h : (x >>= fun done => pure (done.1, Event.balance d bf :: done.2)) = .ok (t', evs))
    (hp : p bf) (hx : ∀ u es, x = .ok (u, es) → BalanceCalls p es) : BalanceCalls p evs := by
  obtain ⟨done, e1, e2⟩ := KeyValueAVLTree.bind_eq_ok h
  cases e2
  intro d' bf' hm
  rcases List.mem_cons.mp hm with hm | hm
  · cases hm
    exact hp
  · exact hx done.1 done.2 e1 d' bf' hm

/-- The one call a run of `balance` records carries the balance factor of the node
it was called on. -/
theorem traced_balance_calls {p : Int → Prop} {t u : AVLNode T} {evs : List (Event T)}
    (h : Traced.balance t = .ok (u, evs)) (hp : p (calculate_balance_factor t)) :
    BalanceCalls p evs := by
  cases t with
  | nullptr =>
    cases h
    intro d bf hm
    simp at hm
  | node d s l r =>
    simp only [Traced.balance] at h
    split_ifs at h
    · exact balanceCalls_cons h hp (fun _ _ e => traced_rotate_left_calls e)
    · exact balanceCalls_cons h hp (fun _ _ e => traced_rotate_right_left_calls e)
    · exact balanceCalls_cons h hp (fun _ _ e => traced_rotate_right_calls e)
    · exact balanceCalls_cons h hp (fun _ _ e => traced_rotate_left_right_calls e)
    · exact balanceCalls_cons h hp (fun _ _ e => by
        cases e
        intro d' bf hm
        simp at hm)

/-- The unwind step of the traced runs: the recursive call, `update_height`, then
`balance`, with the events of both. The balance factor recorded is that of the node
over the subtree the recursive call returned. -/
theorem traced_unwind_calls {p : Int → Prop} {x : Except Fault (AVLNode T × List (Event T))}
    {f : AVLNode T → AVLNode T × AVLNode T} {d : T} {h : Int} {t' : AVLNode T}
    {evs : List (Event T)}
    (e : (x >>= fun below => update_height (.node d h (f below.1).1 (f below.1).2) >>=
      fun node => Traced.balance node >>= fun done => pure (done.1, below.2 ++ done.2)) =
        .ok (t', evs))
    (hx : ∀ u es, x = .ok (u, es) →
      BalanceCalls p es ∧ p (height (f u).2 - height (f u).1)) :
    BalanceCalls p evs := by
  obtain ⟨below, e1, e2⟩ := KeyValueAVLTree.bind_eq_ok e
  obtain ⟨node, e3, e4⟩ := KeyValueAVLTree.bind_eq_ok e2
  obtain ⟨done, e5, e6⟩ := KeyValueAVLTree.bind_eq_ok e4
  cases e6
  cases e3
  obtain ⟨c1, c2⟩ := hx below.1 below.2 e1
  exact balanceCalls_append c1 (traced_balance_calls (u := done.1) e5 c2)

section TracedOrdered

variable [LinearOrder T]

/-- On an AVL tree every call of `balance` during `insert` sees a balance factor
between -2 and 2. -/
theorem traced_insert_calls (t : AVLNode T) (value : T) (hh : HeightsOk t) (hb : Balanced t)
    {t' : AVLNode T} {evs : List (Event T)} (e : Traced.insert t value = .ok (t', evs)) :
    BalanceCalls (fun bf => -2 ≤ bf ∧ bf ≤ 2) evs := by
  induction t generalizing t' evs with
  | nullptr =>
    exact traced_balance_calls
      (t := .node value (1 + max (height .nullptr) (height .nullptr)) .nullptr .nullptr) e
      (by show (-2 : Int) ≤ 0 - 0 ∧ (0 : Int) - 0 ≤ 2; decide)
  | node d h l r ihl ihr =>
    obtain ⟨_, hl, hr⟩ := hh
    obtain ⟨b1, bl, br⟩ := hb
    rw [abs_le] at b1
    simp only [Traced.insert] at e
    split_ifs at e
    · refine traced_unwind_calls (f := fun u => (u, r)) e (fun u es ex => ⟨ihl hl bl ex, ?_⟩)
      obtain ⟨s', e', _, _, hs'⟩ := set_insert_balanced l value hl bl
      have eu := traced_insert l value
      rw [ex, e'] at eu
      cases eu
      simp only at hs'
      show -2 ≤ height r - height u ∧ height r - height u ≤ 2
      omega
    · refine traced_unwind_calls (f := fun u => (l, u)) e (fun u es ex => ⟨ihr hr br ex, ?_⟩)
      obtain ⟨s', e', _, _, hs'⟩ := set_insert_balanced r value hr br
      have eu := traced_insert r value
      rw [ex, e'] at eu
      cases eu
      simp only at hs'
      show -2 ≤ height u - height l ∧ height u - height l ≤ 2
      omega
    · cases e
      intro d' bf hm
      simp at hm

/-- On an AVL tree every call of `balance` during `erase` sees a balance factor
between -2 and 2. -/
theorem traced_erase_calls (t : AVLNode T) (value : T) (hh : HeightsOk t) (hb : Balanced t)
    {t' : AVLNode T} {evs : List (Event T)} (e : Traced.erase t value = .ok (t', evs)) :
    BalanceCalls (fun bf => -2 ≤ bf ∧ bf ≤ 2) evs := by
  induction t generalizing value t' evs with
  | nullptr =>
    cases e
    intro d bf hm
    simp at hm
  | node d h l r ihl ihr =>
    obtain ⟨_, hl, hr⟩ := hh
    obtain ⟨b1, bl, br⟩ := hb
    rw [abs_le] at b1
    have left_case : ∀ (key d' : T) {t' : AVLNode T} {evs : List (Event T)},
        (Traced.erase l key >>= fun below => update_height (.node d' h below.1 r) >>=
          fun node => Traced.balance node >>= fun done => pure (done.1, below.2 ++ done.2)) =
          .ok (t', evs) → BalanceCalls (fun bf => -2 ≤ bf ∧ bf ≤ 2) evs := by
      intro key d' t' evs e
      refine traced_unwind_calls (f := fun u => (u, r)) e
        (fun u es ex => ⟨ihl key hl bl ex, ?_⟩)
      obtain ⟨s', e', _, _, hs'⟩ := set_erase_balanced l key hl bl
      have eu := traced_erase l key
      rw [ex, e'] at eu
      cases eu
      simp only at hs'
      show -2 ≤ height r - height u ∧ height r - height u ≤ 2
      omega
    simp only [Traced.erase] at e
    split_ifs at e
    · exact left_case value d e
    · refine traced_unwind_calls (f := fun u => (l, u)) e
        (fun u es ex => ⟨ihr value hr br ex, ?_⟩)
      obtain ⟨s', e', _, _, hs'⟩ := set_erase_balanced r value hr br
      have eu := traced_erase r value
      rw [ex, e'] at eu
      cases eu
      simp only at hs'
      show -2 ≤ height u - height l ∧ height u - height l ≤ 2
      omega
    · cases e
      intro d' bf hm
      simp at hm
    · cases e
      intro d' bf hm
      simp at hm
    · obtain ⟨temp, e1, e2⟩ := KeyValueAVLTree.bind_eq_ok e
      cases temp with
      | nullptr => cases e2
      | node td th tl tr => exact left_case td td e2

end TracedOrdered

end AVLTree

/-- C31: the precondition `balance` relies on always holds. For every `AVLTree` whose
stored heights are correct and whose nodes are height-balanced, and every value,
`insert` and `erase` return a tree, and at every node where `balance` is called during
the run the balance factor lies in {-2, -1, 0, 1, 2}. A node with a balance factor of
magnitude 3 or more, which `balance` returns as it is, therefore never occurs. -/
theorem balance_precondition_holds {T : Type} [LinearOrder T] (t : AVLNode T) (value : T)
    (hh : AVLTree.HeightsOk t) (hb : AVLTree.Balanced t) :
    (∃ t' evs, AVLTree.Traced.insert t value = .ok (t', evs) ∧ AVLTree.insert t value = .ok t' ∧
        ∀ d bf, AVLTree.Event.balance d bf ∈ evs → -2 ≤ bf ∧ bf ≤ 2) ∧
      (∃ t' evs, AVLTree.Traced.erase t value = .ok (t', evs) ∧ AVLTree.erase t value = .ok t' ∧
        ∀ d bf, AVLTree.Event.balance d bf ∈ evs → -2 ≤ bf ∧ bf ≤ 2) ∧
      ∀ (d : T) (h : Int) (l r : AVLNode T),
        2 < |AVLTree.calculate_balance_factor (.node d h l r)| →
          AVLTree.balance (.node d h l r) = .ok (.node d h l r) := by
  refine ⟨?_, ?_, ?_⟩
  · obtain ⟨t', e, _⟩ := AVLTree.set_insert_heightsOk t value hh
    obtain ⟨evs, e'⟩ := AVLTree.traced_ok ((AVLTree.traced_insert t value).trans e)
    exact ⟨t', evs, e', e, AVLTree.traced_insert_calls t value hh hb e'⟩
  · obtain ⟨t', e, _⟩ := AVLTree.set_erase_heightsOk t value hh
    obtain ⟨evs, e'⟩ := AVLTree.traced_ok ((AVLTree.traced_erase t value).trans e)
    exact ⟨t', evs, e', e, AVLTree.traced_erase_calls t value hh hb e'⟩
  · intro d h l r hbf
    rw [lt_abs] at hbf
    simp only [AVLTree.balance]
    rw [if_neg (by omega), if_neg (by omega)]

/-- Witness for C31: erasing the root 2 of the set with the values 1 to 4, whose
right side is deeper, calls `balance` once, with balance factor 2. -/
theorem balance_precondition_holds_witness :
    AVLTree.HeightsOk sampleSet4 ∧ AVLTree.Balanced sampleSet4 ∧
      AVLTree.Traced.erase sampleSet4 2 =
        .ok (.node 3 2 (.node 1 1 .nullptr .nullptr) (.node 4 1 .nullptr .nullptr),
          [.balance 1 2, .rotate_left 1]) ∧
      ∃ t' evs, AVLTree.Traced.erase sampleSet4 2 = .ok (t', evs) ∧
        AVLTree.erase sampleSet4 2 = .ok t' ∧
        ∀ d bf, AVLTree.Event.balance d bf ∈ evs → -2 ≤ bf ∧ bf ≤ 2 :=
  ⟨by decide, by decide, rfl,
    (balance_precondition_holds sampleSet4 2 (by decide) (by decide)).2.1⟩

namespace AVLTree

variable {T : Type}

/-- A fact about the in-order traversal of what a function of the key-value engine
returns carries over to the function of the set engine it forgets to. -/
theorem set_inorder_of_forget {f : AVLNode T → Except Fault (AVLNode T)}
    {g : KeyValueAVLNode T Unit → Except Fault (KeyValueAVLNode T Unit)}
    (hfg : ∀ t, f t.forget = Except.map KeyValueAVLNode.forget (g t))
    (hg : ∀ t t', g t = .ok t' → KeyValueAVLTree.inorder t' = KeyValueAVLTree.inorder t)
    {s s' : AVLNode T} (h : f s = .ok s') : inorder s' = inorder s := by
  rw [← KeyValueAVLNode.forget_lift s, hfg] at h
  obtain ⟨t', e, rfl⟩ := map_eq_ok h
  rw [KeyValueAVLNode.inorder_forget, inorder_lift, KeyValueAVLTree.keys, hg _ _ e]
  rfl

theorem set_rotate_left_inorder {s s' : AVLNode T} (h : rotate_left s = .ok s') :
    inorder s' = inorder s :=
  set_inorder_of_forget KeyValueAVLNode.rotate_left_forget
    (fun _ _ => KeyValueAVLTree.rotate_left_inorder) h

theorem set_rotate_right_inorder {s s' : AVLNode T} (h : rotate_right s = .ok s') :
    inorder s' = inorder s :=
  set_inorder_of_forget KeyValueAVLNode.rotate_right_forget
    (fun _ _ => KeyValueAVLTree.rotate_right_inorder) h

theorem set_rotate_left_right_inorder {s s' : AVLNode T} (h : rotate_left_right s = .ok s') :
    inorder s' = inorder s :=
  set_inorder_of_forget KeyValueAVLNode.rotate_left_right_forget
    (fun _ _ => KeyValueAVLTree.rotate_left_right_inorder) h

theorem set_rotate_right_left_inorder {s s' : AVLNode T} (h : rotate_right_left s = .ok s') :
    inorder s' = inorder s :=
  set_inorder_of_forget KeyValueAVLNode.rotate_right_left_forget
    (fun _ _ => KeyValueAVLTree.rotate_right_left_inorder) h

theorem set_balance_inorder {s s' : AVLNode T} (h : balance s = .ok s') :
    inorder s' = inorder s :=
  set_inorder_of_forget KeyValueAVLNode.balance_forget
    (fun _ _ => KeyValueAVLTree.balance_inorder) h

theorem set_balance_heightsOk {s : AVLNode T} (h : HeightsOk s) :
    ∃ s', balance s = .ok s' ∧ HeightsOk s' := by
  obtain ⟨t', e, h'⟩ := KeyValueAVLTree.balance_heightsOk ((heightsOk_lift s).mp h)
  refine ⟨t'.forget, ?_, (KeyValueAVLNode.heightsOk_forget t').mpr h'⟩
  rw [← KeyValueAVLNode.forget_lift s, KeyValueAVLNode.balance_forget, e]
  rfl

end AVLTree

/-- C32: rotations preserve the in-order sequence, in both engines. Every subtree
that `rotate_left`, `rotate_right`, `rotate_left_right`, `rotate_right_left` or
`balance` returns has the in-order traversal of the node it was called on (the same
keys and payloads in the same order) and the same node count. `rotate_left` returns a
subtree for every node with a right child, `rotate_right` for every node with a left
child, `rotate_left_right` for every node whose left child has a right child,
`rotate_right_left` for every node whose right child has a left child, and `balance`
for every node whose stored heights are correct. -/
theorem rotations_preserve_inorder {Key Value : Type}
    (t t' : KeyValueAVLNode Key Value) (s s' : AVLNode Key) :
    ((KeyValueAVLTree.rotate_left t = .ok t' ∨ KeyValueAVLTree.rotate_right t = .ok t' ∨
          KeyValueAVLTree.rotate_left_right t = .ok t' ∨
          KeyValueAVLTree.rotate_right_left t = .ok t' ∨ KeyValueAVLTree.balance t = .ok t' →
        KeyValueAVLTree.inorder t' = KeyValueAVLTree.inorder t ∧
          KeyValueAVLTree.size t' = KeyValueAVLTree.size t) ∧
      (AVLTree.rotate_left s = .ok s' ∨ AVLTree.rotate_right s = .ok s' ∨
          AVLTree.rotate_left_right s = .ok s' ∨
          AVLTree.rotate_right_left s = .ok s' ∨ AVLTree.balance s = .ok s' →
        AVLTree.inorder s' = AVLTree.inorder s ∧ AVLTree.size s' = AVLTree.size s)) ∧
    ((∀ k v h l rk rv rh rl rr, ∃ u, KeyValueAVLTree.rotate_left
          (.node k v h l (.node rk rv rh rl rr) : KeyValueAVLNode Key Value) = .ok u) ∧
      (∀ k v h lk lv lh ll lr r, ∃ u, KeyValueAVLTree.rotate_right
          (.node k v h (.node lk lv lh ll lr) r : KeyValueAVLNode Key Value) = .ok u) ∧
      (∀ k v h lk lv lh ll mk mv mh ml mr r, ∃ u, KeyValueAVLTree.rotate_left_right
          (.node k v h (.node lk lv lh ll (.node mk mv mh ml mr)) r :
            KeyValueAVLNode Key Value) = .ok u) ∧
      (∀ k v h l rk rv rh mk mv mh ml mr rr, ∃ u, KeyValueAVLTree.rotate_right_left
          (.node k v h l (.node rk rv rh (.node mk mv mh ml mr) rr) :
            KeyValueAVLNode Key Value) = .ok u) ∧
      (KeyValueAVLTree.HeightsOk t → ∃ u, KeyValueAVLTree.balance t = .ok u)) ∧
    ((∀ d h l rd rh rl rr, ∃ u, AVLTree.rotate_left
          (.node d h l (.node rd rh rl rr) : AVLNode Key) = .ok u) ∧
      (∀ d h ld lh ll lr r, ∃ u, AVLTree.rotate_right
          (.node d h (.node ld lh ll lr) r : AVLNode Key) = .ok u) ∧
      (∀ d h ld lh ll md mh ml mr r, ∃ u, AVLTree.rotate_left_right
          (.node d h (.node ld lh ll (.node md mh ml mr)) r : AVLNode Key) = .ok u) ∧
      (∀ d h l rd rh md mh ml mr rr, ∃ u, AVLTree.rotate_right_left
          (.node d h l (.node rd rh (.node md mh ml mr) rr) : AVLNode Key) = .ok u) ∧
      (AVLTree.HeightsOk s → ∃ u, AVLTree.balance s = .ok u)) := by
  refine ⟨⟨fun h => ?_, fun h => ?_⟩, ⟨?_, ?_, ?_, ?_, ?_⟩, ⟨?_, ?_, ?_, ?_, ?_⟩⟩
  · have e : KeyValueAVLTree.inorder t' = KeyValueAVLTree.inorder t := by
      rcases h with h | h | h | h | h
      · exact KeyValueAVLTree.rotate_left_inorder h
      · exact KeyValueAVLTree.rotate_right_inorder h
      · exact KeyValueAVLTree.rotate_left_right_inorder h
      · exact KeyValueAVLTree.rotate_right_left_inorder h
      · exact KeyValueAVLTree.balance_inorder h
    exact ⟨e, by rw [KeyValueAVLTree.size_eq_length_inorder,
      KeyValueAVLTree.size_eq_length_inorder, e]⟩
  · have e : AVLTree.inorder s' = AVLTree.inorder s := by
      rcases h with h | h | h | h | h
      · exact AVLTree.set_rotate_left_inorder h
      · exact AVLTree.set_rotate_right_inorder h
      · exact AVLTree.set_rotate_left_right_inorder h
      · exact AVLTree.set_rotate_right_left_inorder h
      · exact AVLTree.set_balance_inorder h
    exact ⟨e, by rw [AVLTree.set_size_eq_length_inorder,
      AVLTree.set_size_eq_length_inorder, e]⟩
  · exact fun k v h l rk rv rh rl rr => ⟨_, rfl⟩
  · exact fun k v h lk lv lh ll lr r => ⟨_, rfl⟩
  · exact fun k v h lk lv lh ll mk mv mh ml mr r => ⟨_, rfl⟩
  · exact fun k v h l rk rv rh mk mv mh ml mr rr => ⟨_, rfl⟩
  · exact fun h => (KeyValueAVLTree.balance_heightsOk h).imp fun _ p => p.1
  · exact fun d h l rd rh rl rr => ⟨_, rfl⟩
  · exact fun d h ld lh ll lr r => ⟨_, rfl⟩
  · exact fun d h ld lh ll md mh ml mr r => ⟨_, rfl⟩
  · exact fun d h l rd rh md mh ml mr rr => ⟨_, rfl⟩
  · exact fun h => (AVLTree.set_balance_heightsOk h).imp fun _ p => p.1

/-- Witness for C32: the left rotation of the spine 1 -> 2 -> 3 keeps the traversal
(1, 10), (2, 20), (3, 30) and the three nodes. -/
theorem rotations_preserve_inorder_witness :
    KeyValueAVLTree.inorder (.node 2 20 2 (.node 1 10 1 .nullptr .nullptr)
        (.node 3 30 1 .nullptr .nullptr) : KeyValueAVLNode Nat Nat) =
        [(1, 10), (2, 20), (3, 30)] ∧
      AVLTree.size (.node 2 2 (.node 1 1 .nullptr .nullptr)
        (.node 3 1 .nullptr .nullptr) : AVLNode Nat) = 3 :=
  ⟨((rotations_preserve_inorder
      (.node 1 10 3 .nullptr (.node 2 20 2 .nullptr (.node 3 30 1 .nullptr .nullptr)))
      (.node 2 20 2 (.node 1 10 1 .nullptr .nullptr) (.node 3 30 1 .nullptr .nullptr))
      (.node 1 3 .nullptr (.node 2 2 .nullptr (.node 3 1 .nullptr .nullptr)))
      (.node 2 2 (.node 1 1 .nullptr .nullptr) (.node 3 1 .nullptr .nullptr))).1.1
      (Or.inl rfl)).1,
    ((rotations_preserve_inorder
      (.node 1 10 3 .nullptr (.node 2 20 2 .nullptr (.node 3 30 1 .nullptr .nullptr)))
      (.node 2 20 2 (.node 1 10 1 .nullptr .nullptr) (.node 3 30 1 .nullptr .nullptr))
      (.node 1 3 .nullptr (.node 2 2 .nullptr (.node 3 1 .nullptr .nullptr)))
      (.node 2 2 (.node 1 1 .nullptr .nullptr) (.node 3 1 .nullptr .nullptr))).1.2
      (Or.inl rfl)).2⟩

/-- C33: the shape of a single rotation, in both engines. For every node `n` with
left subtree `A` and right child `r` whose subtrees are `B` and `C`, all three with
correct stored heights, `rotate_left(n)` returns `r` as the new root with left child
`n` and right subtree `C`, where `n` now has left subtree `A` and right subtree `B`;
the stored height of `n` is `1 + max(height(A), height(B))`, that of `r` is
`1 + max(height(n), height(C))`, both are the heights of the glossary, and every
stored height of the returned subtree is correct. `rotate_right` is the mirror image:
for `n` with left child `l` over `A` and `B` and right subtree `C` it returns `l` as
the new root with left subtree `A` and right child `n` over `B` and `C`. -/
theorem rotation_shape {Key Value : Type}
    (k : Key) (v : Value) (h : Int) (ck : Key) (cv : Value) (ch : Int)
    (A B C : KeyValueAVLNode Key Value) (sA sB sC : AVLNode Key)
    (hA : KeyValueAVLTree.HeightsOk A) (hB : KeyValueAVLTree.HeightsOk B)
    (hC : KeyValueAVLTree.HeightsOk C) (gA : AVLTree.HeightsOk sA)
    (gB : AVLTree.HeightsOk sB) (gC : AVLTree.HeightsOk sC) :
    ((∃ hn hr, KeyValueAVLTree.rotate_left (.node k v h A (.node ck cv ch B C)) =
          .ok (.node ck cv hr (.node k v hn A B) C) ∧
        hn = 1 + max (KeyValueAVLTree.height A) (KeyValueAVLTree.height B) ∧
        hr = 1 + max hn (KeyValueAVLTree.height C) ∧
        hn = KeyValueAVLTree.depth (.node k v hn A B) ∧
        hr = KeyValueAVLTree.depth (.node ck cv hr (.node k v hn A B) C) ∧
        KeyValueAVLTree.HeightsOk (.node ck cv hr (.node k v hn A B) C)) ∧
      (∃ hn hl, KeyValueAVLTree.rotate_right (.node k v h (.node ck cv ch A B) C) =
          .ok (.node ck cv hl A (.node k v hn B C)) ∧
        hn = 1 + max (KeyValueAVLTree.height B) (KeyValueAVLTree.height C) ∧
        hl = 1 + max (KeyValueAVLTree.height A) hn ∧
        hn = KeyValueAVLTree.depth (.node k v hn B C) ∧
        hl = KeyValueAVLTree.depth (.node ck cv hl A (.node k v hn B C)) ∧
        KeyValueAVLTree.HeightsOk (.node ck cv hl A (.node k v hn B C)))) ∧
    ((∃ hn hr, AVLTree.rotate_left (.node k h sA (.node ck ch sB sC)) =
          .ok (.node ck hr (.node k hn sA sB) sC) ∧
        hn = 1 + max (AVLTree.height sA) (AVLTree.height sB) ∧
        hr = 1 + max hn (AVLTree.height sC) ∧
        hn = AVLTree.depth (.node k hn sA sB) ∧
        hr = AVLTree.depth (.node ck hr (.node k hn sA sB) sC) ∧
        AVLTree.HeightsOk (.node ck hr (.node k hn sA sB) sC)) ∧
      (∃ hn hl, AVLTree.rotate_right (.node k h (.node ck ch sA sB) sC) =
          .ok (.node ck hl sA (.node k hn sB sC)) ∧
        hn = 1 + max (AVLTree.height sB) (AVLTree.height sC) ∧
        hl = 1 + max (AVLTree.height sA) hn ∧
        hn = AVLTree.depth (.node k hn sB sC) ∧
        hl = AVLTree.depth (.node ck hl sA (.node k hn sB sC)) ∧
        AVLTree.HeightsOk (.node ck hl sA (.node k hn sB sC)))) := by
  have l1 : KeyValueAVLTree.HeightsOk (.node ck cv
      (1 + max (1 + max (KeyValueAVLTree.height A) (KeyValueAVLTree.height B))
        (KeyValueAVLTree.height C))
      (.node k v (1 + max (KeyValueAVLTree.height A) (KeyValueAVLTree.height B)) A B) C) :=
    ⟨rfl, ⟨rfl, hA, hB⟩, hC⟩
  have l2 : KeyValueAVLTree.HeightsOk (.node ck cv
      (1 + max (KeyValueAVLTree.height A)
        (1 + max (KeyValueAVLTree.height B) (KeyValueAVLTree.height C))) A
      (.node k v (1 + max (KeyValueAVLTree.height B) (KeyValueAVLTree.height C)) B C)) :=
    ⟨rfl, hA, ⟨rfl, hB, hC⟩⟩
  have l3 : AVLTree.HeightsOk (.node ck
      (1 + max (1 + max (AVLTree.height sA) (AVLTree.height sB)) (AVLTree.height sC))
      (.node k (1 + max (AVLTree.height sA) (AVLTree.height sB)) sA sB) sC) :=
    ⟨rfl, ⟨rfl, gA, gB⟩, gC⟩
  have l4 : AVLTree.HeightsOk (.node ck
      (1 + max (AVLTree.height sA) (1 + max (AVLTree.height sB) (AVLTree.height sC))) sA
      (.node k (1 + max (AVLTree.height sB) (AVLTree.height sC)) sB sC)) :=
    ⟨rfl, gA, ⟨rfl, gB, gC⟩⟩
  refine ⟨⟨⟨_, _, KeyValueAVLNode.kv_rotate_left_eq k v h A ck cv ch B C, rfl, rfl, ?_, ?_, l1⟩,
      ⟨_, _, KeyValueAVLNode.kv_rotate_right_eq k v h ck cv ch A B C, rfl, rfl, ?_, ?_, l2⟩⟩,
    ⟨⟨_, _, KeyValueAVLNode.avl_rotate_left_eq k h sA ck ch sB sC, rfl, rfl, ?_, ?_, l3⟩,
      ⟨_, _, KeyValueAVLNode.avl_rotate_right_eq k h ck ch sA sB sC, rfl, rfl, ?_, ?_, l4⟩⟩⟩
  · exact KeyValueAVLTree.height_eq_depth (t := .node k v _ A B) l1.2.1
  · exact KeyValueAVLTree.height_eq_depth l1
  · exact KeyValueAVLTree.height_eq_depth (t := .node k v _ B C) l2.2.2
  · exact KeyValueAVLTree.height_eq_depth l2
  · exact AVLTree.set_height_eq_depth (s := .node k _ sA sB) l3.2.1
  · exact AVLTree.set_height_eq_depth l3
  · exact AVLTree.set_height_eq_depth (s := .node k _ sB sC) l4.2.2
  · exact AVLTree.set_height_eq_depth l4

/-- Witness for C33: rotating the spine 1 -> 2 -> 3 to the left makes 2 the root over
1 and 3, with stored heights 1 and 2. -/
theorem rotation_shape_witness :
    KeyValueAVLTree.HeightsOk (.nullptr : KeyValueAVLNode Nat Nat) ∧
      KeyValueAVLTree.HeightsOk (.node 3 30 1 .nullptr .nullptr : KeyValueAVLNode Nat Nat) ∧
      AVLTree.HeightsOk (.nullptr : AVLNode Nat) ∧
      AVLTree.HeightsOk (.node 3 1 .nullptr .nullptr : AVLNode Nat) ∧
      ∃ hn hr, KeyValueAVLTree.rotate_left
          (.node 1 10 3 .nullptr (.node 2 20 2 .nullptr (.node 3 30 1 .nullptr .nullptr))) =
          .ok (.node 2 20 hr (.node 1 10 hn .nullptr .nullptr)
            (.node 3 30 1 .nullptr .nullptr)) ∧
        hn = 1 + max (KeyValueAVLTree.height (.nullptr : KeyValueAVLNode Nat Nat))
          (KeyValueAVLTree.height (.nullptr : KeyValueAVLNode Nat Nat)) ∧
        hr = 1 + max hn
          (KeyValueAVLTree.height (.node 3 30 1 .nullptr .nullptr : KeyValueAVLNode Nat Nat)) ∧
        hn = KeyValueAVLTree.depth (.node 1 10 hn .nullptr .nullptr : KeyValueAVLNode Nat Nat) ∧
        hr = KeyValueAVLTree.depth (.node 2 20 hr (.node 1 10 hn .nullptr .nullptr)
          (.node 3 30 1 .nullptr .nullptr) : KeyValueAVLNode Nat Nat) ∧
        KeyValueAVLTree.HeightsOk (.node 2 20 hr (.node 1 10 hn .nullptr .nullptr)
          (.node 3 30 1 .nullptr .nullptr) : KeyValueAVLNode Nat Nat) :=
  ⟨by decide, by decide, by decide, by decide,
    (rotation_shape 1 10 3 2 20 2 .nullptr .nullptr (.node 3 30 1 .nullptr .nullptr)
      .nullptr .nullptr (.node 3 1 .nullptr .nullptr)
      (by decide) (by decide) (by decide) (by decide) (by decide) (by decide)).1.1⟩

namespace KeyValueAVLTree

variable {Key Value : Type}

/-- On a search tree the descent of `find` for the key of the maximum arrives at the
node `find_max` returns. -/
theorem find_find_max [LinearOrder Key] {t : KeyValueAVLNode Key Value} {pk : Key}
    {pv : Value} {ph : Int} {pl pr : KeyValueAVLNode Key Value}
    (ht : BST t) (h : find_max t = .ok (.node pk pv ph pl pr)) :
    find t pk = .node pk pv ph pl pr := by
  induction t with
  | nullptr => cases h
  | node k v s l r _ ihr =>
    cases r with
    | nullptr =>
      cases h
      simp [find]
    | node rk rv rs rl rr =>
      obtain ⟨_, h2, _, hr⟩ := ht
      have h' : find_max (.node rk rv rs rl rr) = .ok (.node pk pv ph pl pr) := h
      obtain ⟨tk, tv, ts, tl, init, e, hi⟩ := find_max_inorder rk rv rs rl rr
      rw [e] at h'
      cases h'
      have hm : pk ∈ keys (.node rk rv rs rl rr) := by
        show pk ∈ (inorder (.node rk rv rs rl rr)).map Prod.fst
        rw [hi]
        simp
      have lt : k < pk := lt_of_mem_keys (p := fun x => k < x) h2 hm
      rw [find, if_neg (ne_of_gt lt), if_neg (lt_asymm lt)]
      exact ihr hr e

end KeyValueAVLTree

/-- C34: the two-children case of `erase` uses the in-order predecessor. For every
node with key `k` that satisfies the search-tree ordering and has a non-empty left
subtree `L` and a non-empty right subtree `R`, `find_max(L)` returns the node of the
last in-order entry `(pk, pv)` of `L`, no key of `L` exceeds `pk`, and `erase(k)` is
`balance` applied to the node that carries `pk` and `pv`, has left subtree
`erase(L, pk)` and the unchanged right subtree `R`, with its height recomputed. The
node of `L` that holds `pk`, where the descent of `erase(L, pk)` arrives, has no right
child, and at such a node `erase` returns the left child at once: the recursive call
lands in the at-most-one-child case. With correct stored heights both calls return a
tree. -/
theorem erase_two_children_uses_predecessor {Key Value : Type} [LinearOrder Key]
    (k : Key) (v : Value) (h : Int) (L R : KeyValueAVLNode Key Value)
    (hL : L ≠ .nullptr) (hR : R ≠ .nullptr) (hb : KeyValueAVLTree.BST (.node k v h L R)) :
    ∃ pk pv ph pl init,
      KeyValueAVLTree.find_max L = .ok (.node pk pv ph pl .nullptr) ∧
      KeyValueAVLTree.inorder L = init ++ [(pk, pv)] ∧
      (∀ x ∈ KeyValueAVLTree.keys L, x ≤ pk) ∧
      KeyValueAVLTree.erase (.node k v h L R) k =
        (KeyValueAVLTree.erase L pk >>= fun left =>
          KeyValueAVLTree.balance (.node pk pv
            (1 + max (KeyValueAVLTree.height left) (KeyValueAVLTree.height R)) left R)) ∧
      KeyValueAVLTree.find L pk = .node pk pv ph pl .nullptr ∧
      (∀ v' h', KeyValueAVLTree.erase (.node pk v' h' pl .nullptr) pk = .ok pl) ∧
      (KeyValueAVLTree.HeightsOk (.node k v h L R) →
        ∃ left t', KeyValueAVLTree.erase L pk = .ok left ∧
          KeyValueAVLTree.erase (.node k v h L R) k = .ok t') := by
  cases L with
  | nullptr => exact absurd rfl hL
  | node lk lv lh ll lr =>
    cases R with
    | nullptr => exact absurd rfl hR
    | node rk rv rh rl rr =>
      obtain ⟨pk, pv, ph, pl, init, e, hi⟩ := KeyValueAVLTree.find_max_inorder lk lv lh ll lr
      have hbL : KeyValueAVLTree.BST (.node lk lv lh ll lr) := hb.2.2.1
      refine ⟨pk, pv, ph, pl, init, e, hi, ?_, ?_, KeyValueAVLTree.find_find_max hbL e, ?_, ?_⟩
      · intro x hx
        have p := (KeyValueAVLTree.bst_iff _).mp hbL
        rw [hi, List.pairwise_append] at p
        have hx' : x ∈ (KeyValueAVLTree.inorder (.node lk lv lh ll lr)).map Prod.fst := hx
        rw [hi, List.map_append, List.mem_append] at hx'
        rcases hx' with hx' | hx'
        · obtain ⟨q, hq, rfl⟩ := List.mem_map.mp hx'
          exact le_of_lt (p.2.2 q hq (pk, pv) (List.mem_singleton_self _))
        · simp at hx'
          exact le_of_eq hx'
      · simp only [KeyValueAVLTree.erase, lt_irrefl, if_false, gt_iff_lt, KeyValueAVLTree.isNull,
          Bool.or_self, e]
        rfl
      · intro v' h'
        simp only [KeyValueAVLTree.erase, lt_irrefl, if_false, gt_iff_lt, KeyValueAVLTree.isNull,
          Bool.or_true, if_true]
        cases pl <;> rfl
      · intro hh
        obtain ⟨left, e1, _⟩ := KeyValueAVLTree.erase_heightsOk (.node lk lv lh ll lr) pk hh.2.1
        obtain ⟨t', e2, _⟩ := KeyValueAVLTree.erase_heightsOk _ k hh
        exact ⟨left, t', e1, e2⟩

/-- Witness for C34: erasing the root 2 of the tree with the keys 1 to 4 moves the
predecessor (1, 10) into the root. -/
theorem erase_two_children_uses_predecessor_witness :
    (.node 1 10 1 .nullptr .nullptr : KeyValueAVLNode Nat Nat) ≠ .nullptr ∧
      (.node 3 30 2 .nullptr (.node 4 40 1 .nullptr .nullptr) : KeyValueAVLNode Nat Nat) ≠
        .nullptr ∧
      KeyValueAVLTree.BST sampleMap4 ∧
      ∃ pk pv ph pl init,
        KeyValueAVLTree.find_max (.node 1 10 1 .nullptr .nullptr : KeyValueAVLNode Nat Nat) =
          .ok (.node pk pv ph pl .nullptr) ∧
        KeyValueAVLTree.inorder (.node 1 10 1 .nullptr .nullptr : KeyValueAVLNode Nat Nat) =
          init ++ [(pk, pv)] ∧
        (∀ x ∈ KeyValueAVLTree.keys (.node 1 10 1 .nullptr .nullptr : KeyValueAVLNode Nat Nat),
          x ≤ pk) ∧
        KeyValueAVLTree.erase sampleMap4 2 =
          (KeyValueAVLTree.erase (.node 1 10 1 .nullptr .nullptr) pk >>= fun left =>
            KeyValueAVLTree.balance (.node pk pv
              (1 + max (KeyValueAVLTree.height left)
                (KeyValueAVLTree.height
                  (.node 3 30 2 .nullptr (.node 4 40 1 .nullptr .nullptr) :
                    KeyValueAVLNode Nat Nat))) left
              (.node 3 30 2 .nullptr (.node 4 40 1 .nullptr .nullptr)))) ∧
        KeyValueAVLTree.find (.node 1 10 1 .nullptr .nullptr : KeyValueAVLNode Nat Nat) pk =
          .node pk pv ph pl .nullptr ∧
        (∀ v' h', KeyValueAVLTree.erase (.node pk v' h' pl .nullptr) pk = .ok pl) ∧
        (KeyValueAVLTree.HeightsOk sampleMap4 →
          ∃ left t', KeyValueAVLTree.erase (.node 1 10 1 .nullptr .nullptr) pk = .ok left ∧
            KeyValueAVLTree.erase sampleMap4 2 = .ok t') :=
  ⟨by decide, by decide, by decide,
    erase_two_children_uses_predecessor 2 20 3 (.node 1 10 1 .nullptr .nullptr)
      (.node 3 30 2 .nullptr (.node 4 40 1 .nullptr .nullptr))
      (by decide) (by decide) (by decide)⟩

namespace KeyValueAVLNode

variable {Key Value : Type}

theorem forget_eq_nullptr {t : KeyValueAVLNode Key Value} : t.forget = .nullptr ↔ t = .nullptr := by
  cases t with
  | nullptr => exact ⟨fun _ => rfl, fun _ => rfl⟩
  | node k v h l r => exact ⟨fun e => (by cases e), fun e => (by cases e)⟩

/-- A run of calls on a reachable key-value tree returns a reachable tree, and the
same run on the set engine, started on the tree without its payloads, returns that
tree without its payloads. -/
theorem run_operations_forget [LinearOrder Key] (ops : List (Operation Key Value))
    (t : KeyValueAVLNode Key Value) (h : KeyValueAVLTree.Reachable t) :
    ∃ t', KeyValueAVLTree.run_operations t ops = .ok t' ∧ KeyValueAVLTree.Reachable t' ∧
      AVLTree.run_operations t.forget ops = .ok t'.forget := by
  induction ops generalizing t with
  | nil => exact ⟨t, rfl, h, rfl⟩
  | cons op rest ih =>
    obtain ⟨hh, _, _⟩ := KeyValueAVLTree.reachable_invariants h
    cases op with
    | insert key value =>
      obtain ⟨t1, e1, _⟩ := KeyValueAVLTree.insert_heightsOk t key value hh
      obtain ⟨t', e2, r2, f2⟩ := ih t1 (KeyValueAVLTree.Reachable.step_insert key value h e1)
      refine ⟨t', ?_, r2, ?_⟩
      · simp only [KeyValueAVLTree.run_operations, List.foldlM_cons,
          KeyValueAVLTree.apply_operation, e1]
        exact e2
      · simp only [AVLTree.run_operations, List.foldlM_cons, AVLTree.apply_operation,
          insert_forget t key value, e1]
        exact f2
    | erase key =>
      obtain ⟨t1, e1, _⟩ := KeyValueAVLTree.erase_heightsOk t key hh
      obtain ⟨t', e2, r2, f2⟩ := ih t1 (KeyValueAVLTree.Reachable.step_erase key h e1)
      refine ⟨t', ?_, r2, ?_⟩
      · simp only [KeyValueAVLTree.run_operations, List.foldlM_cons,
          KeyValueAVLTree.apply_operation, e1]
        exact e2
      · simp only [AVLTree.run_operations, List.foldlM_cons, AVLTree.apply_operation,
          erase_forget t key, e1]
        exact f2

end KeyValueAVLNode

/-- C35: the two engines are the same algorithm. For every sequence of `insert` and
`erase` calls over keys of a totally ordered type, with arbitrary payloads, applied
to an empty `KeyValueAVLTree<K, V>` and to an empty `AVLTree<K>`, both runs return a
tree, the tree of the set engine is exactly the key-value tree with the payloads
forgotten (same shape, same keys at the same positions, same stored heights), and
`find` returns not-found on one iff on the other. -/
theorem engines_are_the_same_algorithm {Key Value : Type} [LinearOrder Key]
    (ops : List (Operation Key Value)) :
    ∃ t, KeyValueAVLTree.run_operations .nullptr ops = .ok t ∧
      AVLTree.run_operations .nullptr ops = .ok t.forget ∧
      ∀ key, KeyValueAVLTree.find t key = .nullptr ↔ AVLTree.find t.forget key = .nullptr := by
  obtain ⟨t, e, _, f⟩ := KeyValueAVLNode.run_operations_forget ops .nullptr
    KeyValueAVLTree.Reachable.empty
  refine ⟨t, e, f, fun key => ?_⟩
  rw [KeyValueAVLNode.find_forget, KeyValueAVLNode.forget_eq_nullptr]

namespace KeyValueAVLTree

variable {Key Value : Type}

section OrderedSizes

variable [LinearOrder Key]

/-- Whenever `insert` of a key the search tree holds returns a tree, the in-order
traversal is the old one: the new payload is dropped and rotations on the way back
keep the order. -/
theorem insert_inorder_present {t t' : KeyValueAVLNode Key Value} {key : Key} {value : Value}
    (ht : BST t) (hk : key ∈ keys t) (h : insert t key value = .ok t') :
    inorder t' = inorder t := by
  induction t generalizing t' with
  | nullptr => simp [keys] at hk
  | node k v s l r ihl ihr =>
    obtain ⟨h1, h2, hl, hr⟩ := ht
    simp only [insert] at h
    split_ifs at h with c1 c2
    · obtain ⟨l', e1, e2⟩ := bind_eq_ok h
      rcases mem_keys_node.mp hk with m | m | m
      · rw [unwind_inorder e2, ihl hl m e1, inorder_node]
      · exact absurd m (ne_of_lt c1)
      · exact absurd (lt_trans c1 (lt_of_mem_keys (p := fun x => k < x) h2 m)) (lt_irrefl _)
    · obtain ⟨r', e1, e2⟩ := bind_eq_ok h
      rcases mem_keys_node.mp hk with m | m | m
      · exact absurd (lt_trans c2 (lt_of_mem_keys (p := fun x => x < k) h1 m)) (lt_irrefl _)
      · exact absurd m (ne_of_gt c2)
      · rw [unwind_inorder e2, ihr hr m e1, inorder_node]
    · cases h
      rfl

/-- Whenever `insert` returns a tree from a search tree, the node count grows by
one for an absent key and stays for a present key. -/
theorem insert_size {t t' : KeyValueAVLNode Key Value} {key : Key} {value : Value}
    (ht : BST t) (h : insert t key value = .ok t') :
    size t' = if key ∈ keys t then size t else size t + 1 := by
  rw [size_eq_length_inorder, size_eq_length_inorder]
  split_ifs with hk
  · rw [insert_inorder_present ht hk h]
  · obtain ⟨pre, post, i1, i2, _, _⟩ := insert_inorder_absent ht hk h
    rw [i1, i2]
    simp
    omega

/-- Whenever `erase` returns a tree from a search tree, the node count drops by one
for a present key and stays for an absent key. -/
theorem erase_size {t t' : KeyValueAVLNode Key Value} {key : Key}
    (ht : BST t) (h : erase t key = .ok t') :
    size t' = if key ∈ keys t then size t - 1 else size t := by
  rw [size_eq_length_inorder, size_eq_length_inorder, erase_inorder ht h]
  split_ifs with hk
  · obtain ⟨⟨k, v⟩, hx, rfl⟩ := List.mem_map.mp hk
    obtain ⟨pre, post, e⟩ := List.append_of_mem hx
    have p := (bst_iff t).mp ht
    rw [e] at p ⊢
    rw [filter_remove Prod.fst pre post (k, v) p]
    simp
  · rw [filter_ne_self]
    intro p hp e
    exact hk (List.mem_map.mpr ⟨p, hp, e⟩)

end OrderedSizes

end KeyValueAVLTree

namespace AVLTree

variable {T : Type}

section OrderedSetSizes

variable [LinearOrder T]

theorem set_insert_size {s s' : AVLNode T} {value : T}
    (hs : BST s) (h : insert s value = .ok s') :
    size s' = if value ∈ inorder s then size s else size s + 1 := by
  rw [insert_eq_lift] at h
  obtain ⟨t', e, rfl⟩ := map_eq_ok h
  rw [KeyValueAVLNode.size_forget, KeyValueAVLTree.insert_size ((bst_lift s).mp hs) e,
    size_lift, inorder_lift]

theorem set_erase_size {s s' : AVLNode T} {value : T}
    (hs : BST s) (h : erase s value = .ok s') :
    size s' = if value ∈ inorder s then size s - 1 else size s := by
  rw [erase_eq_lift] at h
  obtain ⟨t', e, rfl⟩ := map_eq_ok h
  rw [KeyValueAVLNode.size_forget, KeyValueAVLTree.erase_size ((bst_lift s).mp hs) e,
    size_lift, inorder_lift]

end OrderedSetSizes

end AVLTree

/-- C36: the node count changes by exactly one or not at all, in both engines. For
every tree satisfying the search-tree ordering and every key, every tree `insert`
returns has the old `size()` plus 1 if the key was absent and the old `size()` if it
was present, and every tree `erase` returns has the old `size()` minus 1 if the key
was present and the old `size()` if it was absent. A tree is returned whenever the
stored heights are correct. -/
theorem size_changes_by_one_or_not_at_all {Key Value : Type} [LinearOrder Key]
    (t : KeyValueAVLNode Key Value) (s : AVLNode Key) (key : Key) (value : Value)
    (ht : KeyValueAVLTree.BST t) (hs : AVLTree.BST s) :
    ((∀ t', KeyValueAVLTree.insert t key value = .ok t' →
          (key ∉ KeyValueAVLTree.keys t → KeyValueAVLTree.size t' = KeyValueAVLTree.size t + 1) ∧
          (key ∈ KeyValueAVLTree.keys t → KeyValueAVLTree.size t' = KeyValueAVLTree.size t)) ∧
        (∀ t', KeyValueAVLTree.erase t key = .ok t' →
          (key ∈ KeyValueAVLTree.keys t → KeyValueAVLTree.size t' + 1 = KeyValueAVLTree.size t) ∧
          (key ∉ KeyValueAVLTree.keys t → KeyValueAVLTree.size t' = KeyValueAVLTree.size t)) ∧
        (KeyValueAVLTree.HeightsOk t →
          (∃ t', KeyValueAVLTree.insert t key value = .ok t') ∧
          (∃ t', KeyValueAVLTree.erase t key = .ok t'))) ∧
      ((∀ s', AVLTree.insert s key = .ok s' →
          (key ∉ AVLTree.inorder s → AVLTree.size s' = AVLTree.size s + 1) ∧
          (key ∈ AVLTree.inorder s → AVLTree.size s' = AVLTree.size s)) ∧
        (∀ s', AVLTree.erase s key = .ok s' →
          (key ∈ AVLTree.inorder s → AVLTree.size s' + 1 = AVLTree.size s) ∧
          (key ∉ AVLTree.inorder s → AVLTree.size s' = AVLTree.size s)) ∧
        (AVLTree.HeightsOk s →
          (∃ s', AVLTree.insert s key = .ok s') ∧ (∃ s', AVLTree.erase s key = .ok s'))) := by
  refine ⟨⟨fun t' e => ?_, fun t' e => ?_, fun h => ?_⟩,
    ⟨fun s' e => ?_, fun s' e => ?_, fun h => ?_⟩⟩
  · have q := KeyValueAVLTree.insert_size ht e
    exact ⟨fun hk => by rw [q, if_neg hk], fun hk => by rw [q, if_pos hk]⟩
  · have q := KeyValueAVLTree.erase_size ht e
    refine ⟨fun hk => ?_, fun hk => by rw [q, if_neg hk]⟩
    rw [q, if_pos hk]
    have pos : 0 < (KeyValueAVLTree.inorder t).length :=
      List.length_pos_of_mem (List.mem_map.mp hk).choose_spec.1
    rw [KeyValueAVLTree.size_eq_length_inorder]
    omega
  · obtain ⟨t1, e1, _⟩ := KeyValueAVLTree.insert_heightsOk t key value h
    obtain ⟨t2, e2, _⟩ := KeyValueAVLTree.erase_heightsOk t key h
    exact ⟨⟨t1, e1⟩, ⟨t2, e2⟩⟩
  · have q := AVLTree.set_insert_size hs e
    exact ⟨fun hk => by rw [q, if_neg hk], fun hk => by rw [q, if_pos hk]⟩
  · have q := AVLTree.set_erase_size hs e
    refine ⟨fun hk => ?_, fun hk => by rw [q, if_neg hk]⟩
    rw [q, if_pos hk]
    have pos : 0 < (AVLTree.inorder s).length := List.length_pos_of_mem hk
    rw [AVLTree.set_size_eq_length_inorder]
    omega
  · obtain ⟨s1, e1, _⟩ := AVLTree.set_insert_heightsOk s key h
    obtain ⟨s2, e2, _⟩ := AVLTree.set_erase_heightsOk s key h
    exact ⟨⟨s1, e1⟩, ⟨s2, e2⟩⟩

/-- Witness for C36: on the trees with the keys 1 to 4, inserting the present key 3
keeps four nodes and erasing it leaves three. -/
theorem size_changes_by_one_or_not_at_all_witness :
    KeyValueAVLTree.BST sampleMap4 ∧ AVLTree.BST sampleSet4 ∧
      KeyValueAVLTree.size sampleMap4 = 4 ∧
      KeyValueAVLTree.size (.node 2 20 2 (.node 1 10 1 .nullptr .nullptr)
        (.node 4 40 1 .nullptr .nullptr) : KeyValueAVLNode Nat Nat) + 1 = 4 ∧
      AVLTree.size sampleSet4 = 4 :=
  ⟨by decide, by decide,
    ((size_changes_by_one_or_not_at_all sampleMap4 sampleSet4 3 0 (by decide) (by decide)).1.1
      _ rfl).2 (by decide),
    ((size_changes_by_one_or_not_at_all sampleMap4 sampleSet4 3 0 (by decide) (by decide)).1.2.1
      _ rfl).1 (by decide),
    ((size_changes_by_one_or_not_at_all sampleMap4 sampleSet4 3 0 (by decide) (by decide)).2.1
      _ rfl).2 (by decide)⟩

/-- C37: the height changes by at most one per operation, in both engines. For every
tree whose stored heights are correct and whose nodes are height-balanced, and every
key, `insert` returns a tree whose height is the old height or the old height plus 1,
and `erase` returns a tree whose height is the old height or the old height minus 1,
on the stored heights and on the heights of the glossary alike. -/
theorem height_changes_by_at_most_one {Key Value : Type} [LinearOrder Key]
    (t : KeyValueAVLNode Key Value) (s : AVLNode Key) (key : Key) (value : Value)
    (ht : KeyValueAVLTree.HeightsOk t) (bt : KeyValueAVLTree.Balanced t)
    (hs : AVLTree.HeightsOk s) (bs : AVLTree.Balanced s) :
    ((∃ t', KeyValueAVLTree.insert t key value = .ok t' ∧
          (KeyValueAVLTree.height t' = KeyValueAVLTree.height t ∨
            KeyValueAVLTree.height t' = KeyValueAVLTree.height t + 1) ∧
          (KeyValueAVLTree.depth t' = KeyValueAVLTree.depth t ∨
            KeyValueAVLTree.depth t' = KeyValueAVLTree.depth t + 1)) ∧
        (∃ t', KeyValueAVLTree.erase t key = .ok t' ∧
          (KeyValueAVLTree.height t' = KeyValueAVLTree.height t ∨
            KeyValueAVLTree.height t' = KeyValueAVLTree.height t - 1) ∧
          (KeyValueAVLTree.depth t' = KeyValueAVLTree.depth t ∨
            KeyValueAVLTree.depth t' = KeyValueAVLTree.depth t - 1))) ∧
      ((∃ s', AVLTree.insert s key = .ok s' ∧
          (AVLTree.height s' = AVLTree.height s ∨ AVLTree.height s' = AVLTree.height s + 1) ∧
          (AVLTree.depth s' = AVLTree.depth s ∨ AVLTree.depth s' = AVLTree.depth s + 1)) ∧
        (∃ s', AVLTree.erase s key = .ok s' ∧
          (AVLTree.height s' = AVLTree.height s ∨ AVLTree.height s' = AVLTree.height s - 1) ∧
          (AVLTree.depth s' = AVLTree.depth s ∨ AVLTree.depth s' = AVLTree.depth s - 1))) := by
  obtain ⟨t1, e1, h1, _, d1⟩ := KeyValueAVLTree.insert_balanced t key value ht bt
  obtain ⟨t2, e2, h2, _, d2⟩ := KeyValueAVLTree.erase_balanced t key ht bt
  obtain ⟨s1, f1, g1, _, c1⟩ := AVLTree.set_insert_balanced s key hs bs
  obtain ⟨s2, f2, g2, _, c2⟩ := AVLTree.set_erase_balanced s key hs bs
  refine ⟨⟨⟨t1, e1, d1, ?_⟩, ⟨t2, e2, d2, ?_⟩⟩, ⟨⟨s1, f1, c1, ?_⟩, ⟨s2, f2, c2, ?_⟩⟩⟩
  · rwa [KeyValueAVLTree.height_eq_depth h1, KeyValueAVLTree.height_eq_depth ht] at d1
  · rwa [KeyValueAVLTree.height_eq_depth h2, KeyValueAVLTree.height_eq_depth ht] at d2
  · rwa [AVLTree.set_height_eq_depth g1, AVLTree.set_height_eq_depth hs] at c1
  · rwa [AVLTree.set_height_eq_depth g2, AVLTree.set_height_eq_depth hs] at c2

/-- Witness for C37: inserting 3 into the spine 1 -> 2 rotates and keeps the height 2. -/
theorem height_changes_by_at_most_one_witness :
    KeyValueAVLTree.HeightsOk sampleMap ∧ KeyValueAVLTree.Balanced sampleMap ∧
      AVLTree.HeightsOk sampleSet ∧ AVLTree.Balanced sampleSet ∧
      (∃ t', KeyValueAVLTree.insert sampleMap 3 30 = .ok t' ∧
        (KeyValueAVLTree.height t' = KeyValueAVLTree.height sampleMap ∨
          KeyValueAVLTree.height t' = KeyValueAVLTree.height sampleMap + 1) ∧
        (KeyValueAVLTree.depth t' = KeyValueAVLTree.depth sampleMap ∨
          KeyValueAVLTree.depth t' = KeyValueAVLTree.depth sampleMap + 1)) :=
  ⟨by decide, by decide, by decide, by decide,
    (height_changes_by_at_most_one sampleMap sampleSet 3 30
      (by decide) (by decide) (by decide) (by decide)).1.1⟩

/-! ## Claims C38 and C39: the graph containers -/

namespace WeightedUndirectedGraph

variable {W : Type}

theorem visit_neighbors_visited (c : String) (st : BfsState) (ns : List (String × W))
    (x : String) :
    (visit_neighbors c st ns).visited x = (st.visited x || decide (x ∈ ns.map Prod.fst)) := by
  induction ns generalizing st with
  | nil => simp [visit_neighbors]
  | cons n rest ih =>
    rw [visit_neighbors]
    cases hv : st.visited n.1 with
    | false =>
      simp only [Bool.not_false, if_true]
      rw [ih]
      simp only [setAt, List.map_cons, List.mem_cons]
      by_cases hx : x = n.1
      · simp [hx]
      · simp [hx]
    | true =>
      simp only [Bool.not_true, Bool.false_eq_true, if_false]
      rw [ih]
      simp only [List.map_cons, List.mem_cons]
      by_cases hx : x = n.1
      · simp [hx, hv]
      · simp [hx]

theorem visit_neighbors_parent_old (c : String) (st : BfsState) (ns : List (String × W))
    (x : String) (h : st.visited x = true ∨ x ∉ ns.map Prod.fst) :
    (visit_neighbors c st ns).parent x = st.parent x := by
  induction ns generalizing st with
  | nil => rfl
  | cons n rest ih =>
    rw [visit_neighbors]
    have hrest : st.visited x = true ∨ x ∉ rest.map Prod.fst := by
      rcases h with h | h
      · exact Or.inl h
      · exact Or.inr (fun m => h (by simp only [List.map_cons, List.mem_cons]; exact Or.inr m))
    cases hv : st.visited n.1 with
    | false =>
      simp only [Bool.not_false, if_true]
      have hx : x ≠ n.1 := by
        rintro rfl
        rcases h with h | h
        · rw [hv] at h
          cases h
        · exact h (by simp)
      rw [ih]
      · show (if x = n.1 then c else st.parent x) = st.parent x
        rw [if_neg hx]
      · rcases hrest with h' | h'
        · left
          show (if x = n.1 then true else st.visited x) = true
          rw [if_neg hx]
          exact h'
        · exact Or.inr h'
    | true =>
      simp only [Bool.not_true, Bool.false_eq_true, if_false]
      exact ih st hrest

theorem visit_neighbors_parent_new (c : String) (st : BfsState) (ns : List (String × W))
    (x : String) (hv : st.visited x = false) (hx : x ∈ ns.map Prod.fst) :
    (visit_neighbors c st ns).parent x = c := by
  induction ns generalizing st with
  | nil => simp at hx
  | cons n rest ih =>
    rw [visit_neighbors]
    by_cases hxn : x = n.1
    · subst hxn
      rw [hv]
      simp only [Bool.not_false, if_true]
      rw [visit_neighbors_parent_old]
      · show (if n.1 = n.1 then c else st.parent n.1) = c
        rw [if_pos rfl]
      · left
        show (if n.1 = n.1 then true else st.visited n.1) = true
        rw [if_pos rfl]
    · have hr : x ∈ rest.map Prod.fst := by
        simp only [List.map_cons, List.mem_cons] at hx
        exact hx.resolve_left hxn
      cases hn : st.visited n.1 with
      | false =>
        simp only [Bool.not_false, if_true]
        refine ih _ ?_ hr
        show (if x = n.1 then true else st.visited x) = false
        rw [if_neg hxn]
        exact hv
      | true =>
        simp only [Bool.not_true, Bool.false_eq_true, if_false]
        exact ih st hv hr

theorem visit_neighbors_q (c : String) (st : BfsState) (ns : List (String × W)) :
    ∃ news, (visit_neighbors c st ns).q = st.q ++ news ∧
      ∀ x, x ∈ news ↔ (x ∈ ns.map Prod.fst ∧ st.visited x = false) := by
  induction ns generalizing st with
  | nil => exact ⟨[], by simp [visit_neighbors], by simp⟩
  | cons n rest ih =>
    rw [visit_neighbors]
    cases hv : st.visited n.1 with
    | false =>
      simp only [Bool.not_false, if_true]
      obtain ⟨news, e, m⟩ := ih ⟨setAt st.visited n.1 true, setAt st.parent n.1 c, st.q ++ [n.1]⟩
      refine ⟨n.1 :: news, by rw [e]; simp, fun x => ?_⟩
      rw [List.mem_cons, m]
      simp only [setAt, List.map_cons, List.mem_cons]
      by_cases hx : x = n.1
      · simp [hx, hv]
      · simp [hx]
    | true =>
      simp only [Bool.not_true, Bool.false_eq_true, if_false]
      obtain ⟨news, e, m⟩ := ih st
      refine ⟨news, e, fun x => ?_⟩
      rw [m]
      simp only [List.map_cons, List.mem_cons]
      by_cases hx : x = n.1
      · simp [hx, hv]
      · simp [hx]

end WeightedUndirectedGraph

namespace WeightedUndirectedGraph

variable {W : Type}

theorem getNeighbors_allNames (g : Graph W) (u : String) (n : String × W)
    (h : n ∈ getNeighbors g u) : n.1 ∈ allNames g := by
  unfold getNeighbors at h
  cases hf : UnorderedMap.find g.adjacencyList u with
  | none =>
    rw [hf] at h
    simp at h
  | some ns =>
    rw [hf] at h
    simp only at h
    unfold UnorderedMap.find at hf
    obtain ⟨p, hp, e⟩ := Option.map_eq_some'.mp hf
    have hm := List.mem_of_find?_eq_some hp
    unfold allNames
    rw [List.mem_flatMap]
    exact ⟨p, hm, List.mem_map.mpr ⟨n, by rw [e]; exact h, rfl⟩⟩

theorem filter_length_lt {α : Type} (p q : α → Bool) (l : List α) (x : α)
    (hpq : ∀ a, p a = true → q a = true) (hx : x ∈ l) (hq : q x = true) (hp : p x = false) :
    (l.filter p).length + 1 ≤ (l.filter q).length := by
  induction l with
  | nil => simp at hx
  | cons a rest ih =>
    have mono : (rest.filter p).length ≤ (rest.filter q).length := by
      clear ih hx
      induction rest with
      | nil => simp
      | cons b r ihr =>
        simp only [List.filter_cons]
        cases hb : p b with
        | false =>
          simp only [Bool.false_eq_true, if_false]
          split_ifs
          · simp only [List.length_cons]
            omega
          · exact ihr
        | true =>
          simp only [hpq b hb, if_true, List.length_cons]
          omega
    rcases List.mem_cons.mp hx with rfl | hx
    · simp only [List.filter_cons, hp, hq, Bool.false_eq_true, if_false, if_true,
        List.length_cons]
      omega
    · have := ih hx
      simp only [List.filter_cons]
      cases ha : p a with
      | false =>
        simp only [Bool.false_eq_true, if_false]
        split_ifs
        · simp only [List.length_cons]
          omega
        · exact this
      | true =>
        simp only [hpq a ha, if_true, List.length_cons]
        omega

theorem visit_neighbors_potential (g : Graph W) (c : String) (st : BfsState)
    (ns : List (String × W)) (h : ∀ n ∈ ns, n.1 ∈ allNames g) :
    potential g (visit_neighbors c st ns) ≤ potential g st := by
  induction ns generalizing st with
  | nil => exact le_refl _
  | cons n rest ih =>
    rw [visit_neighbors]
    have hrest : ∀ m ∈ rest, m.1 ∈ allNames g := fun m hm => h m (List.mem_cons_of_mem _ hm)
    cases hv : st.visited n.1 with
    | false =>
      simp only [Bool.not_false, if_true]
      refine le_trans (ih _ hrest) ?_
      have key := filter_length_lt (fun u => !(setAt st.visited n.1 true) u)
        (fun u => !st.visited u) (allNames g) n.1
        (fun a ha => by
          simp only [setAt] at ha
          by_cases e : a = n.1
          · rw [if_pos e] at ha
            cases ha
          · rw [if_neg e] at ha
            exact ha)
        (h n (List.mem_cons_self _ _)) (by simp [hv])
        (by simp [setAt])
      simp only [potential, List.length_append, List.length_singleton]
      omega
    | true =>
      simp only [Bool.not_true, Bool.false_eq_true, if_false]
      exact ih st hrest

end WeightedUndirectedGraph

namespace WeightedUndirectedGraph

variable {W : Type}

/-- One iteration of the outer loop that does not find `end` keeps the invariant
and lowers the measure. -/
theorem bfsInv_step {g : Graph W} {start end_ : String} {B : Nat} {d : String → Nat}
    {st : BfsState} {c : String} {rest : List String}
    (hn : ∀ u n, n ∈ getNeighbors g u → n.1 ≠ "")
    (inv : BfsInv g start end_ B d st) (hq : st.q = c :: rest) (hc : c ≠ end_) :
    ∃ d', BfsInv g start end_ B d'
        (visit_neighbors c { st with q := rest } (getNeighbors g c)) ∧
      potential g (visit_neighbors c { st with q := rest } (getNeighbors g c)) + 1 ≤
        potential g st := by
  have hvis := visit_neighbors_visited c { st with q := rest } (getNeighbors g c)
  have hpo := visit_neighbors_parent_old c { st with q := rest } (getNeighbors g c)
  have hpn := visit_neighbors_parent_new c { st with q := rest } (getNeighbors g c)
  obtain ⟨news, hq', hnews⟩ := visit_neighbors_q c { st with q := rest } (getNeighbors g c)
  have hpot := visit_neighbors_potential g c { st with q := rest } (getNeighbors g c)
    (fun n hm => getNeighbors_allNames g c n hm)
  generalize visit_neighbors c { st with q := rest } (getNeighbors g c) = st' at *
  simp only at hvis hpo hpn hq' hnews
  -- the bookkeeping facts
  have hcq : c ∈ st.q := by rw [hq]; exact List.mem_cons_self _ _
  have hcv : st.visited c = true := inv.q_vis c hcq
  have hsorted := inv.sorted
  rw [hq, List.pairwise_cons] at hsorted
  have hupper : ∀ w, st.visited w = true → d w ≤ d c + 1 :=
    inv.upper c (by rw [hq]; simp)
  have vis_iff : ∀ x, st'.visited x = true ↔
      (st.visited x = true ∨ x ∈ (getNeighbors g c).map Prod.fst) := by
    intro x
    rw [hvis]
    simp
  have P : potential g st' + 1 ≤ potential g st := by
    have e : potential g st = potential g { st with q := rest } + 1 := by
      simp only [potential, hq, List.length_cons]
      omega
    omega
  obtain ⟨d', hd_old, hd_new⟩ : ∃ d' : String → Nat,
      (∀ x, st.visited x = true → d' x = d x) ∧
      (∀ x, st.visited x = false → x ∈ (getNeighbors g c).map Prod.fst → d' x = d c + 1) :=
    ⟨fun x => if st.visited x = true then d x
        else if x ∈ (getNeighbors g c).map Prod.fst then d c + 1 else d x,
      fun x hx => if_pos hx,
      fun x hx hm => by
        show (if st.visited x = true then d x
          else if x ∈ (getNeighbors g c).map Prod.fst then d c + 1 else d x) = d c + 1
        rw [if_neg (by rw [hx]; decide), if_pos hm]⟩
  refine ⟨d', ?_, P⟩
  have A : ∀ w, st'.visited w = true → d' w ≤ d c + 1 := by
    intro w hw
    cases hv : st.visited w with
    | true =>
      rw [hd_old w hv]
      exact hupper w hv
    | false =>
      rcases (vis_iff w).mp hw with h | h
      · rw [hv] at h
        cases h
      · rw [hd_new w hv h]
  have Bq : ∀ h ∈ rest ++ news, d c ≤ d' h := by
    intro h hm
    rcases List.mem_append.mp hm with hm | hm
    · rw [hd_old h (inv.q_vis h (by rw [hq]; exact List.mem_cons_of_mem _ hm))]
      exact hsorted.1 h hm
    · obtain ⟨h1, h2⟩ := (hnews h).mp hm
      rw [hd_new h h2 h1]
      omega
  have old_of_not_new : ∀ v, st'.visited v = true → v ∉ rest ++ news →
      st.visited v = true := by
    intro v hv hnot
    cases hvv : st.visited v with
    | true => rfl
    | false =>
      rcases (vis_iff v).mp hv with h | h
      · rw [hvv] at h
        cases h
      · exact absurd (List.mem_append_right _ ((hnews v).mpr ⟨h, hvv⟩)) hnot
  refine
    { vis_start := (vis_iff start).mpr (Or.inl inv.vis_start)
      d_start := by rw [hd_old start inv.vis_start]; exact inv.d_start
      q_vis := ?_
      sorted := ?_
      upper := ?_
      closed := ?_
      not_end := ?_
      parent := ?_
      parent_start := by rw [hpo start (Or.inl inv.vis_start)]; exact inv.parent_start
      nonempty := ?_
      walk := ?_
      bound := ?_ }
  · intro v hv
    rw [hq'] at hv
    rcases List.mem_append.mp hv with hv | hv
    · exact (vis_iff v).mpr (Or.inl (inv.q_vis v (by rw [hq]; exact List.mem_cons_of_mem _ hv)))
    · exact (vis_iff v).mpr (Or.inr ((hnews v).mp hv).1)
  · rw [hq', List.pairwise_append]
    refine ⟨?_, ?_, ?_⟩
    · refine hsorted.2.imp_of_mem ?_
      intro a b ha hb hab
      rw [hd_old a (inv.q_vis a (by rw [hq]; exact List.mem_cons_of_mem _ ha)),
        hd_old b (inv.q_vis b (by rw [hq]; exact List.mem_cons_of_mem _ hb))]
      exact hab
    · refine List.pairwise_of_forall_mem_list ?_
      intro a ha b hb
      obtain ⟨a1, a2⟩ := (hnews a).mp ha
      obtain ⟨b1, b2⟩ := (hnews b).mp hb
      rw [hd_new a a2 a1, hd_new b b2 b1]
    · intro a ha b hb
      obtain ⟨b1, b2⟩ := (hnews b).mp hb
      rw [hd_new b b2 b1]
      exact A a ((vis_iff a).mpr
        (Or.inl (inv.q_vis a (by rw [hq]; exact List.mem_cons_of_mem _ ha))))
  · intro h hh w hw
    rw [hq'] at hh
    have := Bq h (List.mem_of_mem_head? hh)
    have := A w hw
    omega
  · intro v hv hnot w hw
    rw [hq'] at hnot
    have hov := old_of_not_new v hv hnot
    by_cases e : v = c
    · subst e
      refine ⟨(vis_iff w).mpr (Or.inr hw), ?_⟩
      rw [hd_old v hov]
      exact A w ((vis_iff w).mpr (Or.inr hw))
    · have hnq : v ∉ st.q := by
        rw [hq]
        intro hm
        rcases List.mem_cons.mp hm with hm | hm
        · exact e hm
        · exact hnot (List.mem_append_left _ hm)
      obtain ⟨c1, c2⟩ := inv.closed v hov hnq w hw
      refine ⟨(vis_iff w).mpr (Or.inl c1), ?_⟩
      rw [hd_old w c1, hd_old v hov]
      exact c2
  · intro v hv hnot
    rw [hq'] at hnot
    have hov := old_of_not_new v hv hnot
    by_cases e : v = c
    · rw [e]
      exact hc
    · refine inv.not_end v hov ?_
      rw [hq]
      intro hm
      rcases List.mem_cons.mp hm with hm | hm
      · exact e hm
      · exact hnot (List.mem_append_left _ hm)
  · intro v hv hvs
    cases hvv : st.visited v with
    | true =>
      obtain ⟨p1, p2, p3⟩ := inv.parent v hvv hvs
      rw [hpo v (Or.inl hvv)]
      refine ⟨(vis_iff _).mpr (Or.inl p1), p2, ?_⟩
      rw [hd_old v hvv, hd_old _ p1]
      exact p3
    | false =>
      have hm : v ∈ (getNeighbors g c).map Prod.fst := by
        rcases (vis_iff v).mp hv with h | h
        · rw [hvv] at h
          cases h
        · exact h
      rw [hpn v hvv hm]
      refine ⟨(vis_iff c).mpr (Or.inl hcv), hm, ?_⟩
      rw [hd_new v hvv hm, hd_old c hcv]
  · intro v hv
    cases hvv : st.visited v with
    | true => exact inv.nonempty v hvv
    | false =>
      rcases (vis_iff v).mp hv with h | h
      · rw [hvv] at h
        cases h
      · obtain ⟨n, hn1, rfl⟩ := List.mem_map.mp h
        exact hn c n hn1
  · intro v hv
    cases hvv : st.visited v with
    | true =>
      rw [hd_old v hvv]
      exact inv.walk v hvv
    | false =>
      rcases (vis_iff v).mp hv with h | h
      · rw [hvv] at h
        cases h
      · rw [hd_new v hvv h]
        exact Walk.step (inv.walk c hcv) h
  · intro v hv
    have b1 := inv.bound c hcv
    cases hvv : st.visited v with
    | true =>
      rw [hd_old v hvv]
      have := inv.bound v hvv
      omega
    | false =>
      rcases (vis_iff v).mp hv with h | h
      · rw [hvv] at h
        cases h
      · rw [hd_new v hvv h]
        omega

end WeightedUndirectedGraph

namespace WeightedUndirectedGraph

variable {W : Type}

/-- Whatever the inner loop returns from a visited vertex `v` is the entry content of
`path` followed by the chain of parents from `v` back to `start`. -/
theorem reconstruct_spec {g : Graph W} {start end_ : String} {B : Nat} {d : String → Nat}
    {st : BfsState} (inv : BfsInv g start end_ B d st) :
    ∀ (fuel : Nat) (v : String) (path p : List String), st.visited v = true →
      reconstruct st.parent fuel v path = some p →
      ∃ chain, p = path ++ chain ∧ chain.length = d v + 1 ∧ chain.head? = some v ∧
        chain.getLast? = some start ∧ chain.Chain' (fun a b => Adjacent g b a) := by
  intro fuel
  induction fuel with
  | zero =>
    intro v path p _ h
    cases h
  | succ fuel ih =>
    intro v path p hv h
    rw [reconstruct, if_neg (inv.nonempty v hv)] at h
    by_cases e : v = start
    · subst e
      rw [inv.parent_start] at h
      cases fuel with
      | zero => cases h
      | succ f =>
        rw [reconstruct, if_pos rfl] at h
        cases h
        exact ⟨[v], rfl, by rw [inv.d_start]; rfl, rfl, rfl, List.chain'_singleton _⟩
    · obtain ⟨p1, p2, p3⟩ := inv.parent v hv e
      obtain ⟨chain, c1, c2, c3, c4, c5⟩ := ih (st.parent v) (path ++ [v]) p p1 h
      refine ⟨v :: chain, by rw [c1]; simp, by rw [List.length_cons, c2, p3], rfl, ?_, ?_⟩
      · cases chain with
        | nil => cases c3
        | cons a l => simpa [List.getLast?_cons_cons] using c4
      · rw [List.chain'_cons']
        refine ⟨fun y hy => ?_, c5⟩
        rw [c3] at hy
        cases hy
        exact p2

/-- With enough fuel the inner loop returns from every visited vertex. -/
theorem reconstruct_isSome {g : Graph W} {start end_ : String} {B : Nat} {d : String → Nat}
    {st : BfsState} (inv : BfsInv g start end_ B d st) :
    ∀ (fuel : Nat) (v : String) (path : List String), st.visited v = true → d v + 2 ≤ fuel →
      (reconstruct st.parent fuel v path).isSome = true := by
  intro fuel
  induction fuel with
  | zero =>
    intro v path _ h
    omega
  | succ fuel ih =>
    intro v path hv h
    rw [reconstruct, if_neg (inv.nonempty v hv)]
    by_cases e : v = start
    · subst e
      rw [inv.parent_start]
      cases fuel with
      | zero => omega
      | succ f =>
        rw [reconstruct, if_pos rfl]
        rfl
    · obtain ⟨p1, _, p3⟩ := inv.parent v hv e
      exact ih (st.parent v) (path ++ [v]) p1 (by omega)

/-- Before `end` is taken from the queue, every walk shorter than its depth ends in a
visited vertex at most as deep as the walk is long. -/
theorem walk_visited {g : Graph W} {start end_ : String} {B : Nat} {d : String → Nat}
    {st : BfsState} (inv : BfsInv g start end_ B d st) {c : String} {rest : List String}
    (hq : st.q = c :: rest) {n : Nat} {w : String} (hw : Walk g start n w) (hlt : n < d c) :
    st.visited w = true ∧ d w ≤ n := by
  induction hw with
  | refl => exact ⟨inv.vis_start, by rw [inv.d_start]⟩
  | step hw' hadj ih =>
    rename_i m v w'
    obtain ⟨hv, hd⟩ := ih (by omega)
    have hnq : v ∉ st.q := by
      rw [hq]
      intro hm
      have hs := inv.sorted
      rw [hq, List.pairwise_cons] at hs
      rcases List.mem_cons.mp hm with hm | hm
      · rw [hm] at hd
        omega
      · have := hs.1 v hm
        omega
    obtain ⟨c1, c2⟩ := inv.closed v hv hnq w' hadj
    exact ⟨c1, by omega⟩

/-- With an empty queue every vertex a walk from `start` reaches is visited. -/
theorem walk_visited_of_empty {g : Graph W} {start end_ : String} {B : Nat} {d : String → Nat}
    {st : BfsState} (inv : BfsInv g start end_ B d st) (hq : st.q = [])
    {n : Nat} {w : String} (hw : Walk g start n w) : st.visited w = true := by
  induction hw with
  | refl => exact inv.vis_start
  | step hw' hadj ih =>
    rename_i m v w'
    exact (inv.closed v ih (by rw [hq]; simp) w' hadj).1

/-- What the outer loop returns, whatever the fuel: `true` with the entry content of
`path` reversed behind a shortest walk from `start` to `end`, or `false` with `path`
as it was when no walk reaches `end`. -/
theorem bfs_loop_spec {g : Graph W} {start end_ : String} {B : Nat}
    (hn : ∀ u n, n ∈ getNeighbors g u → n.1 ≠ "") (fuel : Nat) (path : List String) :
    ∀ (steps : Nat) (st : BfsState) (d : String → Nat) (b : Bool) (p : List String),
      BfsInv g start end_ B d st → bfs_loop g end_ fuel steps st path = some (b, p) →
      (b = true → ∃ sp, p = sp ++ path.reverse ∧ sp.head? = some start ∧
          sp.getLast? = some end_ ∧ sp.Chain' (Adjacent g) ∧
          Walk g start (sp.length - 1) end_ ∧ ∀ n, Walk g start n end_ → sp.length - 1 ≤ n) ∧
        (b = false → p = path ∧ ∀ n, ¬ Walk g start n end_) := by
  intro steps
  induction steps with
  | zero =>
    intro st d b p _ h
    cases h
  | succ steps ih =>
    intro st d b p inv h
    rw [bfs_loop] at h
    cases hq : st.q with
    | nil =>
      rw [hq] at h
      cases h
      refine ⟨fun e => (by cases e), fun _ => ⟨rfl, fun n hw => ?_⟩⟩
      exact inv.not_end end_ (walk_visited_of_empty inv hq hw) (by rw [hq]; simp) rfl
    | cons c rest =>
      rw [hq] at h
      simp only at h
      by_cases hc : c = end_
      · rw [if_pos hc] at h
        subst hc
        have hcv : st.visited c = true := inv.q_vis c (by rw [hq]; simp)
        obtain ⟨p0, e0, e1⟩ := Option.map_eq_some'.mp h
        cases e1
        obtain ⟨chain, c1, c2, c3, c4, c5⟩ := reconstruct_spec inv fuel c path p0 hcv e0
        refine ⟨fun _ => ⟨chain.reverse, by rw [c1, List.reverse_append], ?_, ?_, ?_, ?_, ?_⟩,
          fun e => by cases e⟩
        · rw [List.head?_reverse, c4]
        · rw [List.getLast?_reverse, c3]
        · rw [List.chain'_reverse]
          exact c5
        · rw [List.length_reverse, c2]
          exact inv.walk c hcv
        · intro n hw
          rw [List.length_reverse, c2]
          by_contra hlt
          have := (walk_visited inv hq hw (by omega)).2
          omega
      · rw [if_neg hc] at h
        obtain ⟨d', inv', _⟩ := bfsInv_step hn inv hq hc
        exact ih _ d' b p inv' h

/-- With enough fuel the outer loop returns. -/
theorem bfs_loop_isSome {g : Graph W} {start end_ : String} {B : Nat}
    (hn : ∀ u n, n ∈ getNeighbors g u → n.1 ≠ "") (fuel : Nat) (hf : B + 1 ≤ fuel)
    (path : List String) :
    ∀ (steps : Nat) (st : BfsState) (d : String → Nat),
      BfsInv g start end_ B d st → potential g st < steps →
      (bfs_loop g end_ fuel steps st path).isSome = true := by
  intro steps
  induction steps with
  | zero =>
    intro st d _ h
    omega
  | succ steps ih =>
    intro st d inv h
    rw [bfs_loop]
    cases hq : st.q with
    | nil => rfl
    | cons c rest =>
      simp only
      by_cases hc : c = end_
      · rw [if_pos hc]
        subst hc
        have hcv : st.visited c = true := inv.q_vis c (by rw [hq]; simp)
        have hb := inv.bound c hcv
        have hpos : 1 ≤ potential g st := by
          simp only [potential, hq, List.length_cons]
          omega
        have := reconstruct_isSome inv fuel c path hcv (by omega)
        rw [Option.isSome_map']
        exact this
      · rw [if_neg hc]
        obtain ⟨d', inv', hp⟩ := bfsInv_step hn inv hq hc
        exact ih _ d' inv' (by omega)

/-- The invariant holds when the outer loop is entered. -/
theorem bfsInv_init (g : Graph W) (start end_ : String) (hs : start ≠ "") :
    BfsInv g start end_
      (potential g ⟨setAt (fun _ => false) start true, setAt (fun _ => "") start "", [start]⟩)
      (fun _ => 0)
      ⟨setAt (fun _ => false) start true, setAt (fun _ => "") start "", [start]⟩ := by
  have only : ∀ v, setAt (fun _ => false) start true v = true → v = start := by
    intro v hv
    by_contra e
    simp only [setAt, if_neg e] at hv
    cases hv
  refine
    { vis_start := by simp [setAt]
      d_start := rfl
      q_vis := ?_
      sorted := List.pairwise_singleton _ _
      upper := fun _ _ _ _ => Nat.zero_le _
      closed := ?_
      not_end := ?_
      parent := ?_
      parent_start := by simp [setAt]
      nonempty := ?_
      walk := ?_
      bound := fun _ _ => by simp }
  · intro v hv
    rw [List.mem_singleton] at hv
    simp [setAt, hv]
  · intro v hv hnq
    exact absurd (List.mem_singleton.mpr (only v hv)) hnq
  · intro v hv hnq
    exact absurd (List.mem_singleton.mpr (only v hv)) hnq
  · intro v hv hne
    exact absurd (only v hv) hne
  · intro v hv
    rw [only v hv]
    exact hs
  · intro v hv
    rw [only v hv]
    exact Walk.refl

theorem potential_init_le (g : Graph W) (start : String) :
    potential g ⟨setAt (fun _ => false) start true, setAt (fun _ => "") start "", [start]⟩ ≤
      (allNames g).length + 1 := by
  simp only [potential, List.length_singleton]
  have := List.length_filter_le (fun u => !setAt (fun _ => false) start true u) (allNames g)
  omega

end WeightedUndirectedGraph

/-- Counterexample for C38 as stated. On the graph a - b - c, with `path` holding
`"x"` on entry, `find_path_bfs("a", "c", path)` returns true and leaves
`a, b, c, x` in `path`, which does not end with `"c"`: the function appends to `path`
and reverses all of it. On the graph whose only vertex is the empty string,
`find_path_bfs("", "", path)` returns true and leaves `path` empty, so `path` does not
begin with the start vertex: the empty string is what ends the walk back along the
parents. -/
theorem find_path_bfs_counterexample :
    (WeightedUndirectedGraph.contains_vertex sampleGraph "a" = true ∧
      WeightedUndirectedGraph.contains_vertex sampleGraph "c" = true ∧
      WeightedUndirectedGraph.find_path_bfs 10 sampleGraph "a" "c" ["x"] =
        some (true, ["a", "b", "c", "x"]) ∧
      (["a", "b", "c", "x"] : List String).getLast? ≠ some "c") ∧
    (WeightedUndirectedGraph.contains_vertex emptyNameGraph "" = true ∧
      WeightedUndirectedGraph.find_path_bfs 10 emptyNameGraph "" "" [] = some (true, []) ∧
      ([] : List String).head? ≠ some "") :=
  ⟨⟨rfl, rfl, rfl, by decide⟩, ⟨rfl, rfl, by decide⟩⟩

/-- C38, amended: `find_path_bfs` reconstructs a shortest unweighted path. For every
weighted graph in which no adjacency list holds the empty string, every non-empty
`start` and every `end` that were both added with `add_vertex`, and every content of
`path` on entry, `find_path_bfs(start, end, path)` returns (with fuel for the number
of entries of the adjacency lists plus 2 the loops of the model end) and returns
true iff `end` is reachable from `start` along edges. Then `path` holds a path `sp`
followed by the reverse of its content on entry, so `sp` alone when `path` was empty
on entry; `sp` begins with `start`, ends with `end`, every two consecutive entries of
`sp` are joined by an edge, and no walk from `start` to `end` has fewer edges. When it
returns false, `path` is left unchanged. -/
theorem find_path_bfs_shortest_path {W : Type} (g : WeightedUndirectedGraph.Graph W)
    (start end_ : String) (path : List String)
    (hs : WeightedUndirectedGraph.contains_vertex g start = true)
    (he : WeightedUndirectedGraph.contains_vertex g end_ = true)
    (hstart : start ≠ "") (hnames : ∀ n ∈ WeightedUndirectedGraph.allNames g, n ≠ "") :
    (∀ fuel, (WeightedUndirectedGraph.allNames g).length + 2 ≤ fuel →
        (WeightedUndirectedGraph.find_path_bfs fuel g start end_ path).isSome = true) ∧
      ∀ fuel b p, WeightedUndirectedGraph.find_path_bfs fuel g start end_ path = some (b, p) →
        (b = true ↔ ∃ n, WeightedUndirectedGraph.Walk g start n end_) ∧
        (b = true → ∃ sp, p = sp ++ path.reverse ∧ sp.head? = some start ∧
          sp.getLast? = some end_ ∧ sp.Chain' (WeightedUndirectedGraph.Adjacent g) ∧
          ∀ n, WeightedUndirectedGraph.Walk g start n end_ → sp.length - 1 ≤ n) ∧
        (b = false → p = path) := by
  have hn : ∀ u n, n ∈ WeightedUndirectedGraph.getNeighbors g u → n.1 ≠ "" :=
    fun u n h => hnames n.1 (WeightedUndirectedGraph.getNeighbors_allNames g u n h)
  have inv := WeightedUndirectedGraph.bfsInv_init g start end_ hstart
  have unfold_eq : ∀ fuel, WeightedUndirectedGraph.find_path_bfs fuel g start end_ path =
      WeightedUndirectedGraph.bfs_loop g end_ fuel fuel
        ⟨WeightedUndirectedGraph.setAt (fun _ => false) start true,
          WeightedUndirectedGraph.setAt (fun _ => "") start "", [start]⟩ path := by
    intro fuel
    simp [WeightedUndirectedGraph.find_path_bfs, hs, he]
  refine ⟨fun fuel hf => ?_, fun fuel b p h => ?_⟩
  · rw [unfold_eq]
    have hp := WeightedUndirectedGraph.potential_init_le g start
    exact WeightedUndirectedGraph.bfs_loop_isSome hn fuel (by omega) path fuel _ _ inv (by omega)
  · rw [unfold_eq] at h
    obtain ⟨h1, h2⟩ := WeightedUndirectedGraph.bfs_loop_spec hn fuel path fuel _ _ b p inv h
    refine ⟨⟨fun hb => ?_, fun hw => ?_⟩, fun hb => ?_, fun hb => (h2 hb).1⟩
    · obtain ⟨sp, _, _, _, _, w, _⟩ := h1 hb
      exact ⟨_, w⟩
    · cases b with
      | true => rfl
      | false =>
        obtain ⟨n, w⟩ := hw
        exact absurd w ((h2 rfl).2 n)
    · obtain ⟨sp, e1, e2, e3, e4, _, e6⟩ := h1 hb
      exact ⟨sp, e1, e2, e3, e4, e6⟩

/-- Witness for C38: on the graph a - b - c the search from a to c returns, with the
path a, b, c of two edges. -/
theorem find_path_bfs_shortest_path_witness :
    WeightedUndirectedGraph.contains_vertex sampleGraph "a" = true ∧
      WeightedUndirectedGraph.contains_vertex sampleGraph "c" = true ∧
      ("a" : String) ≠ "" ∧
      (∀ n ∈ WeightedUndirectedGraph.allNames sampleGraph, n ≠ "") ∧
      WeightedUndirectedGraph.find_path_bfs 10 sampleGraph "a" "c" [] =
        some (true, ["a", "b", "c"]) ∧
      ∃ sp, ["a", "b", "c"] = sp ++ ([] : List String).reverse ∧ sp.head? = some "a" ∧
        sp.getLast? = some "c" ∧ sp.Chain' (WeightedUndirectedGraph.Adjacent sampleGraph) ∧
        ∀ n, WeightedUndirectedGraph.Walk sampleGraph "a" n "c" → sp.length - 1 ≤ n :=
  ⟨by decide, by decide, by decide, by decide, rfl,
    ((find_path_bfs_shortest_path sampleGraph "a" "c" [] (by decide) (by decide) (by decide)
      (by decide)).2 10 true ["a", "b", "c"] rfl).2.1 rfl⟩

namespace UnorderedMap

variable {K V : Type} [DecidableEq K]

theorem find_filter_ne (m : List (K × V)) (key k : K) (h : k ≠ key) :
    find (m.filter (fun p => decide (p.1 ≠ key))) k = find m k := by
  induction m with
  | nil => rfl
  | cons a rest ih =>
    unfold find at ih ⊢
    rw [List.filter_cons]
    by_cases e : a.1 = key
    · have hk : ¬ a.1 = k := fun e' => h (e'.symm.trans e)
      rw [if_neg (by simpa using e), List.find?_cons_of_neg _ (by simpa using hk)]
      exact ih
    · rw [if_pos (by simpa using e)]
      by_cases e' : a.1 = k
      · rw [List.find?_cons_of_pos _ (by simpa using e'),
          List.find?_cons_of_pos _ (by simpa using e')]
      · rw [List.find?_cons_of_neg _ (by simpa using e'),
          List.find?_cons_of_neg _ (by simpa using e')]
        exact ih

theorem find_assign (m : List (K × V)) (key k : K) (value : V) :
    find (assign m key value) k = if k = key then some value else find m k := by
  by_cases h : k = key
  · subst h
    simp [find, assign]
  · rw [if_neg h]
    have h' : ¬ key = k := fun e => h e.symm
    have := find_filter_ne m key k h
    unfold find at this ⊢
    simp only [assign, List.find?_cons, h', decide_False]
    exact this

theorem find_erase (m : List (K × V)) (key k : K) (h : k ≠ key) :
    find (erase m key) k = find m k :=
  find_filter_ne m key k h

end UnorderedMap

namespace UndirectedGraph

variable {W : Type}

theorem mappingConsistent_init : MappingConsistent (Graph.init : Graph W) :=
  ⟨fun v i h => (by cases h), fun e h => (by cases h)⟩

theorem mappingConsistent_clear (g : Graph W) : MappingConsistent (clear g) :=
  ⟨fun v i h => (by cases h), fun e h => (by cases h)⟩

/-- Adding a vertex keeps the mapping consistent. -/
theorem mappingConsistent_add_vertex {g : Graph W} (h : MappingConsistent g) (v : String) :
    MappingConsistent (add_vertex g v) := by
  unfold add_vertex
  split_ifs with hc
  · exact h
  · refine ⟨fun w i hw => ?_, fun e he => ?_⟩
    · simp only [UnorderedMap.find_assign] at hw
      split_ifs at hw with e
      · cases hw
        subst e
        simp
      · have := h.1 w i hw
        have hlt : i < g.vertices_.length := by
          by_contra hge
          rw [List.getElem?_eq_none (by omega)] at this
          cases this
        show (g.vertices_ ++ [v])[i]? = some w
        rw [List.getElem?_append_left hlt]
        exact this
    · obtain ⟨h1, h2⟩ := h.2 e he
      simp only [contains_vertex, UnorderedMap.find_assign] at h1 h2 ⊢
      constructor
      · split_ifs
        · rfl
        · exact h1
      · split_ifs
        · rfl
        · exact h2

/-- Adding an edge keeps the mapping consistent. -/
theorem mappingConsistent_add_edge {g : Graph W} (h : MappingConsistent g) (v1 v2 : String)
    (weight : W) : MappingConsistent (add_edge g v1 v2 weight) := by
  unfold add_edge
  split_ifs with c1 c2 c3
  · exact h
  · exact h
  · exact h
  · refine ⟨h.1, fun e he => ?_⟩
    rcases List.mem_append.mp he with he | he
    · exact h.2 e he
    · rw [List.mem_singleton] at he
      subst he
      simp only [Bool.or_eq_true, Bool.not_eq_true', not_or, Bool.not_eq_false] at c1
      exact c1

/-- Removing an edge keeps the mapping consistent. -/
theorem mappingConsistent_remove_edge {g : Graph W} (h : MappingConsistent g) (v1 v2 : String) :
    MappingConsistent (remove_edge g v1 v2) := by
  unfold remove_edge
  split_ifs
  · exact h
  · exact ⟨h.1, fun e he => h.2 e (List.mem_of_mem_filter he)⟩

/-- With a consistent mapping `neighbors(v)` returns the other ends of the edges at
`v`, in the order of `edges_`. -/
theorem neighbors_of_consistent {g : Graph W} (h : MappingConsistent g) (v : String) :
    neighbors g v = .ok (g.edges_.filterMap (other_end v)) := by
  have key : ∀ (es : List (edge W)) (acc : List String),
      (∀ e ∈ es, contains_vertex g e.v1 = true ∧ contains_vertex g e.v2 = true) →
      es.foldlM (fun result e =>
        if e.v1 = v then do
          let i ← mapping_at g e.v2
          let x ← vertices_index g i
          pure (result ++ [x])
        else if e.v2 = v then do
          let i ← mapping_at g e.v1
          let x ← vertices_index g i
          pure (result ++ [x])
        else
          pure result) acc = (.ok (acc ++ es.filterMap (other_end v)) :
            Except AccessFault (List String)) := by
    intro es
    induction es with
    | nil =>
      intro acc _
      simp
      rfl
    | cons e rest ih =>
      intro acc hes
      have lookup : ∀ w, contains_vertex g w = true →
          (mapping_at g w >>= fun i => vertices_index g i >>= fun x => pure (acc ++ [x])) =
            (.ok (acc ++ [w]) : Except AccessFault (List String)) := by
        intro w hw
        unfold contains_vertex at hw
        obtain ⟨i, hi⟩ := Option.isSome_iff_exists.mp hw
        have hv := h.1 w i hi
        unfold mapping_at vertices_index
        rw [hi]
        show ((match g.vertices_[i]? with
          | some v => Except.ok v
          | none => Except.error AccessFault.out_of_bounds) >>= fun x => pure (acc ++ [x])) = _
        rw [hv]
        rfl
      obtain ⟨h1, h2⟩ := hes e (List.mem_cons_self _ _)
      have hrest := fun e' he' => hes e' (List.mem_cons_of_mem _ he')
      rw [List.foldlM_cons]
      by_cases c1 : e.v1 = v
      · rw [if_pos c1, lookup e.v2 h2]
        show List.foldlM _ (acc ++ [e.v2]) rest = _
        rw [ih (acc ++ [e.v2]) hrest]
        simp [List.filterMap_cons, other_end, c1]
      · rw [if_neg c1]
        by_cases c2 : e.v2 = v
        · rw [if_pos c2, lookup e.v1 h1]
          show List.foldlM _ (acc ++ [e.v1]) rest = _
          rw [ih (acc ++ [e.v1]) hrest]
          simp [List.filterMap_cons, other_end, c1, c2]
        · rw [if_neg c2]
          show List.foldlM _ acc rest = _
          rw [ih acc hrest]
          simp [List.filterMap_cons, other_end, c1, c2]
  have := key g.edges_ [] h.2
  simpa [neighbors] using this

end UndirectedGraph

/-- C39: the vertex index mapping of the undirected `Graph` does not stay consistent
once a vertex is removed. After `add_vertex("a")`, `add_vertex("b")` every binding of
`mapping_` is the index of its vertex in `vertices_`. After `remove_vertex("a")` the
graph contains `"b"`, `mapping_` still binds `"b"` to the index 1, and `vertices_` is
`["b"]`, so the index is past the end of `vertices_`. After `add_vertex("c")` and
`add_edge("c", "b", w)` both `"b"` and `"c"` are bound to 1, `vertices_[mapping_["b"]]`
is `"c"`, and `neighbors("c")` returns `["c"]` although the one edge at `"c"` ends in
`"b"`. -/
theorem remove_vertex_leaves_stale_indices :
    UndirectedGraph.MappingConsistent
        (UndirectedGraph.add_vertex
          (UndirectedGraph.add_vertex (UndirectedGraph.Graph.init : UndirectedGraph.Graph Unit)
            "a") "b") ∧
    (UndirectedGraph.contains_vertex staleGraph "b" = true ∧
      UndirectedGraph.mapping_at staleGraph "b" = .ok 1 ∧
      staleGraph.vertices_ = ["b"] ∧
      UndirectedGraph.vertices_index staleGraph 1 = .error .out_of_bounds ∧
      ¬ UndirectedGraph.MappingConsistent staleGraph) ∧
    (UndirectedGraph.contains_vertex staleGraphWithEdge "b" = true ∧
      UndirectedGraph.contains_vertex staleGraphWithEdge "c" = true ∧
      staleGraphWithEdge.vertices_ = ["b", "c"] ∧
      UndirectedGraph.mapping_at staleGraphWithEdge "b" = .ok 1 ∧
      UndirectedGraph.mapping_at staleGraphWithEdge "c" = .ok 1 ∧
      UndirectedGraph.vertices_index staleGraphWithEdge 1 = .ok "c" ∧
      staleGraphWithEdge.edges_.map (fun e => (e.v1, e.v2)) = [("c", "b")] ∧
      staleGraphWithEdge.edges_.filterMap (UndirectedGraph.other_end "c") = ["b"] ∧
      UndirectedGraph.neighbors staleGraphWithEdge "c" = .ok ["c"]) :=
  ⟨UndirectedGraph.mappingConsistent_add_vertex
      (UndirectedGraph.mappingConsistent_add_vertex UndirectedGraph.mappingConsistent_init "a")
      "b",
    ⟨rfl, rfl, rfl, rfl, fun h => absurd (h.1 "b" 1 rfl) (by decide)⟩,
    ⟨rfl, rfl, rfl, rfl, rfl, rfl, rfl, rfl, rfl⟩⟩
